import Mathlib

/-!
Verification of the quadrant algebra and the tree-level algorithms of
`p4est_algorithms.c` (libsc / p4est, 2007-2008 version).

Embedding conventions.

The C type `p4est_qcoord_t` is `int32_t`.  A coordinate is embedded as its
32-bit two's-complement bit pattern, a `Nat` smaller than `2 ^ 32`.  The signed
value of a pattern `u` is `u` when `u < 2 ^ 31` and `u - 2 ^ 32` otherwise, so
the C test `x >= 0` becomes `u < 2 ^ 31`, the test `x < 0` becomes
`2 ^ 31 ≤ u`, and signed wraparound arithmetic becomes arithmetic modulo
`2 ^ 32` on patterns.  Bitwise C operations translate directly to the `Nat`
bitwise operations on patterns; the arithmetic right shift of a signed value
is made explicit by `asr32` below.  Levels (`int8_t`, always in `[0, 29]`)
are embedded as `Nat`.
-/

/-- Modelled from the spec: the constant `P4EST_MAXLEVEL` lives in the header
`p4est.h`, which is not among the sources; section 3 of the spec fixes
`Lmax = 29`. -/
def P4EST_MAXLEVEL : Nat := 29

/-- Modelled from the spec: `P4EST_ROOT_LEN` is the root side length
`R = 1 << Lmax`. -/
def P4EST_ROOT_LEN : Nat := 2 ^ P4EST_MAXLEVEL

/-- Modelled from the spec: `P4EST_QUADRANT_LEN (l) = h(L) = 1 << (Lmax - L)`,
the side length of a level-`l` quadrant. -/
def P4EST_QUADRANT_LEN (l : Nat) : Nat := 2 ^ (P4EST_MAXLEVEL - l)

/-- Modelled from the spec: `P4EST_LAST_OFFSET (l) = R - h(l)`, the anchor of
the last level-`l` quadrant inside the root. -/
def P4EST_LAST_OFFSET (l : Nat) : Nat := P4EST_ROOT_LEN - P4EST_QUADRANT_LEN l

/-- Signed value of a 32-bit two's-complement pattern. -/
def sval (u : Nat) : Int := if u < 2 ^ 31 then (u : Int) else (u : Int) - 2 ^ 32

/-- Pattern of the bitwise complement `~m` at width 32 (for `m < 2 ^ 32`). -/
def mask32not (m : Nat) : Nat := (2 ^ 32 - 1) ^^^ m

/-- Signed addition `u + d` on int32, returning the result pattern.  Used for
the C idiom of adding a (possibly negative) offset to a coordinate. -/
def add32 (u : Nat) (d : Int) : Nat := (((u : Int) + d) % (2 ^ 32 : Int)).toNat

/-- Arithmetic (sign-extending) right shift of an int32 pattern by `k` bits.
For a non-negative value this is the logical shift; for a negative value the
vacated high bits are filled with ones, which on patterns is the addition of
`2 ^ 32 - 2 ^ (32 - k)`. -/
def asr32 (u k : Nat) : Nat :=
  if u < 2 ^ 31 then u >>> k else u >>> k + (2 ^ 32 - 2 ^ (32 - k))

/-- Sign extension of an int32 pattern to an int64 pattern (the C conversion
of `int32_t` to `uint64_t` used by `p4est_quadrant_linear_id`). -/
def sext64 (u : Nat) : Nat := if u < 2 ^ 31 then u else u + (2 ^ 64 - 2 ^ 32)

/-- Halving loop computing the floor of the base-2 logarithm; the fuel
(always instantiated with 32, enough for any 32-bit value) keeps the
recursion structural. -/
def log2Loop : Nat → Nat → Nat
  | 0, _ => 0
  | fuel + 1, n => if 2 ≤ n then log2Loop fuel (n / 2) + 1 else 0

/-- Modelled from the spec: `SC_LOG2_32` is a macro of the missing header
`sc.h` built over the table `sc_log2_lookup_table` of `sc.c`; the table maps
`0` to `-1` and `n` to `floor (log2 n)` otherwise, and the macro composes the
byte lookups so that `SC_LOG2_32 n` is `-1` for `n = 0` and `floor (log2 n)`
for `0 < n < 2 ^ 32`. -/
def SC_LOG2_32 (n : Nat) : Int := if n = 0 then -1 else (log2Loop 32 n : Int)

/-- The `p4est_quadrant_t` record: coordinates are int32 patterns, the level
is a `Nat`.  The payload union `p.user_data / p.piggy` is not part of the
plain quadrant embedding; quadrants travelling with a piggy tree index are
`PiggyQuadrant` below. -/
structure Quadrant where
  x : Nat
  y : Nat
  level : Nat
deriving Repr, DecidableEq

/-- A quadrant together with its `p.piggy.which_tree` field (int32). -/
structure PiggyQuadrant where
  quad : Quadrant
  which_tree : Int
deriving Repr, DecidableEq

/-- The sign computation shared by both branches of
`p4est_quadrant_compare`: `(diff == 0) ? 0 : ((diff < 0) ? -1 : 1)`. -/
def compareRet (diff : Int) : Int := if diff = 0 then 0 else if diff < 0 then -1 else 1

/-- The rebias of lines 75-76 and 81-82 of `p4est_algorithms.c`:
`q->y + ((q->y >= 0) ? 0 : ((int64_t) 1 << (P4EST_MAXLEVEL + 2)))`. -/
def rebias (u : Nat) : Int :=
  sval u + (if 0 ≤ sval u then 0 else 2 ^ (P4EST_MAXLEVEL + 2))

/-- `p4est_quadrant_compare` (lines 55-86). -/
def p4est_quadrant_compare (q1 q2 : Quadrant) : Int :=
  let exclorx := q1.x ^^^ q2.x
  let exclory := q1.y ^^^ q2.y
  if exclory = 0 ∧ exclorx = 0 then (q1.level : Int) - (q2.level : Int)
  else if SC_LOG2_32 exclory ≥ SC_LOG2_32 exclorx then
    compareRet (rebias q1.y - rebias q2.y)
  else
    compareRet (rebias q1.x - rebias q2.x)

/-- `p4est_quadrant_compare_piggy` (lines 88-99): tree index first, then the
plain comparison. -/
def p4est_quadrant_compare_piggy (q1 q2 : PiggyQuadrant) : Int :=
  let diff := q1.which_tree - q2.which_tree
  if diff = 0 then p4est_quadrant_compare q1.quad q2.quad
  else if diff < 0 then -1 else 1

/-- `p4est_quadrant_is_equal` (lines 101-111): the three fields agree, which
for the embedded record is plain equality. -/
def p4est_quadrant_is_equal (q1 q2 : Quadrant) : Prop := q1 = q2

/-- `p4est_quadrant_child_id` (lines 122-137). -/
def p4est_quadrant_child_id (q : Quadrant) : Nat :=
  if q.level = 0 then 0
  else (if q.x &&& P4EST_QUADRANT_LEN q.level ≠ 0 then 1 else 0) +
       (if q.y &&& P4EST_QUADRANT_LEN q.level ≠ 0 then 2 else 0)

/-- `p4est_quadrant_is_inside` (lines 139-145): `0 <= x, y < P4EST_ROOT_LEN`
in signed terms, which on patterns is just `x, y < P4EST_ROOT_LEN`. -/
def p4est_quadrant_is_inside (q : Quadrant) : Prop :=
  q.x < P4EST_ROOT_LEN ∧ q.y < P4EST_ROOT_LEN

instance (q : Quadrant) : Decidable (p4est_quadrant_is_inside q) :=
  inferInstanceAs (Decidable (q.x < P4EST_ROOT_LEN ∧ q.y < P4EST_ROOT_LEN))

/-- `p4est_quadrant_is_valid` (lines 147-156). -/
def p4est_quadrant_is_valid (q : Quadrant) : Prop :=
  q.level ≤ P4EST_MAXLEVEL ∧
  q.x < P4EST_ROOT_LEN ∧ q.y < P4EST_ROOT_LEN ∧
  q.x &&& (P4EST_QUADRANT_LEN q.level - 1) = 0 ∧
  q.y &&& (P4EST_QUADRANT_LEN q.level - 1) = 0

instance (q : Quadrant) : Decidable (p4est_quadrant_is_valid q) :=
  inferInstanceAs (Decidable (q.level ≤ P4EST_MAXLEVEL ∧
    q.x < P4EST_ROOT_LEN ∧ q.y < P4EST_ROOT_LEN ∧
    q.x &&& (P4EST_QUADRANT_LEN q.level - 1) = 0 ∧
    q.y &&& (P4EST_QUADRANT_LEN q.level - 1) = 0))

/-- `p4est_quadrant_is_extended` (lines 158-165).  The two bounds `< 2 ^ 32`
record int32 representability of the patterns, which is implicit in C. -/
def p4est_quadrant_is_extended (q : Quadrant) : Prop :=
  q.x < 2 ^ 32 ∧ q.y < 2 ^ 32 ∧
  q.level ≤ P4EST_MAXLEVEL ∧
  q.x &&& (P4EST_QUADRANT_LEN q.level - 1) = 0 ∧
  q.y &&& (P4EST_QUADRANT_LEN q.level - 1) = 0

instance (q : Quadrant) : Decidable (p4est_quadrant_is_extended q) :=
  inferInstanceAs (Decidable (q.x < 2 ^ 32 ∧ q.y < 2 ^ 32 ∧
    q.level ≤ P4EST_MAXLEVEL ∧
    q.x &&& (P4EST_QUADRANT_LEN q.level - 1) = 0 ∧
    q.y &&& (P4EST_QUADRANT_LEN q.level - 1) = 0))

/-- `p4est_quadrant_is_sibling` (lines 167-190). -/
def p4est_quadrant_is_sibling (q1 q2 : Quadrant) : Prop :=
  q1.level ≠ 0 ∧ ¬(q1.x ^^^ q2.x = 0 ∧ q1.y ^^^ q2.y = 0) ∧
  q1.level = q2.level ∧
  (q1.x ^^^ q2.x) &&& mask32not (P4EST_QUADRANT_LEN q1.level) = 0 ∧
  (q1.y ^^^ q2.y) &&& mask32not (P4EST_QUADRANT_LEN q1.level) = 0

/-- `p4est_quadrant_is_family` (lines 214-236). -/
def p4est_quadrant_is_family (q0 q1 q2 q3 : Quadrant) : Prop :=
  q0.level ≠ 0 ∧ q0.level = q1.level ∧ q0.level = q2.level ∧ q0.level = q3.level ∧
  (add32 q0.x (P4EST_QUADRANT_LEN q0.level) = q1.x ∧ q0.y = q1.y) ∧
  (q0.x = q2.x ∧ add32 q0.y (P4EST_QUADRANT_LEN q0.level) = q2.y) ∧
  (q1.x = q3.x ∧ q2.y = q3.y)

instance (q0 q1 q2 q3 : Quadrant) :
    Decidable (p4est_quadrant_is_family q0 q1 q2 q3) :=
  inferInstanceAs (Decidable (q0.level ≠ 0 ∧ q0.level = q1.level ∧
    q0.level = q2.level ∧ q0.level = q3.level ∧
    (add32 q0.x (P4EST_QUADRANT_LEN q0.level) = q1.x ∧ q0.y = q1.y) ∧
    (q0.x = q2.x ∧ add32 q0.y (P4EST_QUADRANT_LEN q0.level) = q2.y) ∧
    (q1.x = q3.x ∧ q2.y = q3.y)))

/-- `p4est_quadrant_is_ancestor` (lines 270-288): the levels are strictly
ordered and the coordinates agree above the bits of `q`'s level (an
arithmetic shift of the int32 xor). -/
def p4est_quadrant_is_ancestor (q r : Quadrant) : Prop :=
  q.level < r.level ∧
  asr32 (q.x ^^^ r.x) (P4EST_MAXLEVEL - q.level) = 0 ∧
  asr32 (q.y ^^^ r.y) (P4EST_MAXLEVEL - q.level) = 0

instance (q r : Quadrant) : Decidable (p4est_quadrant_is_ancestor q r) :=
  inferInstanceAs (Decidable (q.level < r.level ∧
    asr32 (q.x ^^^ r.x) (P4EST_MAXLEVEL - q.level) = 0 ∧
    asr32 (q.y ^^^ r.y) (P4EST_MAXLEVEL - q.level) = 0))

/-- `p4est_quadrant_parent` (lines 363-374). -/
def p4est_quadrant_parent (q : Quadrant) : Quadrant :=
  { x := q.x &&& mask32not (P4EST_QUADRANT_LEN q.level),
    y := q.y &&& mask32not (P4EST_QUADRANT_LEN q.level),
    level := q.level - 1 }

/-- `p4est_quadrant_sibling` (lines 376-391). -/
def p4est_quadrant_sibling (q : Quadrant) (sibling_id : Nat) : Quadrant :=
  let addx := sibling_id &&& 1
  let addy := (sibling_id &&& 2) >>> 1
  let shift := P4EST_QUADRANT_LEN q.level
  { x := if addx ≠ 0 then q.x ||| shift else q.x &&& mask32not shift,
    y := if addy ≠ 0 then q.y ||| shift else q.y &&& mask32not shift,
    level := q.level }

/-- `p4est_quadrant_children` (lines 393-421), returning the four children
`c0, c1, c2, c3` in z-order as a list. -/
def p4est_quadrant_children (q : Quadrant) : List Quadrant :=
  let c0 : Quadrant := { x := q.x, y := q.y, level := q.level + 1 }
  let c1 : Quadrant := { x := c0.x ||| P4EST_QUADRANT_LEN c0.level, y := c0.y, level := c0.level }
  let c2 : Quadrant := { x := c0.x, y := c0.y ||| P4EST_QUADRANT_LEN c0.level, level := c0.level }
  let c3 : Quadrant := { x := c1.x, y := c2.y, level := c0.level }
  [c0, c1, c2, c3]

/-- `p4est_quadrant_first_descendent` (lines 423-433). -/
def p4est_quadrant_first_descendent (q : Quadrant) (level : Nat) : Quadrant :=
  { x := q.x, y := q.y, level := level }

/-- `p4est_quadrant_last_descendent` (lines 435-449). -/
def p4est_quadrant_last_descendent (q : Quadrant) (level : Nat) : Quadrant :=
  let shift := P4EST_QUADRANT_LEN q.level - P4EST_QUADRANT_LEN level
  { x := add32 q.x shift, y := add32 q.y shift, level := level }

/-- `p4est_nearest_common_ancestor` (lines 451-475), the closed form. -/
def p4est_nearest_common_ancestor (q1 q2 : Quadrant) : Quadrant :=
  let exclorx := q1.x ^^^ q2.x
  let exclory := q1.y ^^^ q2.y
  let maxclor := exclorx ||| exclory
  let maxlevel : Nat := (SC_LOG2_32 maxclor + 1).toNat
  { x := q1.x &&& mask32not ((1 <<< maxlevel) - 1),
    y := q1.y &&& mask32not ((1 <<< maxlevel) - 1),
    level := min (P4EST_MAXLEVEL - maxlevel) (min q1.level q2.level) }

/-- The parent function iterated `k` times (the two promotion loops of
`p4est_nearest_common_ancestor_D`). -/
def parentIter (q : Quadrant) : Nat → Quadrant
  | 0 => q
  | k + 1 => parentIter (p4est_quadrant_parent q) k

/-- The second stage of `p4est_nearest_common_ancestor_D`: climb through the
parents of both quadrants simultaneously until they are equal.  The C loop
calls `p4est_quadrant_parent`, which asserts `level > 0`; reaching level 0
with distinct quadrants is modelled as `none`.  The fuel is the common level,
which bounds the number of iterations. -/
def ncaClimb : Nat → Quadrant → Quadrant → Option Quadrant
  | 0, s1, s2 => if s1 = s2 then some s1 else none
  | fuel + 1, s1, s2 =>
    if s1 = s2 then some s1
    else if s1.level = 0 then none
    else ncaClimb fuel (p4est_quadrant_parent s1) (p4est_quadrant_parent s2)

/-- `p4est_nearest_common_ancestor_D` (lines 477-508), the iterative version:
promote the deeper quadrant to the common level, then climb in lockstep. -/
def p4est_nearest_common_ancestor_D (q1 q2 : Quadrant) : Option Quadrant :=
  let s1 := if q2.level ≤ q1.level then parentIter q1 (q1.level - q2.level) else q1
  let s2 := if q1.level ≤ q2.level then parentIter q2 (q2.level - q1.level) else q2
  ncaClimb s1.level s1 s2

/-- The bit-interleaving loop of `p4est_quadrant_linear_id` (lines 781-785):
`id |= ((x & (1 << i)) << i); id |= ((y & (1 << i)) << (i + 1))` for
`i < n`, so bit `i` of `x` lands at position `2 i` and bit `i` of `y` at
position `2 i + 1`. -/
def interleave (x y : Nat) : Nat → Nat
  | 0 => 0
  | n + 1 => interleave x y n |||
      ((x &&& (1 <<< n)) <<< n) ||| ((y &&& (1 <<< n)) <<< (n + 1))

/-- `p4est_quadrant_linear_id` (lines 767-788).  The coordinates are shifted
arithmetically by `P4EST_MAXLEVEL - level` ("this preserves the high bits
from negative numbers") and converted to uint64, then `level + (32 -
P4EST_MAXLEVEL)` bit pairs are interleaved. -/
def p4est_quadrant_linear_id (q : Quadrant) (level : Nat) : Nat :=
  interleave (sext64 (asr32 q.x (P4EST_MAXLEVEL - level)))
             (sext64 (asr32 q.y (P4EST_MAXLEVEL - level)))
             (level + (32 - P4EST_MAXLEVEL))

/-- The even-bit gathering loop of `p4est_quadrant_set_morton` (line 807):
`x |= ((id & (1 << 2 i)) >> i)` for `i < n`. -/
def gatherX (id : Nat) : Nat → Nat
  | 0 => 0
  | n + 1 => gatherX id n ||| ((id &&& (1 <<< (2 * n))) >>> n)

/-- The odd-bit gathering loop of `p4est_quadrant_set_morton` (line 808):
`y |= ((id & (1 << (2 i + 1))) >> (i + 1))` for `i < n`. -/
def gatherY (id : Nat) : Nat → Nat
  | 0 => 0
  | n + 1 => gatherY id n ||| ((id &&& (1 <<< (2 * n + 1))) >>> (n + 1))

/-- `p4est_quadrant_set_morton` (lines 790-815).  The gathered coordinates
are shifted left as int32, "this may set the sign bit to create negative
numbers", hence the reduction modulo `2 ^ 32` of the patterns. -/
def p4est_quadrant_set_morton (level : Nat) (id : Nat) : Quadrant :=
  { x := (gatherX id (level + (32 - P4EST_MAXLEVEL)) <<< (P4EST_MAXLEVEL - level)) % 2 ^ 32,
    y := (gatherY id (level + (32 - P4EST_MAXLEVEL)) <<< (P4EST_MAXLEVEL - level)) % 2 ^ 32,
    level := level }

/-- `p4est_quadrant_is_next` (lines 307-335): when `q` is deeper it must be
the last child up to the common level, and the linear ids at the common level
must be consecutive (uint64 addition, hence the modulus). -/
def p4est_quadrant_is_next (q r : Quadrant) : Prop :=
  if r.level < q.level then
    let mask := P4EST_QUADRANT_LEN r.level - P4EST_QUADRANT_LEN q.level
    q.x &&& mask = mask ∧ q.y &&& mask = mask ∧
    (p4est_quadrant_linear_id q r.level + 1) % 2 ^ 64 = p4est_quadrant_linear_id r r.level
  else
    (p4est_quadrant_linear_id q q.level + 1) % 2 ^ 64 = p4est_quadrant_linear_id r q.level

instance (q r : Quadrant) : Decidable (p4est_quadrant_is_next q r) :=
  inferInstanceAs (Decidable (if r.level < q.level then
    let mask := P4EST_QUADRANT_LEN r.level - P4EST_QUADRANT_LEN q.level
    q.x &&& mask = mask ∧ q.y &&& mask = mask ∧
    (p4est_quadrant_linear_id q r.level + 1) % 2 ^ 64 = p4est_quadrant_linear_id r r.level
  else
    (p4est_quadrant_linear_id q q.level + 1) % 2 ^ 64 = p4est_quadrant_linear_id r q.level))

/-- A kernel-reducible decision procedure for `List.Chain'` (the library
instance is built by tactics and does not evaluate inside `decide`). -/
def decChain' {α : Type} (r : α → α → Prop) [DecidableRel r] :
    (l : List α) → Decidable (List.Chain' r l)
  | [] => isTrue List.chain'_nil
  | [a] => isTrue (List.chain'_singleton a)
  | a :: b :: l =>
    have : Decidable (List.Chain' r (b :: l)) := decChain' r (b :: l)
    decidable_of_iff (r a b ∧ List.Chain' r (b :: l)) List.chain'_cons.symm

/-- The tree container: the quadrant sequence, the per-level population
counters (indices `0 .. P4EST_MAXLEVEL`) and the cached maximum level. -/
structure PTree where
  quadrants : List Quadrant
  quadrants_per_level : List Nat
  maxlevel : Nat
deriving Repr, DecidableEq

/-- `p4est_tree_is_sorted` (lines 894-915): consecutive quadrants strictly
increase in the total order. -/
def p4est_tree_is_sorted (tree : PTree) : Prop :=
  List.Chain' (fun q1 q2 => p4est_quadrant_compare q1 q2 < 0) tree.quadrants

instance (tree : PTree) : Decidable (p4est_tree_is_sorted tree) :=
  decChain' (fun q1 q2 => p4est_quadrant_compare q1 q2 < 0) tree.quadrants

/-- `p4est_tree_is_linear` (lines 917-941): strictly sorted and no quadrant
is an ancestor of its successor. -/
def p4est_tree_is_linear (tree : PTree) : Prop :=
  List.Chain' (fun q1 q2 => p4est_quadrant_compare q1 q2 < 0 ∧
    ¬ p4est_quadrant_is_ancestor q1 q2) tree.quadrants

instance (tree : PTree) : Decidable (p4est_tree_is_linear tree) :=
  decChain' (fun q1 q2 => p4est_quadrant_compare q1 q2 < 0 ∧
    ¬ p4est_quadrant_is_ancestor q1 q2) tree.quadrants

/-- The `face_contact` bit mask of `p4est_tree_is_almost_sorted` (lines
956-961): bit 0 for `y < 0`, bit 1 for `x >= P4EST_ROOT_LEN`, bit 2 for
`y >= P4EST_ROOT_LEN`, bit 3 for `x < 0`, in signed terms on the patterns. -/
def faceContact (q : Quadrant) : Nat :=
  (if 2 ^ 31 ≤ q.y then 1 else 0) |||
  (if 2 ^ 29 ≤ q.x ∧ q.x < 2 ^ 31 then 2 else 0) |||
  (if 2 ^ 29 ≤ q.y ∧ q.y < 2 ^ 31 then 4 else 0) |||
  (if 2 ^ 31 ≤ q.x then 8 else 0)

/-- `p4est_tree_is_almost_sorted` (lines 943-987): strict order except that
two consecutive quadrants sticking out of the same root corner may alias. -/
def p4est_tree_is_almost_sorted (tree : PTree) (check_linearity : Bool) : Prop :=
  List.Chain' (fun q1 q2 =>
    (faceContact q1 &&& 5 ≠ 0 ∧ faceContact q1 &&& 10 ≠ 0 ∧
      faceContact q1 = faceContact q2) ∨
    (p4est_quadrant_compare q1 q2 < 0 ∧
      (check_linearity = true → ¬ p4est_quadrant_is_ancestor q1 q2)))
    tree.quadrants

instance (tree : PTree) (c : Bool) :
    Decidable (p4est_tree_is_almost_sorted tree c) :=
  decChain' (fun q1 q2 =>
    (faceContact q1 &&& 5 ≠ 0 ∧ faceContact q1 &&& 10 ≠ 0 ∧
      faceContact q1 = faceContact q2) ∨
    (p4est_quadrant_compare q1 q2 < 0 ∧
      (c = true → ¬ p4est_quadrant_is_ancestor q1 q2))) tree.quadrants

/-- `p4est_tree_is_complete` (lines 989-1010): each quadrant is the Morton
successor of the previous one. -/
def p4est_tree_is_complete (tree : PTree) : Prop :=
  List.Chain' p4est_quadrant_is_next tree.quadrants

instance (tree : PTree) : Decidable (p4est_tree_is_complete tree) :=
  decChain' p4est_quadrant_is_next tree.quadrants

/-- Default quadrant used for out-of-range list reads in the embedding (such
reads never happen under the stated preconditions). -/
def defaultQuad : Quadrant := { x := 0, y := 0, level := 0 }

/-- The ancestor-removal loop of `p4est_linearize_subtree` (lines 2058-2083)
together with the per-level counter decrements: the element under the
`current` cursor is dropped (and its level counter decremented) exactly when
it is equal to, or an ancestor of, the element that follows it; otherwise it
survives and the cursors advance. -/
def linearizeStep : List Quadrant → List Nat → List Quadrant × List Nat
  | [], pl => ([], pl)
  | [q], pl => ([q], pl)
  | q1 :: q2 :: rest, pl =>
    if q1 = q2 ∨ p4est_quadrant_is_ancestor q1 q2 then
      linearizeStep (q2 :: rest) (pl.set q1.level (pl.getD q1.level 0 - 1))
    else
      let r := linearizeStep (q2 :: rest) pl
      (q1 :: r.1, r.2)

/-- The `maxlevel` reconstruction loop of `p4est_linearize_subtree` (lines
2089-2098): the largest level `0 ≤ l ≤ P4EST_MAXLEVEL` with a positive
counter, or `0`. -/
def rebuildMaxlevel (pl : List Nat) : Nat :=
  (List.range (P4EST_MAXLEVEL + 1)).foldl (fun m i => if 0 < pl.getD i 0 then i else m) 0

/-- `p4est_linearize_subtree` (lines 2037-2109): trees with at most one
quadrant are returned unchanged; otherwise ancestors of later quadrants are
removed and `maxlevel` is rebuilt from the per-level counters. -/
def p4est_linearize_subtree (tree : PTree) : PTree :=
  if tree.quadrants.length ≤ 1 then tree
  else
    let r := linearizeStep tree.quadrants tree.quadrants_per_level
    { quadrants := r.1, quadrants_per_level := r.2, maxlevel := rebuildMaxlevel r.2 }

/-- Modelled from the spec: `sc_array_sort` (its source, `sc_containers.c`,
is not among the sources) sorts the array by the supplied comparison
function; it is embedded as an insertion sort over the same comparator. -/
def insertByCompare {α : Type} (cmp : α → α → Int) (a : α) : List α → List α
  | [] => [a]
  | b :: rest => if cmp a b ≤ 0 then a :: b :: rest else b :: insertByCompare cmp a rest

/-- Modelled from the spec: the recursion of the `sc_array_sort` embedding. -/
def sortByCompare {α : Type} (cmp : α → α → Int) : List α → List α
  | [] => []
  | a :: rest => insertByCompare cmp a (sortByCompare cmp rest)

/-- Modelled from the spec: `sc_array_bsearch` (from the missing
`sc_containers.c`) reports whether the array holds an element comparing equal
to the key; the spec reads it as a membership test ("absent from the hash and
from the input", section 4.4, and "present in the `not` filter", section
4.5). -/
def scArrayContains {α : Type} (cmp : α → α → Int) (l : List α) (key : α) : Bool :=
  l.any (fun a => cmp key a = 0)

/-- The single pass of `p4est_tree_uniqify_overlap` (lines 1517-1540) after
sorting: an element is dropped when the next element is quadrant-equal (the
last of each equal run survives), and a surviving element is dropped when the
`not` array contains it under the piggy comparison. -/
def uniqifyPass (na : List PiggyQuadrant) : List PiggyQuadrant → List PiggyQuadrant
  | [] => []
  | [q] => if scArrayContains p4est_quadrant_compare_piggy na q then [] else [q]
  | q1 :: q2 :: rest =>
    if q1.quad = q2.quad then uniqifyPass na (q2 :: rest)
    else if scArrayContains p4est_quadrant_compare_piggy na q1 then uniqifyPass na (q2 :: rest)
    else q1 :: uniqifyPass na (q2 :: rest)

/-- `p4est_tree_uniqify_overlap` (lines 1503-1544): sort `out` with the plain
`p4est_quadrant_compare` (the comparator reads only the coordinate fields,
even though the elements carry piggy tree indices), then run the
deduplication / filter pass. -/
def p4est_tree_uniqify_overlap (na out : List PiggyQuadrant) : List PiggyQuadrant :=
  uniqifyPass na (sortByCompare (fun a b => p4est_quadrant_compare a.quad b.quad) out)

/-- The loop of `p4est_find_lower_bound` (lines 1207-1236), with the state
`(quad_low, quad_high, guess)` made explicit.  The fuel bounds the number of
iterations (the search window shrinks at every step); `none` is the C return
value `-1`. -/
def findLowerBoundLoop (arr : List Quadrant) (q : Quadrant) :
    Nat → Nat → Nat → Nat → Option Nat
  | 0, _, _, _ => none
  | fuel + 1, low, high, guess =>
    let cur := arr.getD guess defaultQuad
    let comp := p4est_quadrant_compare q cur
    if comp ≤ 0 ∧ 0 < guess ∧
        p4est_quadrant_compare q (arr.getD (guess - 1) defaultQuad) ≤ 0 then
      findLowerBoundLoop arr q fuel low (guess - 1) ((low + (guess - 1) + 1) / 2)
    else if 0 < comp then
      if high < guess + 1 then none
      else findLowerBoundLoop arr q fuel (guess + 1) high ((guess + 1 + high) / 2)
    else some guess

/-- `p4est_find_lower_bound` (lines 1195-1239). -/
def p4est_find_lower_bound (arr : List Quadrant) (q : Quadrant) (guess : Nat) : Option Nat :=
  findLowerBoundLoop arr q (arr.length + 1) 0 (arr.length - 1) guess

/-- The loop of `p4est_find_higher_bound` (lines 1253-1283), mirrored from
`findLowerBoundLoop`. -/
def findHigherBoundLoop (arr : List Quadrant) (q : Quadrant) :
    Nat → Nat → Nat → Nat → Option Nat
  | 0, _, _, _ => none
  | fuel + 1, low, high, guess =>
    let cur := arr.getD guess defaultQuad
    let comp := p4est_quadrant_compare cur q
    if comp ≤ 0 ∧ guess + 1 < arr.length ∧
        p4est_quadrant_compare (arr.getD (guess + 1) defaultQuad) q ≤ 0 then
      findHigherBoundLoop arr q fuel (guess + 1) high ((guess + 1 + high) / 2)
    else if 0 < comp then
      if guess ≤ low then none
      else findHigherBoundLoop arr q fuel low (guess - 1) ((low + (guess - 1) + 1) / 2)
    else some guess

/-- `p4est_find_higher_bound` (lines 1241-1286). -/
def p4est_find_higher_bound (arr : List Quadrant) (q : Quadrant) (guess : Nat) : Option Nat :=
  findHigherBoundLoop arr q (arr.length + 1) 0 (arr.length - 1) guess

/-- The per-level population counters of a quadrant list (indices
`0 .. P4EST_MAXLEVEL`); `p4est_complete_region` builds them incrementally
starting from the asserted-empty tree, which amounts to counting the output
levels. -/
def quadrantsPerLevelOf (qs : List Quadrant) : List Nat :=
  (List.range (P4EST_MAXLEVEL + 1)).map (fun l => (qs.filter (fun q => q.level = l)).length)

/-- Iteration budget for the work-list loop of `p4est_complete_region`:
`crBudget d` iterations suffice to exhaust a work item whose expansions can
nest `d` levels deep (`crBudget d` is the node count of the full 4-ary tree
of height `d`). -/
def crBudget : Nat → Nat
  | 0 => 1
  | d + 1 => 1 + 4 * crBudget d

/-- The work-list loop of `p4est_complete_region` (lines 1625-1662).  The C
code pops `w` from the head of the list `W`; an emitted quadrant is appended
to the output, an ancestor of `a` or `b` is replaced by its four children
prepended in z-order (`sc_list_prepend` of `c3, c2, c1, c0`), anything else
is discarded.  The fuel parameter makes the recursion structural; an
expansion is only taken for a strict ancestor of `a` or `b`, so the fuel
passed by `p4est_complete_region` is provably never exhausted. -/
def completeRegionLoop (a b : Quadrant) : Nat → List Quadrant → List Quadrant
  | 0, _ => []
  | _, [] => []
  | fuel + 1, w :: rest =>
    if (p4est_quadrant_compare a w < 0 ∧ p4est_quadrant_compare w b < 0) ∧
        ¬ p4est_quadrant_is_ancestor w b then
      w :: completeRegionLoop a b fuel rest
    else if p4est_quadrant_is_ancestor w a ∨ p4est_quadrant_is_ancestor w b then
      completeRegionLoop a b fuel (p4est_quadrant_children w ++ rest)
    else
      completeRegionLoop a b fuel rest

/-- `p4est_complete_region` (lines 1546-1688): optionally `a`, then the
work-list output seeded with the four children of the nearest common
ancestor, then optionally `b` (the whole main block is guarded by the
asserted `a < b` comparison); the per-level counters and `maxlevel` are
accumulated over the appended quadrants starting from the empty tree. -/
def p4est_complete_region (q1 : Quadrant) (include_q1 : Bool)
    (q2 : Quadrant) (include_q2 : Bool) : PTree :=
  let first := if include_q1 then [q1] else []
  let qs :=
    if p4est_quadrant_compare q1 q2 < 0 then
      first ++
        completeRegionLoop q1 q2 (crBudget (max q1.level q2.level + 2))
          (p4est_quadrant_children (p4est_nearest_common_ancestor q1 q2)) ++
        (if include_q2 then [q2] else [])
    else first
  { quadrants := qs,
    quadrants_per_level := quadrantsPerLevelOf qs,
    maxlevel := (qs.map Quadrant.level).foldl max 0 }

/-- The offsets of the 3 indirect neighbors in units of `h`, indexed
`[cid][neighbor][xy]` (lines 39-43). -/
def indirect_neighbors : List (List (Int × Int)) :=
  [[(-1, -1), (1, -1), (-1, 1)],
   [(0, -1), (2, -1), (1, 0)],
   [(-1, 0), (-2, 1), (0, 1)],
   [(1, -1), (-1, 1), (1, 1)]]

/-- Which neighbor to omit if edges are balanced, not corners, indexed by the
child id (lines 48-49). -/
def corners_omitted : List Nat := [0, 1, 1, 2]

/-- The per-level hash / output lists of `p4est_complete_or_balance`: the C
code keeps, for every level, a hash table and an output array holding the
same quadrants; an entry records the quadrant and whether it was inserted as
a parent (`user_data == parent_key`). -/
def OutState : Type := Nat → List (Quadrant × Bool)

/-- Stage 2 of the candidate treatment in `p4est_complete_or_balance` (lines
1912-1951): drop a candidate inside the root whose descendants stick out of
the `[tree_first, tree_last]` window; consult the level hash (an entry found
with the parent mark, while inserting a parent, raises the early `break` of
the `sid` loop); consult the input list; otherwise insert into the hash and
the output list of the candidate's level.  Returns the new state and the
break flag. -/
def cobStage2 (inlist : List Quadrant) (tree_first tree_last : Quadrant)
    (inmaxl : Nat) (isParentInsert : Bool) (qalloc : Quadrant)
    (outl : OutState) : OutState × Bool :=
  if p4est_quadrant_is_inside qalloc ∧
      ((p4est_quadrant_compare tree_first qalloc > 0 ∧
          (qalloc.x ≠ tree_first.x ∨ qalloc.y ≠ tree_first.y)) ∨
        p4est_quadrant_compare (p4est_quadrant_last_descendent qalloc inmaxl) tree_last > 0) then
    (outl, false)
  else
    match (outl qalloc.level).find? (fun e => e.1 = qalloc) with
    | some e => (outl, isParentInsert ∧ e.2)
    | none =>
      if scArrayContains p4est_quadrant_compare inlist qalloc then (outl, false)
      else
        (fun l => if l = qalloc.level then outl l ++ [(qalloc, isParentInsert)] else outl l,
          false)

/-- Stage 1 of the candidate treatment in `p4est_complete_or_balance` (lines
1856-1906): the ordered candidate list for one quadrant `q` of the current
level.  `sid 0..3` are the missing siblings (skipped for a family or an
out-of-root `q`), `sid 4` is the parent (marked as a parent insertion), and
`sid 5..7` are the three indirect neighbors of the parent (only when
balancing; the corner-only one is omitted in edge-only mode, and neighbors
sticking out of the root, or across the corner for an out-of-root `q`, are
dropped). -/
def cobStage1 (balance : Nat) (q : Quadrant) (isfamily isoutroot : Bool) :
    List (Quadrant × Bool) :=
  let qid := p4est_quadrant_child_id q
  let sib : List (Quadrant × Bool) :=
    if isfamily ∨ isoutroot then []
    else ((List.range 4).filter (fun sid => sid ≠ qid)).map
      (fun sid => (p4est_quadrant_sibling q sid, false))
  let parent := p4est_quadrant_parent q
  let indirect : List (Quadrant × Bool) :=
    if balance = 0 then []
    else
      let ph := P4EST_QUADRANT_LEN parent.level
      let pid := p4est_quadrant_child_id parent
      (List.range 3).filterMap (fun k =>
        if balance < 2 ∧ k = corners_omitted.getD pid 0 then none
        else
          let d := (indirect_neighbors.getD pid []).getD k (0, 0)
          let cand : Quadrant :=
            { x := add32 parent.x (d.1 * (ph : Int)),
              y := add32 parent.y (d.2 * (ph : Int)),
              level := parent.level }
          let outface0 := 2 ^ 31 ≤ cand.y
          let outface1 := 2 ^ 29 ≤ cand.x ∧ cand.x < 2 ^ 31
          let outface2 := 2 ^ 29 ≤ cand.y ∧ cand.y < 2 ^ 31
          let outface3 := 2 ^ 31 ≤ cand.x
          if ¬ isoutroot then
            if outface0 ∨ outface1 ∨ outface2 ∨ outface3 then none else some (cand, false)
          else
            if (outface0 ∨ outface2) ∧ (outface1 ∨ outface3) then none else some (cand, false))
  sib ++ [(parent, true)] ++ indirect

/-- The `sid` loop over the candidates of one quadrant, with the early break
raised by a parent-marked hash hit. -/
def cobProcess (inlist : List Quadrant) (tf tl : Quadrant) (inmaxl : Nat) :
    List (Quadrant × Bool) → OutState → OutState
  | [], outl => outl
  | c :: cs, outl =>
    let r := cobStage2 inlist tf tl inmaxl c.2 c.1 outl
    if r.2 then r.1 else cobProcess inlist tf tl inmaxl cs r.1

/-- The scan for `tree_last` (lines 1776-1789): starting from the last
descendant of the first inside quadrant, extend over the following contiguous
run of inside quadrants, keeping the largest last descendant. -/
def cobTreeLastLoop (inmaxl : Nat) (cur : Quadrant) : List Quadrant → Quadrant
  | [] => cur
  | q :: rest =>
    if ¬ p4est_quadrant_is_inside q then cur
    else
      let ld := p4est_quadrant_last_descendent q inmaxl
      cobTreeLastLoop inmaxl (if p4est_quadrant_compare cur ld < 0 then ld else cur) rest

/-- The loop over `i < incount + ocount` at one level of
`p4est_complete_or_balance` (lines 1816-1953): quadrants of the input list at
the current level (with the adjacent-family skip `i += 3`), then the
quadrants of the pre-loop prefix of the level's output list. -/
def cobILoop (balance : Nat) (inlist : List Quadrant) (tf tl : Quadrant)
    (inmaxl l ocount : Nat) (i : Nat) (outl : OutState) : OutState :=
  if i < inlist.length + ocount then
    if i < inlist.length then
      let q := inlist.getD i defaultQuad
      if q.level ≠ l then cobILoop balance inlist tf tl inmaxl l ocount (i + 1) outl
      else
        let isfamily := i + 4 ≤ inlist.length ∧
          p4est_quadrant_is_family (inlist.getD i defaultQuad)
            (inlist.getD (i + 1) defaultQuad) (inlist.getD (i + 2) defaultQuad)
            (inlist.getD (i + 3) defaultQuad)
        let isoutroot := ¬ p4est_quadrant_is_inside q
        let outl2 := cobProcess inlist tf tl inmaxl
          (cobStage1 balance q (decide isfamily) (decide isoutroot)) outl
        cobILoop balance inlist tf tl inmaxl l ocount
          (if isfamily then i + 4 else i + 1) outl2
    else
      let q := ((outl l).getD (i - inlist.length) (defaultQuad, false)).1
      let isoutroot := ¬ p4est_quadrant_is_inside q
      let outl2 := cobProcess inlist tf tl inmaxl
        (cobStage1 balance q false (decide isoutroot)) outl
      cobILoop balance inlist tf tl inmaxl l ocount (i + 1) outl2
  else outl
termination_by inlist.length + ocount - i
decreasing_by all_goals first | omega | (split <;> omega)

/-- The bottom-up level loop of `p4est_complete_or_balance` (lines
1814-1954): levels `inmaxl` down to `1`; the output count of the current
level is frozen before its `i` loop. -/
def cobLevels (balance : Nat) (inlist : List Quadrant) (tf tl : Quadrant)
    (inmaxl : Nat) : Nat → OutState → OutState
  | 0, outl => outl
  | l + 1, outl =>
    let ocount := (outl (l + 1)).length
    let outl2 := cobILoop balance inlist tf tl inmaxl (l + 1) ocount 0 outl
    cobLevels balance inlist tf tl inmaxl l outl2

/-- The merge phase of `p4est_complete_or_balance` (lines 1957-1997): for
every level in ascending order, append the inside quadrants of its output
list to the tree, bump the level counter, and raise `maxlevel` when an inside
quadrant was added at a level above it. -/
def cobMerge (tree : PTree) (outl : OutState) (inmaxl : Nat) : PTree :=
  (List.range (inmaxl + 1)).foldl (fun t l =>
    let ins := ((outl l).filter (fun e => decide (p4est_quadrant_is_inside e.1))).map Prod.fst
    { quadrants := t.quadrants ++ ins,
      quadrants_per_level := t.quadrants_per_level.set l
        (t.quadrants_per_level.getD l 0 + ins.length),
      maxlevel := if ins ≠ [] ∧ t.maxlevel < l then l else t.maxlevel }) tree

/-- `p4est_complete_or_balance` (lines 1695-2021) with `balance` in
`{0, 1, 2}`: trees with at most one quadrant, or with no quadrant inside the
root, are returned unchanged (lines 1756-1775); otherwise the
`[tree_first, tree_last]` window is computed from the first contiguous run of
inside quadrants, the bottom-up hashed propagation fills the per-level output
lists, the output is merged into the tree, and the tree is sorted and
linearized. -/
def p4est_complete_or_balance (balance : Nat) (tree : PTree) : PTree :=
  if tree.quadrants.length ≤ 1 then tree
  else
    match tree.quadrants.findIdx? (fun q => decide (p4est_quadrant_is_inside q)) with
    | none => tree
    | some first_inside =>
      let inmaxl := tree.maxlevel
      let q0 := tree.quadrants.getD first_inside defaultQuad
      let tree_first := p4est_quadrant_first_descendent q0 inmaxl
      let tree_last := cobTreeLastLoop inmaxl
        (p4est_quadrant_last_descendent q0 inmaxl)
        (tree.quadrants.drop (first_inside + 1))
      let outl := cobLevels balance tree.quadrants tree_first tree_last inmaxl inmaxl
        (fun _ => [])
      let merged := cobMerge tree outl inmaxl
      p4est_linearize_subtree
        { merged with quadrants := sortByCompare p4est_quadrant_compare merged.quadrants }

/-- `p4est_complete_subtree` (lines 2023-2028). -/
def p4est_complete_subtree (tree : PTree) : PTree :=
  p4est_complete_or_balance 0 tree

/-- `p4est_balance_subtree` (lines 2030-2035). -/
def p4est_balance_subtree (tree : PTree) : PTree :=
  p4est_complete_or_balance 2 tree

/-- The prefix-sum loop computing `new_global_last_quad_index` in
`p4est_partition_given` (lines 2196-2202): `n[0] = req[0] - 1` and
`n[i] = req[i] + n[i-1]`, written with the running value threaded through. -/
def newLastIndexLoop (prev : Int) : List Int → List Int
  | [] => []
  | r :: rest => (r + prev) :: newLastIndexLoop (r + prev) rest

/-- `new_global_last_quad_index` of `p4est_partition_given`: the inclusive
prefix sums of the requested counts, minus one. -/
def new_global_last_quad_index (req : List Int) : List Int :=
  newLastIndexLoop (-1) req

/-- First global quadrant index owned by process `p` under the inclusive
prefix-sum array `gl` (the C idiom
`(p == 0) ? 0 : (global_last_quad_index[p-1] + 1)`, lines 2263 and 2268). -/
def procBegin (gl : List Int) (p : Nat) : Int :=
  if p = 0 then 0 else gl.getD (p - 1) 0 + 1

/-- Last global quadrant index owned by process `p` under `gl`. -/
def procEnd (gl : List Int) (p : Nat) : Int := gl.getD p 0

/-- `num_recv_from` of `p4est_partition_given` (lines 2266-2283): the size of
the overlap of the old window of `from_proc` with the new window of `rank`. -/
def num_recv_from (gl ngl : List Int) (rank from_proc : Nat) : Int :=
  let my_begin := procBegin ngl rank
  let my_end := procEnd ngl rank
  let from_begin := procBegin gl from_proc
  let from_end := procEnd gl from_proc
  if from_begin ≤ my_end ∧ my_begin ≤ from_end then
    min my_end from_end - max my_begin from_begin + 1
  else 0

/-- The inclusive slice `G[b .. e]` of the global quadrant sequence. -/
def sliceG (G : List Quadrant) (b e : Int) : List Quadrant :=
  if b ≤ e then (G.drop b.toNat).take (e - b + 1).toNat else []

/-- The quadrant stream received by process `rank` in `p4est_partition_given`
at the level of the global quadrant sequence: the receive-and-copy loops
(lines 2496-2712) concatenate, in ascending order of the sending process, the
overlap of that sender's old window with the rank's new window, preserving
the sender's quadrant order (the in-place `memmove` of retained local
quadrants realizes the `from_proc == rank` contribution in the same
position).  The per-tree buffer layout and the user-payload bytes are carried
unchanged alongside and are not part of this model. -/
def partitionNewLocal (G : List Quadrant) (gl ngl : List Int)
    (nprocs rank : Nat) : List Quadrant :=
  (List.range nprocs).flatMap (fun from_proc =>
    let mb := procBegin ngl rank
    let me₁ := procEnd ngl rank
    let fb := procBegin gl from_proc
    let fe := procEnd gl from_proc
    if fb ≤ me₁ ∧ mb ≤ fe then sliceG G (max mb fb) (min me₁ fe) else [])

/-- `p4est_partition_given` (lines 2111-2792), reduced to its effect on the
per-process quadrant sequences: process `rank` ends up with the part of the
unchanged global sequence selected by the new prefix-sum windows. -/
def p4est_partition_given (G : List Quadrant) (gl req : List Int)
    (nprocs rank : Nat) : List Quadrant :=
  partitionNewLocal G gl (new_global_last_quad_index req) nprocs rank

/-- Byte reversal performed by `htonl` on a little-endian host (`htonl` comes
from the system header `arpa/inet.h`; only its being a fixed injective word
transform matters here). -/
def htonl (u : Nat) : Nat :=
  (u % 256) * 2 ^ 24 + (u / 256 % 256) * 2 ^ 16 + (u / 2 ^ 16 % 256) * 2 ^ 8 +
    u / 2 ^ 24 % 256

/-- The word sequence fed to the CRC by `p4est_quadrant_checksum` (lines
877-884): for every quadrant, in order, the three words `htonl x`, `htonl y`,
`htonl level`.  The CRC itself (`sc_array_checksum`, missing from the
sources, ultimately zlib) is a fixed function of this sequence, so equality
of word sequences is equality of checksums. -/
def checksumWords (qs : List Quadrant) : List Nat :=
  qs.flatMap (fun q => [htonl q.x, htonl q.y, htonl q.level])

/-- The rebiased value of an int32 pattern as a natural number: the pattern
with its sign bit cleared.  For `u < 2 ^ 32` this coincides with the int64
rebias of `p4est_quadrant_compare` (`rebias u = pkey u` as integers). -/
def pkey (u : Nat) : Nat := u % 2 ^ 31

/-- The sign-aware Morton key realized by `p4est_quadrant_compare`: the
interleave of the rebiased x (even bits) and rebiased y (odd bits)
coordinates.  The comparison of extended quadrants is the lexicographic
comparison of `(quadKey, level)`. -/
def quadKey (q : Quadrant) : Nat := interleave (pkey q.x) (pkey q.y) 32

/-- The quadrant lies within the extended coordinate range of the spec
(section 3): signed coordinates in `[-R, 2 R)`, at most one root length
outside the root. -/
def inExtendedRange (q : Quadrant) : Prop :=
  (q.x < 2 ^ 30 ∨ 2 ^ 32 - 2 ^ 29 ≤ q.x) ∧ (q.y < 2 ^ 30 ∨ 2 ^ 32 - 2 ^ 29 ≤ q.y)

instance (q : Quadrant) : Decidable (inExtendedRange q) :=
  inferInstanceAs (Decidable ((q.x < 2 ^ 30 ∨ 2 ^ 32 - 2 ^ 29 ≤ q.x) ∧
    (q.y < 2 ^ 30 ∨ 2 ^ 32 - 2 ^ 29 ≤ q.y)))

/-- The number of level-`P4EST_MAXLEVEL` cells covered by a level-`l`
quadrant: the length of its Morton index interval. -/
def coverLen (l : Nat) : Nat := 4 ^ (P4EST_MAXLEVEL - l)

/-- A list of quadrants tiles a contiguous Morton interval starting at `s`:
each element's key is the end of the previous element's cover interval. -/
def isTiling : Nat → List Quadrant → Prop
  | _, [] => True
  | s, w :: rest => quadKey w = s ∧ isTiling (s + coverLen w.level) rest

/-- The end of the Morton interval covered by a quadrant list that starts
at `s`. -/
def tilingEnd (s : Nat) (W : List Quadrant) : Nat :=
  W.foldl (fun t w => t + coverLen w.level) s

-- ======================================================================
-- Theorems
-- ======================================================================

theorem log2Loop_eq (fuel n : Nat) (h : n < 2 ^ fuel) : log2Loop fuel n = Nat.log2 n := by
  induction fuel generalizing n with
  | zero =>
    interval_cases n
    simp [log2Loop, Nat.log2]
  | succ fuel ih =>
    rw [log2Loop]
    by_cases h2 : 2 ≤ n
    · have hdiv : n / 2 < 2 ^ fuel := by
        rw [pow_succ] at h
        omega
      rw [if_pos h2, ih (n / 2) hdiv]
      conv_rhs => rw [Nat.log2]
      rw [if_pos h2]
    · rw [if_neg h2]
      rw [Nat.log2, if_neg h2]

theorem SC_LOG2_32_zero : SC_LOG2_32 0 = -1 := rfl

theorem SC_LOG2_32_pos (n : Nat) (h0 : n ≠ 0) (h : n < 2 ^ 32) :
    SC_LOG2_32 n = (Nat.log2 n : Int) := by
  unfold SC_LOG2_32
  rw [if_neg h0, log2Loop_eq 32 n h]

theorem testBit_log2_self (n : Nat) (h : n ≠ 0) : n.testBit n.log2 = true := by
  have h1 : 2 ^ n.log2 ≤ n := Nat.log2_self_le h
  have h2 : n < 2 ^ (n.log2 + 1) := Nat.lt_log2_self
  have hp : 0 < 2 ^ n.log2 := Nat.pos_pow_of_pos _ (by norm_num)
  rw [Nat.testBit_to_div_mod]
  have h3 : 1 ≤ n / 2 ^ n.log2 := (Nat.one_le_div_iff hp).2 h1
  have h4 : n / 2 ^ n.log2 < 2 := by
    apply Nat.div_lt_of_lt_mul
    rw [pow_succ] at h2
    omega
  have : n / 2 ^ n.log2 = 1 := by omega
  simp [this]

theorem testBit_false_of_log2_lt (n j : Nat) (h : n.log2 < j) : n.testBit j = false := by
  rcases Nat.eq_zero_or_pos n with h0 | _
  · simp [h0]
  have h2 : n < 2 ^ (n.log2 + 1) := Nat.lt_log2_self
  exact Nat.testBit_lt_two_pow (lt_of_lt_of_le h2 (Nat.pow_le_pow_right (by norm_num) h))

theorem log2_eq_of_testBit (m k : Nat) (h1 : m.testBit k = true)
    (h2 : ∀ j, k < j → m.testBit j = false) : m.log2 = k := by
  have hge : 2 ^ k ≤ m := Nat.testBit_implies_ge h1
  have hp : 0 < 2 ^ k := Nat.pos_pow_of_pos _ (by norm_num)
  have hne : m ≠ 0 := by omega
  have hlt : m < 2 ^ (k + 1) := by
    apply Nat.lt_pow_two_of_testBit
    intro i hi
    exact h2 i (by omega)
  have ha := (Nat.le_log2 hne).2 hge
  have hb := (Nat.log2_lt hne).2 hlt
  omega

theorem lt_iff_testBit_log2_xor (a b : Nat) (h : a ≠ b) :
    a < b ↔ b.testBit ((a ^^^ b).log2) = true := by
  have hdne : a ^^^ b ≠ 0 := Nat.xor_ne_zero.2 h
  have hbit : (a ^^^ b).testBit (a ^^^ b).log2 = true := testBit_log2_self _ hdne
  rw [Nat.testBit_xor] at hbit
  have hagree : ∀ j, (a ^^^ b).log2 < j → a.testBit j = b.testBit j := by
    intro j hj
    have hf : (a ^^^ b).testBit j = false := testBit_false_of_log2_lt _ j hj
    rw [Nat.testBit_xor] at hf
    revert hf
    cases a.testBit j <;> cases b.testBit j <;> simp
  constructor
  · intro hab
    by_contra hb
    have hb' : b.testBit (a ^^^ b).log2 = false := by simpa using hb
    have ha' : a.testBit (a ^^^ b).log2 = true := by
      revert hbit
      rw [hb']
      cases a.testBit (a ^^^ b).log2 <;> simp
    have : b < a := Nat.lt_of_testBit _ hb' ha' (fun j hj => (hagree j hj).symm)
    omega
  · intro hb
    have ha' : a.testBit (a ^^^ b).log2 = false := by
      revert hbit
      rw [hb]
      cases a.testBit (a ^^^ b).log2 <;> simp
    exact Nat.lt_of_testBit _ ha' hb hagree

theorem one_shiftLeft_eq (n : Nat) : (1 : Nat) <<< n = 2 ^ n := by
  rw [Nat.shiftLeft_eq, one_mul]

theorem interleave_testBit_even (x y n i : Nat) :
    (interleave x y n).testBit (2 * i) = (decide (i < n) && x.testBit i) := by
  induction n with
  | zero => simp [interleave]
  | succ n ih =>
    rw [interleave]
    simp only [Nat.testBit_or, ih, one_shiftLeft_eq, Nat.testBit_shiftLeft,
      Nat.testBit_and, Nat.testBit_two_pow]
    rcases Nat.lt_trichotomy i n with h | h | h
    · simp only [decide_eq_true (show i < n from h),
        decide_eq_true (show i < n + 1 by omega), Bool.true_and]
      have h1 : ¬ (n ≤ 2 * i) ∨ ¬ (n = 2 * i - n) ∨ True := by tauto
      by_cases hle : n ≤ 2 * i
      · have hne : ¬ (n = 2 * i - n) := by omega
        have hne2 : ¬ (n + 1 ≤ 2 * i) ∨ ¬ (n = 2 * i - (n + 1)) := by omega
        simp only [decide_eq_true hle, Bool.true_and]
        rcases hne2 with h2 | h2
        · simp [hne, h2]
        · by_cases h3 : n + 1 ≤ 2 * i
          · simp [hne, decide_eq_true h3, h2]
          · simp [hne, h3]
      · have h3 : ¬ (n + 1 ≤ 2 * i) := by omega
        simp [hle, h3]
    · subst h
      have h1 : i ≤ 2 * i := by omega
      have h2 : i = 2 * i - i := by omega
      have h3 : ¬ (i + 1 ≤ 2 * i) ∨ ¬ (i = 2 * i - (i + 1)) := by omega
      simp only [decide_eq_true (show i < i + 1 by omega), Bool.true_and,
        decide_eq_true h1, Bool.true_and, lt_irrefl, decide_eq_false (lt_irrefl i),
        Bool.false_and, Bool.false_or]
      rcases h3 with h3 | h3
      · simp [h3, ← h2]
      · by_cases h4 : i + 1 ≤ 2 * i
        · simp [decide_eq_true h4, h3, ← h2]
        · simp [h4, ← h2]
    · have h1 : ¬ (i < n) := by omega
      have h2 : ¬ (i < n + 1) := by omega
      have h3 : n ≠ 2 * i - n := by omega
      have h4 : n ≠ 2 * i - (n + 1) := by omega
      by_cases h5 : n ≤ 2 * i
      · by_cases h6 : n + 1 ≤ 2 * i
        · simp [h1, h2, h3, h4, decide_eq_true h5, decide_eq_true h6]
        · simp [h1, h2, h3, decide_eq_true h5, h6]
      · have h6 : ¬ (n + 1 ≤ 2 * i) := by omega
        simp [h1, h2, h5, h6]

theorem interleave_term_testBit (x n s j : Nat) :
    ((x &&& (1 <<< n)) <<< (n + s)).testBit j = (decide (j = 2 * n + s) && x.testBit n) := by
  rw [one_shiftLeft_eq, Nat.testBit_shiftLeft, Nat.testBit_and, Nat.testBit_two_pow]
  by_cases h : j = 2 * n + s
  · subst h
    rw [show 2 * n + s - (n + s) = n from by omega]
    have h1 : n + s ≤ 2 * n + s := by omega
    simp only [decide_eq_true h1, Bool.true_and, decide_eq_true (show (2 : Nat) * n + s = 2 * n + s from rfl)]
    simp
  · by_cases h2 : n + s ≤ j
    · have h3 : n ≠ j - (n + s) := by omega
      simp [decide_eq_true h2, decide_eq_false h, decide_eq_false h3]
    · simp [decide_eq_false h2, decide_eq_false h]

theorem interleave_testBit_odd (x y n i : Nat) :
    (interleave x y n).testBit (2 * i + 1) = (decide (i < n) && y.testBit i) := by
  induction n with
  | zero => simp [interleave]
  | succ n ih =>
    rw [interleave]
    have e1 : ((x &&& (1 <<< n)) <<< n).testBit (2 * i + 1) =
        (decide ((2 : Nat) * i + 1 = 2 * n) && x.testBit n) := by
      have := interleave_term_testBit x n 0 (2 * i + 1)
      simpa using this
    have e2 : ((y &&& (1 <<< n)) <<< (n + 1)).testBit (2 * i + 1) =
        (decide ((2 : Nat) * i + 1 = 2 * n + 1) && y.testBit n) := by
      exact interleave_term_testBit y n 1 (2 * i + 1)
    simp only [Nat.testBit_or, ih, e1, e2]
    have hne : ((2 : Nat) * i + 1) ≠ 2 * n := by omega
    rcases Nat.lt_trichotomy i n with h | h | h
    · have h2 : ((2 : Nat) * i + 1) ≠ 2 * n + 1 := by omega
      simp only [decide_eq_true h, decide_eq_true (show i < n + 1 from by omega),
        decide_eq_false hne, decide_eq_false h2, Bool.true_and, Bool.false_and,
        Bool.or_false]
    · subst h
      simp [decide_eq_false hne, decide_eq_false (lt_irrefl i),
        decide_eq_true (show i < i + 1 from by omega)]
    · have h1 : ¬ (i < n) := by omega
      have h2 : ¬ (i < n + 1) := by omega
      have h3 : ((2 : Nat) * i + 1) ≠ 2 * n + 1 := by omega
      simp only [decide_eq_false h1, decide_eq_false h2, decide_eq_false hne,
        decide_eq_false h3, Bool.false_and, Bool.or_false]

theorem interleave_testBit_ge (x y n j : Nat) (h : 2 * n ≤ j) :
    (interleave x y n).testBit j = false := by
  rcases Nat.even_or_odd j with he | ho
  · obtain ⟨i, hi⟩ := he
    have hj : j = 2 * i := by omega
    subst hj
    rw [interleave_testBit_even]
    simp [decide_eq_false (show ¬ (i < n) from by omega)]
  · obtain ⟨i, hi⟩ := ho
    subst hi
    rw [interleave_testBit_odd]
    simp [decide_eq_false (show ¬ (i < n) from by omega)]

theorem interleave_lt (x y n : Nat) : interleave x y n < 2 ^ (2 * n) := by
  apply Nat.lt_pow_two_of_testBit
  intro i hi
  exact interleave_testBit_ge x y n i hi

theorem interleave_xor (x1 y1 x2 y2 n : Nat) :
    interleave x1 y1 n ^^^ interleave x2 y2 n = interleave (x1 ^^^ x2) (y1 ^^^ y2) n := by
  apply Nat.eq_of_testBit_eq
  intro j
  rcases Nat.even_or_odd j with he | ho
  · obtain ⟨i, hi⟩ := he
    have hj : j = 2 * i := by omega
    subst hj
    rw [Nat.testBit_xor, interleave_testBit_even, interleave_testBit_even,
      interleave_testBit_even, Nat.testBit_xor]
    by_cases h : i < n
    · simp [decide_eq_true h]
    · simp [decide_eq_false h]
  · obtain ⟨i, hi⟩ := ho
    subst hi
    rw [Nat.testBit_xor, interleave_testBit_odd, interleave_testBit_odd,
      interleave_testBit_odd, Nat.testBit_xor]
    by_cases h : i < n
    · simp [decide_eq_true h]
    · simp [decide_eq_false h]

theorem interleave_mod (x y n m : Nat) (h : m ≤ n) :
    interleave x y n % 2 ^ (2 * m) = interleave x y m := by
  apply Nat.eq_of_testBit_eq
  intro j
  rw [Nat.testBit_mod_two_pow]
  rcases Nat.even_or_odd j with he | ho
  · obtain ⟨i, hi⟩ := he
    have hj : j = 2 * i := by omega
    subst hj
    rw [interleave_testBit_even, interleave_testBit_even]
    by_cases h1 : i < m
    · simp [decide_eq_true h1, decide_eq_true (show i < n from by omega),
        decide_eq_true (show 2 * i < 2 * m from by omega)]
    · by_cases h2 : 2 * i < 2 * m
      · omega
      · simp [decide_eq_false h1, decide_eq_false h2]
  · obtain ⟨i, hi⟩ := ho
    subst hi
    rw [interleave_testBit_odd, interleave_testBit_odd]
    by_cases h1 : i < m
    · simp [decide_eq_true h1, decide_eq_true (show i < n from by omega),
        decide_eq_true (show 2 * i + 1 < 2 * m from by omega)]
    · by_cases h2 : 2 * i + 1 < 2 * m
      · omega
      · simp [decide_eq_false h1, decide_eq_false h2]

theorem gatherX_testBit (id n j : Nat) :
    (gatherX id n).testBit j = (decide (j < n) && id.testBit (2 * j)) := by
  induction n with
  | zero => simp [gatherX]
  | succ n ih =>
    rw [gatherX]
    have e1 : ((id &&& (1 <<< (2 * n))) >>> n).testBit j =
        (decide (j = n) && id.testBit (2 * n)) := by
      rw [Nat.testBit_shiftRight, one_shiftLeft_eq, Nat.testBit_and, Nat.testBit_two_pow]
      by_cases h : j = n
      · subst h
        rw [show j + j = 2 * j from by omega]
        simp
      · have h2 : ((2 : Nat) * n) ≠ n + j := by omega
        simp [decide_eq_false h2, decide_eq_false h]
    rw [Nat.testBit_or, ih, e1]
    rcases Nat.lt_trichotomy j n with h | h | h
    · have h2 : j ≠ n := by omega
      simp [decide_eq_true h, decide_eq_true (show j < n + 1 from by omega),
        decide_eq_false h2]
    · subst h
      simp [decide_eq_false (lt_irrefl j), decide_eq_true (show j < j + 1 from by omega)]
    · have h1 : ¬ (j < n) := by omega
      have h2 : ¬ (j < n + 1) := by omega
      have h3 : j ≠ n := by omega
      simp [decide_eq_false h1, decide_eq_false h2, decide_eq_false h3]

theorem gatherY_testBit (id n j : Nat) :
    (gatherY id n).testBit j = (decide (j < n) && id.testBit (2 * j + 1)) := by
  induction n with
  | zero => simp [gatherY]
  | succ n ih =>
    rw [gatherY]
    have e1 : ((id &&& (1 <<< (2 * n + 1))) >>> (n + 1)).testBit j =
        (decide (j = n) && id.testBit (2 * n + 1)) := by
      rw [Nat.testBit_shiftRight, one_shiftLeft_eq, Nat.testBit_and, Nat.testBit_two_pow]
      by_cases h : j = n
      · subst h
        rw [show j + 1 + j = 2 * j + 1 from by omega]
        simp
      · have h2 : ((2 : Nat) * n + 1) ≠ n + 1 + j := by omega
        simp [decide_eq_false h2, decide_eq_false h]
    rw [Nat.testBit_or, ih, e1]
    rcases Nat.lt_trichotomy j n with h | h | h
    · have h2 : j ≠ n := by omega
      simp [decide_eq_true h, decide_eq_true (show j < n + 1 from by omega),
        decide_eq_false h2]
    · subst h
      simp [decide_eq_false (lt_irrefl j), decide_eq_true (show j < j + 1 from by omega)]
    · have h1 : ¬ (j < n) := by omega
      have h2 : ¬ (j < n + 1) := by omega
      have h3 : j ≠ n := by omega
      simp [decide_eq_false h1, decide_eq_false h2, decide_eq_false h3]

theorem gatherX_interleave (x y n : Nat) : gatherX (interleave x y n) n = x % 2 ^ n := by
  apply Nat.eq_of_testBit_eq
  intro j
  rw [gatherX_testBit, interleave_testBit_even, Nat.testBit_mod_two_pow]
  by_cases h : j < n
  · simp [decide_eq_true h]
  · simp [decide_eq_false h]

theorem gatherY_interleave (x y n : Nat) : gatherY (interleave x y n) n = y % 2 ^ n := by
  apply Nat.eq_of_testBit_eq
  intro j
  rw [gatherY_testBit, interleave_testBit_odd, Nat.testBit_mod_two_pow]
  by_cases h : j < n
  · simp [decide_eq_true h]
  · simp [decide_eq_false h]

theorem land_two_pow_sub_one (u k : Nat) : u &&& (2 ^ k - 1) = u % 2 ^ k := by
  apply Nat.eq_of_testBit_eq
  intro j
  rw [Nat.testBit_and, Nat.testBit_two_pow_sub_one, Nat.testBit_mod_two_pow]
  by_cases h : j < k
  · simp [decide_eq_true h]
  · simp [decide_eq_false h]

theorem sext64_asr32_mod (u k : Nat) (hu : u < 2 ^ 32) (hk : k ≤ 32) :
    sext64 (asr32 u k) % 2 ^ (32 - k) = u >>> k := by
  have hprod : (2 : Nat) ^ k * 2 ^ (32 - k) = 2 ^ 32 := by
    rw [← pow_add]
    congr 1
    omega
  have hshift : u >>> k < 2 ^ (32 - k) := by
    rw [Nat.shiftRight_eq_div_pow]
    exact Nat.div_lt_of_lt_mul (hprod ▸ hu)
  by_cases hs : u < 2 ^ 31
  · have hle : u >>> k ≤ u := by
      rw [Nat.shiftRight_eq_div_pow]
      exact Nat.div_le_self _ _
    rw [asr32, if_pos hs, sext64, if_pos (by omega), Nat.mod_eq_of_lt hshift]
  · have hge : 2 ^ 31 ≤ asr32 u k := by
      rw [asr32, if_neg hs]
      rcases Nat.eq_zero_or_pos k with h0 | h0
      · subst h0
        simp only [Nat.shiftRight_zero, Nat.sub_zero, Nat.sub_self]
        omega
      · have hle31 : (2 : Nat) ^ (32 - k) ≤ 2 ^ 31 :=
          Nat.pow_le_pow_right (by norm_num) (by omega)
        have key : (2 : Nat) ^ 31 ≤ 2 ^ 32 - 2 ^ (32 - k) := by omega
        exact le_trans key (Nat.le_add_left _ _)
    rw [sext64, if_neg (by omega), asr32, if_neg hs]
    have hd1 : (2 : Nat) ^ (32 - k) ∣ 2 ^ 32 := ⟨2 ^ k, by rw [← hprod]; ring⟩
    have hd2 : (2 : Nat) ^ (32 - k) ∣ 2 ^ 64 := pow_dvd_pow 2 (by omega)
    have hd : (2 : Nat) ^ (32 - k) ∣ (2 ^ 32 - 2 ^ (32 - k)) + (2 ^ 64 - 2 ^ 32) :=
      Nat.dvd_add (Nat.dvd_sub' hd1 dvd_rfl) (Nat.dvd_sub' hd2 hd1)
    obtain ⟨c, hc⟩ := hd
    have he : u >>> k + (2 ^ 32 - 2 ^ (32 - k)) + (2 ^ 64 - 2 ^ 32) =
        u >>> k + 2 ^ (32 - k) * c := by omega
    rw [he, Nat.add_mul_mod_self_left, Nat.mod_eq_of_lt hshift]

/-- The per-coordinate round trip of `set_morton` after `linear_id`: gather,
shift left as int32, and reduce. -/
theorem set_morton_coord_roundtrip (u lev : Nat) (hu : u < 2 ^ 32)
    (hlev : lev ≤ 29) (halign : u &&& (2 ^ (29 - lev) - 1) = 0)
    (g : Nat) (hg : g = sext64 (asr32 u (29 - lev)) % 2 ^ (lev + 3)) :
    (g <<< (29 - lev)) % 2 ^ 32 = u := by
  have hk : 29 - lev ≤ 32 := by omega
  have h32 : 32 - (29 - lev) = lev + 3 := by omega
  rw [← h32] at hg
  rw [hg, sext64_asr32_mod u (29 - lev) hu hk]
  rw [land_two_pow_sub_one] at halign
  rw [Nat.shiftLeft_eq, Nat.shiftRight_eq_div_pow,
    Nat.div_mul_cancel (Nat.dvd_of_mod_eq_zero halign)]
  exact Nat.mod_eq_of_lt hu

/-- Claim C5, counterexample: for an extended quadrant `q` of level 1 and
`L = 0 ≤ q.level`, composing `set_morton` after `linear_id` at level `L`
does not reproduce `q` (the level and the truncated coordinates differ). -/
theorem C5_counterexample :
    p4est_quadrant_is_extended { x := 2 ^ 28, y := 0, level := 1 } ∧
    (0 : Nat) ≤ Quadrant.level { x := 2 ^ 28, y := 0, level := 1 } ∧
    p4est_quadrant_set_morton 0
      (p4est_quadrant_linear_id { x := 2 ^ 28, y := 0, level := 1 } 0) ≠
      { x := 2 ^ 28, y := 0, level := 1 } := by
  refine ⟨by decide, by decide, by decide⟩

/-- Claim C5, amended: for every extended quadrant `q`, taken at the level
`L = q.level` (rather than any `L ≤ q.level`), `set_morton` inverts
`linear_id` exactly, reproducing the full bit pattern of the coordinates
including the sign bits. -/
theorem C5_theorem (q : Quadrant) (h : p4est_quadrant_is_extended q) :
    p4est_quadrant_set_morton q.level (p4est_quadrant_linear_id q q.level) = q := by
  obtain ⟨x, y, lev⟩ := q
  obtain ⟨hx32, hy32, hlev, hax, hay⟩ := h
  simp only at hx32 hy32 hlev hax hay
  have hML : P4EST_MAXLEVEL = 29 := rfl
  rw [hML] at hlev
  have hn : lev + (32 - P4EST_MAXLEVEL) = lev + 3 := by rw [hML]
  unfold p4est_quadrant_set_morton p4est_quadrant_linear_id
  simp only [hn, hML]
  have hx : (gatherX
      (interleave (sext64 (asr32 x (29 - lev))) (sext64 (asr32 y (29 - lev))) (lev + 3))
      (lev + 3) <<< (29 - lev)) % 2 ^ 32 = x := by
    rw [gatherX_interleave]
    exact set_morton_coord_roundtrip x lev hx32 hlev
      (by rw [show P4EST_QUADRANT_LEN lev = 2 ^ (29 - lev) from by rw [P4EST_QUADRANT_LEN, hML]] at hax; exact hax)
      _ rfl
  have hy : (gatherY
      (interleave (sext64 (asr32 x (29 - lev))) (sext64 (asr32 y (29 - lev))) (lev + 3))
      (lev + 3) <<< (29 - lev)) % 2 ^ 32 = y := by
    rw [gatherY_interleave]
    exact set_morton_coord_roundtrip y lev hy32 hlev
      (by rw [show P4EST_QUADRANT_LEN lev = 2 ^ (29 - lev) from by rw [P4EST_QUADRANT_LEN, hML]] at hay; exact hay)
      _ rfl
  simp only [Quadrant.mk.injEq]
  exact ⟨hx, hy, trivial⟩

/-- Witness for C5 at a concrete extended quadrant with a negative x
coordinate. -/
theorem C5_witness :
    p4est_quadrant_is_extended { x := 2 ^ 32 - 2 ^ 26, y := 2 ^ 28, level := 3 } ∧
    p4est_quadrant_set_morton 3
      (p4est_quadrant_linear_id { x := 2 ^ 32 - 2 ^ 26, y := 2 ^ 28, level := 3 } 3) =
      { x := 2 ^ 32 - 2 ^ 26, y := 2 ^ 28, level := 3 } :=
  ⟨by decide, C5_theorem { x := 2 ^ 32 - 2 ^ 26, y := 2 ^ 28, level := 3 } (by decide)⟩

theorem compareRet_pos (d : Int) (h : 0 < d) : compareRet d = 1 := by
  rw [compareRet, if_neg (by omega), if_neg (by omega)]

theorem compareRet_neg (d : Int) (h : d < 0) : compareRet d = -1 := by
  rw [compareRet, if_neg (by omega), if_pos h]

theorem compareRet_zero (d : Int) (h : d = 0) : compareRet d = 0 := by
  rw [compareRet, if_pos h]

theorem compareRet_lt_zero_iff (d : Int) : compareRet d < 0 ↔ d < 0 := by
  rw [compareRet]
  by_cases h : d = 0
  · simp [h]
  · by_cases h2 : d < 0 <;> simp [h, h2]

theorem compareRet_eq_zero_iff (d : Int) : compareRet d = 0 ↔ d = 0 := by
  rw [compareRet]
  by_cases h : d = 0
  · simp [h]
  · by_cases h2 : d < 0 <;> simp [h, h2]

theorem rebias_eq_pkey (u : Nat) (hu : u < 2 ^ 32) : rebias u = (pkey u : Int) := by
  rw [rebias, sval, pkey]
  by_cases h : u < 2 ^ 31
  · rw [if_pos h, if_pos (by positivity)]
    have : u % 2 ^ 31 = u := Nat.mod_eq_of_lt h
    rw [this]
    ring
  · rw [if_neg h, if_neg (by push_cast; omega)]
    have hm : u % 2 ^ 31 = u - 2 ^ 31 := by omega
    rw [hm]
    have : (P4EST_MAXLEVEL + 2) = 31 := rfl
    rw [this]
    push_cast
    omega

/-- Claim C6, counterexample: two extended quadrants decided on the y axis
with `q1.y < 0 ≤ q2.y`; the comparison returns `1`, so the negative side
does not compare below. -/
theorem C6_counterexample :
    p4est_quadrant_is_extended { x := 0, y := 2 ^ 32 - 2 ^ 29, level := 0 } ∧
    p4est_quadrant_is_extended { x := 0, y := 0, level := 0 } ∧
    inExtendedRange { x := 0, y := 2 ^ 32 - 2 ^ 29, level := 0 } ∧
    inExtendedRange { x := 0, y := 0, level := 0 } ∧
    SC_LOG2_32 ((2 ^ 32 - 2 ^ 29 : Nat) ^^^ 0) ≥ SC_LOG2_32 ((0 : Nat) ^^^ 0) ∧
    2 ^ 31 ≤ (2 ^ 32 - 2 ^ 29 : Nat) ∧ (0 : Nat) < 2 ^ 31 ∧
    ¬ (p4est_quadrant_compare { x := 0, y := 2 ^ 32 - 2 ^ 29, level := 0 }
        { x := 0, y := 0, level := 0 } < 0) := by
  refine ⟨by decide, by decide, by decide, by decide, by decide, by decide, by decide, by decide⟩

/-- Claim C6, amended: on extended quadrants within the extended coordinate
range, when the comparison is decided on an axis where `q1`'s coordinate is
negative (sign bit set) and `q2`'s is non-negative, the rebias by
`1 << (Lmax + 2)` makes the negative side compare above: the result is `1`,
so the negative-side extended range sorts above the non-negative range. -/
theorem C6_theorem (q1 q2 : Quadrant)
    (h1 : p4est_quadrant_is_extended q1) (h2 : p4est_quadrant_is_extended q2)
    (hr1 : inExtendedRange q1) (hr2 : inExtendedRange q2) :
    (SC_LOG2_32 (q1.y ^^^ q2.y) ≥ SC_LOG2_32 (q1.x ^^^ q2.x) →
      2 ^ 31 ≤ q1.y → q2.y < 2 ^ 31 → p4est_quadrant_compare q1 q2 = 1) ∧
    (SC_LOG2_32 (q1.y ^^^ q2.y) < SC_LOG2_32 (q1.x ^^^ q2.x) →
      2 ^ 31 ≤ q1.x → q2.x < 2 ^ 31 → p4est_quadrant_compare q1 q2 = 1) := by
  obtain ⟨hx1, hy1, -, -, -⟩ := h1
  obtain ⟨hx2, hy2, -, -, -⟩ := h2
  constructor
  · intro hbr hneg hpos
    have hyne : q1.y ≠ q2.y := by omega
    have heyne : q1.y ^^^ q2.y ≠ 0 := Nat.xor_ne_zero.2 hyne
    rw [p4est_quadrant_compare]
    rw [if_neg (by intro hc; exact heyne hc.1), if_pos hbr]
    apply compareRet_pos
    rw [rebias_eq_pkey q1.y hy1, rebias_eq_pkey q2.y hy2]
    have h1v : pkey q1.y = q1.y - 2 ^ 31 := by
      rw [pkey]; omega
    have h2v : pkey q2.y = q2.y := by
      rw [pkey]; exact Nat.mod_eq_of_lt hpos
    rcases hr1.2 with hc | hc
    · omega
    rcases hr2.2 with hd | hd
    · rw [h1v, h2v]
      push_cast
      omega
    · omega
  · intro hbr hneg hpos
    have hxne : q1.x ≠ q2.x := by omega
    have hexne : q1.x ^^^ q2.x ≠ 0 := Nat.xor_ne_zero.2 hxne
    rw [p4est_quadrant_compare]
    rw [if_neg (by intro hc; exact hexne hc.2), if_neg (by omega)]
    apply compareRet_pos
    rw [rebias_eq_pkey q1.x hx1, rebias_eq_pkey q2.x hx2]
    have h1v : pkey q1.x = q1.x - 2 ^ 31 := by
      rw [pkey]; omega
    have h2v : pkey q2.x = q2.x := by
      rw [pkey]; exact Nat.mod_eq_of_lt hpos
    rcases hr1.1 with hc | hc
    · omega
    rcases hr2.1 with hd | hd
    · rw [h1v, h2v]
      push_cast
      omega
    · omega

/-- Witness for C6 at the quadrants of the counterexample. -/
theorem C6_witness :
    p4est_quadrant_compare { x := 0, y := 2 ^ 32 - 2 ^ 29, level := 0 }
      { x := 0, y := 0, level := 0 } = 1 :=
  (C6_theorem { x := 0, y := 2 ^ 32 - 2 ^ 29, level := 0 } { x := 0, y := 0, level := 0 }
    (by decide) (by decide) (by decide) (by decide)).1 (by decide) (by decide) (by decide)

theorem pkey_lt_two31 (u : Nat) : pkey u < 2 ^ 31 := Nat.mod_lt _ (by norm_num)

theorem pkey_inj (u v : Nat)
    (hu : u < 2 ^ 30 ∨ 2 ^ 32 - 2 ^ 29 ≤ u) (hu32 : u < 2 ^ 32)
    (hv : v < 2 ^ 30 ∨ 2 ^ 32 - 2 ^ 29 ≤ v) (hv32 : v < 2 ^ 32)
    (h : pkey u = pkey v) : u = v := by
  rw [pkey, pkey] at h
  omega

theorem pkey_xor (u v : Nat) : pkey u ^^^ pkey v = (u ^^^ v) % 2 ^ 31 := by
  apply Nat.eq_of_testBit_eq
  intro j
  rw [Nat.testBit_xor, pkey, pkey, Nat.testBit_mod_two_pow, Nat.testBit_mod_two_pow,
    Nat.testBit_mod_two_pow, Nat.testBit_xor]
  by_cases h : j < 31
  · simp [decide_eq_true h]
  · simp [decide_eq_false h]

theorem testBit_of_neg_range (u : Nat) (h1 : 2 ^ 32 - 2 ^ 29 ≤ u) (h2 : u < 2 ^ 32) :
    u.testBit 31 = true ∧ u.testBit 30 = true := by
  constructor
  · rw [Nat.testBit_to_div_mod, decide_eq_true_iff]
    omega
  · rw [Nat.testBit_to_div_mod, decide_eq_true_iff]
    omega

theorem xor_lt_both_neg (u v : Nat)
    (hu1 : 2 ^ 32 - 2 ^ 29 ≤ u) (hu2 : u < 2 ^ 32)
    (hv1 : 2 ^ 32 - 2 ^ 29 ≤ v) (hv2 : v < 2 ^ 32) : u ^^^ v < 2 ^ 29 := by
  apply Nat.lt_pow_two_of_testBit
  intro j hj
  rw [Nat.testBit_xor]
  have hb : ∀ w, 2 ^ 32 - 2 ^ 29 ≤ w → w < 2 ^ 32 → w.testBit j = decide (j ≤ 31) := by
    intro w hw1 hw2
    by_cases hj31 : j ≤ 31
    · rw [decide_eq_true hj31, Nat.testBit_to_div_mod, decide_eq_true_iff]
      interval_cases j <;> omega
    · rw [decide_eq_false hj31]
      exact Nat.testBit_lt_two_pow (lt_of_lt_of_le hw2
        (Nat.pow_le_pow_right (by norm_num) (by omega)))
  rw [hb u hu1 hu2, hb v hv1 hv2]
  simp

/-- In a mixed-sign coordinate pair within the extended range, the pattern
xor has top bit 31 and the rebiased xor has top bit 30. -/
theorem mixed_sign_facts (u v : Nat)
    (hu1 : 2 ^ 32 - 2 ^ 29 ≤ u) (hu2 : u < 2 ^ 32) (hv : v < 2 ^ 30) :
    (u ^^^ v).log2 = 31 ∧ (pkey u ^^^ pkey v).log2 = 30 ∧
    (pkey u ^^^ pkey v) ≠ 0 := by
  have hu31 := (testBit_of_neg_range u hu1 hu2).1
  have hu30 := (testBit_of_neg_range u hu1 hu2).2
  have hv31 : v.testBit 31 = false :=
    Nat.testBit_lt_two_pow (lt_trans hv (by norm_num))
  have hv30 : v.testBit 30 = false :=
    Nat.testBit_lt_two_pow (lt_of_lt_of_le hv (by norm_num))
  refine ⟨?_, ?_, ?_⟩
  · apply log2_eq_of_testBit
    · rw [Nat.testBit_xor, hu31, hv31]
      rfl
    · intro j hj
      rw [Nat.testBit_xor]
      have h1 : u.testBit j = false :=
        Nat.testBit_lt_two_pow (lt_of_lt_of_le hu2
          (Nat.pow_le_pow_right (by norm_num) (by omega)))
      have h2 : v.testBit j = false :=
        Nat.testBit_lt_two_pow (lt_of_lt_of_le hv
          (Nat.pow_le_pow_right (by norm_num) (by omega)))
      rw [h1, h2]
      rfl
  · apply log2_eq_of_testBit
    · rw [Nat.testBit_xor, pkey, pkey, Nat.testBit_mod_two_pow, Nat.testBit_mod_two_pow]
      have h30 : (30 : Nat) < 31 := by norm_num
      rw [decide_eq_true h30]
      simp only [Bool.true_and]
      rw [hu30, hv30]
      rfl
    · intro j hj
      rw [Nat.testBit_xor]
      have h1 : (pkey u).testBit j = false :=
        Nat.testBit_lt_two_pow (lt_of_lt_of_le (pkey_lt_two31 u)
          (Nat.pow_le_pow_right (by norm_num) (by omega)))
      have h2 : (pkey v).testBit j = false :=
        Nat.testBit_lt_two_pow (lt_of_lt_of_le (pkey_lt_two31 v)
          (Nat.pow_le_pow_right (by norm_num) (by omega)))
      rw [h1, h2]
      rfl
  · intro hc
    have : (pkey u ^^^ pkey v).testBit 30 = false := by
      rw [hc]
      exact Nat.zero_testBit 30
    rw [Nat.testBit_xor, pkey, pkey, Nat.testBit_mod_two_pow, Nat.testBit_mod_two_pow] at this
    have h30 : (30 : Nat) < 31 := by norm_num
    rw [decide_eq_true h30] at this
    simp only [Bool.true_and] at this
    rw [hu30, hv30] at this
    exact Bool.false_ne_true this.symm

/-- In a same-sign coordinate pair within the extended range, the pattern
xor is below `2 ^ 30` and equals the rebiased xor. -/
theorem same_sign_facts (u v : Nat) (hu32 : u < 2 ^ 32) (hv32 : v < 2 ^ 32)
    (h : (u < 2 ^ 30 ∧ v < 2 ^ 30) ∨
      (2 ^ 32 - 2 ^ 29 ≤ u ∧ 2 ^ 32 - 2 ^ 29 ≤ v)) :
    u ^^^ v < 2 ^ 30 ∧ pkey u ^^^ pkey v = u ^^^ v := by
  have hlt : u ^^^ v < 2 ^ 30 := by
    rcases h with ⟨h1, h2⟩ | ⟨h1, h2⟩
    · exact Nat.xor_lt_two_pow h1 h2
    · exact lt_trans (xor_lt_both_neg u v h1 hu32 h2 hv32) (by norm_num)
  refine ⟨hlt, ?_⟩
  rw [pkey_xor]
  exact Nat.mod_eq_of_lt (lt_trans hlt (by norm_num))

/-- When `p4est_quadrant_compare` decides on the y axis, the order of the
sign-aware Morton keys is the order of the rebiased y coordinates. -/
theorem axis_y_key (q1 q2 : Quadrant)
    (h1 : p4est_quadrant_is_extended q1) (h2 : p4est_quadrant_is_extended q2)
    (hr1 : inExtendedRange q1) (hr2 : inExtendedRange q2)
    (hyne : q1.y ≠ q2.y)
    (hbr : SC_LOG2_32 (q1.y ^^^ q2.y) ≥ SC_LOG2_32 (q1.x ^^^ q2.x)) :
    (quadKey q1 < quadKey q2 ↔ pkey q1.y < pkey q2.y) := by
  obtain ⟨hx1, hy1, -, -, -⟩ := h1
  obtain ⟨hx2, hy2, -, -, -⟩ := h2
  obtain ⟨hrx1, hry1⟩ := hr1
  obtain ⟨hrx2, hry2⟩ := hr2
  have hpyne : pkey q1.y ≠ pkey q2.y := by
    intro hc
    exact hyne (pkey_inj q1.y q2.y hry1 hy1 hry2 hy2 hc)
  have hpy0 : pkey q1.y ^^^ pkey q2.y ≠ 0 := Nat.xor_ne_zero.2 hpyne
  have hpylt : pkey q1.y ^^^ pkey q2.y < 2 ^ 31 :=
    Nat.xor_lt_two_pow (pkey_lt_two31 _) (pkey_lt_two31 _)
  have hlpy31 : (pkey q1.y ^^^ pkey q2.y).log2 < 31 := (Nat.log2_lt hpy0).2 hpylt
  have hover : ∀ i, (pkey q1.y ^^^ pkey q2.y).log2 < i →
      (pkey q1.x ^^^ pkey q2.x).testBit i = false := by
    intro i hi
    have hpxlt : pkey q1.x ^^^ pkey q2.x < 2 ^ 31 :=
      Nat.xor_lt_two_pow (pkey_lt_two31 _) (pkey_lt_two31 _)
    rcases hry1 with hy1p | hy1n
    · rcases hry2 with hy2p | hy2n
      · -- y same sign (both non-negative)
        obtain ⟨heylt, heyeq⟩ := same_sign_facts q1.y q2.y hy1 hy2 (Or.inl ⟨hy1p, hy2p⟩)
        have hey0 : q1.y ^^^ q2.y ≠ 0 := Nat.xor_ne_zero.2 hyne
        have hsy : SC_LOG2_32 (q1.y ^^^ q2.y) = (Nat.log2 (q1.y ^^^ q2.y) : Int) :=
          SC_LOG2_32_pos _ hey0 (lt_trans heylt (by norm_num))
        have heylog : Nat.log2 (q1.y ^^^ q2.y) < 30 := (Nat.log2_lt hey0).2 heylt
        rcases hrx1 with hx1p | hx1n
        · rcases hrx2 with hx2p | hx2n
          · -- x same sign
            obtain ⟨hexlt, hexeq⟩ := same_sign_facts q1.x q2.x hx1 hx2 (Or.inl ⟨hx1p, hx2p⟩)
            by_cases hex0 : q1.x ^^^ q2.x = 0
            · rw [hexeq, hex0]
              exact Nat.zero_testBit i
            · have hsx : SC_LOG2_32 (q1.x ^^^ q2.x) = (Nat.log2 (q1.x ^^^ q2.x) : Int) :=
                SC_LOG2_32_pos _ hex0 (lt_trans hexlt (by norm_num))
              rw [hsy, hsx] at hbr
              have : Nat.log2 (q1.x ^^^ q2.x) ≤ Nat.log2 (q1.y ^^^ q2.y) := by
                exact_mod_cast hbr
              rw [hexeq]
              apply testBit_false_of_log2_lt
              rw [heyeq] at hi
              omega
          · -- x mixed sign
            obtain ⟨hexlog, -, -⟩ := mixed_sign_facts q2.x q1.x hx2n hx2 hx1p
            rw [Nat.xor_comm q2.x q1.x] at hexlog
            have hex0 : q1.x ^^^ q2.x ≠ 0 := by
              intro hc
              rw [hc] at hexlog
              simp [Nat.log2] at hexlog
            have hsx : SC_LOG2_32 (q1.x ^^^ q2.x) = (Nat.log2 (q1.x ^^^ q2.x) : Int) :=
              SC_LOG2_32_pos _ hex0 (Nat.xor_lt_two_pow hx1 hx2)
            rw [hsy, hsx, hexlog] at hbr
            omega
        · rcases hrx2 with hx2p | hx2n
          · -- x mixed sign
            obtain ⟨hexlog, -, -⟩ := mixed_sign_facts q1.x q2.x hx1n hx1 hx2p
            have hex0 : q1.x ^^^ q2.x ≠ 0 := by
              intro hc
              rw [hc] at hexlog
              simp [Nat.log2] at hexlog
            have hsx : SC_LOG2_32 (q1.x ^^^ q2.x) = (Nat.log2 (q1.x ^^^ q2.x) : Int) :=
              SC_LOG2_32_pos _ hex0 (Nat.xor_lt_two_pow hx1 hx2)
            rw [hsy, hsx, hexlog] at hbr
            omega
          · -- x same sign (both negative)
            obtain ⟨hexlt, hexeq⟩ := same_sign_facts q1.x q2.x hx1 hx2 (Or.inr ⟨hx1n, hx2n⟩)
            by_cases hex0 : q1.x ^^^ q2.x = 0
            · rw [hexeq, hex0]
              exact Nat.zero_testBit i
            · have hsx : SC_LOG2_32 (q1.x ^^^ q2.x) = (Nat.log2 (q1.x ^^^ q2.x) : Int) :=
                SC_LOG2_32_pos _ hex0 (lt_trans hexlt (by norm_num))
              rw [hsy, hsx] at hbr
              have : Nat.log2 (q1.x ^^^ q2.x) ≤ Nat.log2 (q1.y ^^^ q2.y) := by
                exact_mod_cast hbr
              rw [hexeq]
              apply testBit_false_of_log2_lt
              rw [heyeq] at hi
              omega
      · -- y mixed sign
        obtain ⟨-, hpylog, -⟩ := mixed_sign_facts q2.y q1.y hy2n hy2 hy1p
        rw [Nat.xor_comm (pkey q2.y) (pkey q1.y)] at hpylog
        rw [hpylog] at hi
        exact Nat.testBit_lt_two_pow (lt_of_lt_of_le hpxlt
          (Nat.pow_le_pow_right (by norm_num) (by omega)))
    · rcases hry2 with hy2p | hy2n
      · -- y mixed sign
        obtain ⟨-, hpylog, -⟩ := mixed_sign_facts q1.y q2.y hy1n hy1 hy2p
        rw [hpylog] at hi
        exact Nat.testBit_lt_two_pow (lt_of_lt_of_le hpxlt
          (Nat.pow_le_pow_right (by norm_num) (by omega)))
      · -- y same sign (both negative)
        obtain ⟨heylt, heyeq⟩ := same_sign_facts q1.y q2.y hy1 hy2 (Or.inr ⟨hy1n, hy2n⟩)
        have hey0 : q1.y ^^^ q2.y ≠ 0 := Nat.xor_ne_zero.2 hyne
        have hsy : SC_LOG2_32 (q1.y ^^^ q2.y) = (Nat.log2 (q1.y ^^^ q2.y) : Int) :=
          SC_LOG2_32_pos _ hey0 (lt_trans heylt (by norm_num))
        have heylog : Nat.log2 (q1.y ^^^ q2.y) < 30 := (Nat.log2_lt hey0).2 heylt
        rcases hrx1 with hx1p | hx1n
        · rcases hrx2 with hx2p | hx2n
          · obtain ⟨hexlt, hexeq⟩ := same_sign_facts q1.x q2.x hx1 hx2 (Or.inl ⟨hx1p, hx2p⟩)
            by_cases hex0 : q1.x ^^^ q2.x = 0
            · rw [hexeq, hex0]
              exact Nat.zero_testBit i
            · have hsx : SC_LOG2_32 (q1.x ^^^ q2.x) = (Nat.log2 (q1.x ^^^ q2.x) : Int) :=
                SC_LOG2_32_pos _ hex0 (lt_trans hexlt (by norm_num))
              rw [hsy, hsx] at hbr
              have : Nat.log2 (q1.x ^^^ q2.x) ≤ Nat.log2 (q1.y ^^^ q2.y) := by
                exact_mod_cast hbr
              rw [hexeq]
              apply testBit_false_of_log2_lt
              rw [heyeq] at hi
              omega
          · obtain ⟨hexlog, -, -⟩ := mixed_sign_facts q2.x q1.x hx2n hx2 hx1p
            rw [Nat.xor_comm q2.x q1.x] at hexlog
            have hex0 : q1.x ^^^ q2.x ≠ 0 := by
              intro hc
              rw [hc] at hexlog
              simp [Nat.log2] at hexlog
            have hsx : SC_LOG2_32 (q1.x ^^^ q2.x) = (Nat.log2 (q1.x ^^^ q2.x) : Int) :=
              SC_LOG2_32_pos _ hex0 (Nat.xor_lt_two_pow hx1 hx2)
            rw [hsy, hsx, hexlog] at hbr
            omega
        · rcases hrx2 with hx2p | hx2n
          · obtain ⟨hexlog, -, -⟩ := mixed_sign_facts q1.x q2.x hx1n hx1 hx2p
            have hex0 : q1.x ^^^ q2.x ≠ 0 := by
              intro hc
              rw [hc] at hexlog
              simp [Nat.log2] at hexlog
            have hsx : SC_LOG2_32 (q1.x ^^^ q2.x) = (Nat.log2 (q1.x ^^^ q2.x) : Int) :=
              SC_LOG2_32_pos _ hex0 (Nat.xor_lt_two_pow hx1 hx2)
            rw [hsy, hsx, hexlog] at hbr
            omega
          · obtain ⟨hexlt, hexeq⟩ := same_sign_facts q1.x q2.x hx1 hx2 (Or.inr ⟨hx1n, hx2n⟩)
            by_cases hex0 : q1.x ^^^ q2.x = 0
            · rw [hexeq, hex0]
              exact Nat.zero_testBit i
            · have hsx : SC_LOG2_32 (q1.x ^^^ q2.x) = (Nat.log2 (q1.x ^^^ q2.x) : Int) :=
                SC_LOG2_32_pos _ hex0 (lt_trans hexlt (by norm_num))
              rw [hsy, hsx] at hbr
              have : Nat.log2 (q1.x ^^^ q2.x) ≤ Nat.log2 (q1.y ^^^ q2.y) := by
                exact_mod_cast hbr
              rw [hexeq]
              apply testBit_false_of_log2_lt
              rw [heyeq] at hi
              omega
  -- the top differing key bit sits at the y position 2 * log2 + 1
  have hxorkey : quadKey q1 ^^^ quadKey q2 =
      interleave (pkey q1.x ^^^ pkey q2.x) (pkey q1.y ^^^ pkey q2.y) 32 := by
    rw [quadKey, quadKey, interleave_xor]
  have hD : (quadKey q1 ^^^ quadKey q2).log2 =
      2 * (pkey q1.y ^^^ pkey q2.y).log2 + 1 := by
    rw [hxorkey]
    apply log2_eq_of_testBit
    · rw [interleave_testBit_odd, decide_eq_true (show (pkey q1.y ^^^ pkey q2.y).log2 < 32 from by omega),
        Bool.true_and]
      exact testBit_log2_self _ hpy0
    · intro j hj
      rcases Nat.even_or_odd j with he | ho
      · obtain ⟨i, hi2⟩ := he
        have hji : j = 2 * i := by omega
        subst hji
        rw [interleave_testBit_even]
        by_cases hi32 : i < 32
        · rw [hover i (by omega)]
          simp
        · simp [decide_eq_false hi32]
      · obtain ⟨i, hi2⟩ := ho
        subst hi2
        rw [interleave_testBit_odd]
        rw [testBit_false_of_log2_lt _ _ (by omega)]
        simp
  have hKne : quadKey q1 ≠ quadKey q2 := by
    intro hc
    have : quadKey q1 ^^^ quadKey q2 = 0 := by rw [hc]; exact Nat.xor_self _
    rw [hxorkey] at this
    have hb := interleave_testBit_odd (pkey q1.x ^^^ pkey q2.x)
      (pkey q1.y ^^^ pkey q2.y) 32 ((pkey q1.y ^^^ pkey q2.y).log2)
    rw [this, Nat.zero_testBit,
      decide_eq_true (show (pkey q1.y ^^^ pkey q2.y).log2 < 32 from by omega),
      Bool.true_and] at hb
    exact Bool.false_ne_true (hb.symm ▸ testBit_log2_self _ hpy0 ▸ hb ▸ rfl)
  rw [lt_iff_testBit_log2_xor _ _ hKne, hD,
    lt_iff_testBit_log2_xor _ _ hpyne]
  rw [quadKey, interleave_testBit_odd,
    decide_eq_true (show (pkey q1.y ^^^ pkey q2.y).log2 < 32 from by omega), Bool.true_and]

/-- When `p4est_quadrant_compare` decides on the x axis, the order of the
sign-aware Morton keys is the order of the rebiased x coordinates. -/
theorem axis_x_key (q1 q2 : Quadrant)
    (h1 : p4est_quadrant_is_extended q1) (h2 : p4est_quadrant_is_extended q2)
    (hr1 : inExtendedRange q1) (hr2 : inExtendedRange q2)
    (hbr : SC_LOG2_32 (q1.y ^^^ q2.y) < SC_LOG2_32 (q1.x ^^^ q2.x)) :
    (quadKey q1 < quadKey q2 ↔ pkey q1.x < pkey q2.x) := by
  obtain ⟨hx1, hy1, -, -, -⟩ := h1
  obtain ⟨hx2, hy2, -, -, -⟩ := h2
  obtain ⟨hrx1, hry1⟩ := hr1
  obtain ⟨hrx2, hry2⟩ := hr2
  have hex0 : q1.x ^^^ q2.x ≠ 0 := by
    intro hc
    rw [hc, SC_LOG2_32_zero] at hbr
    rcases Nat.eq_zero_or_pos (q1.y ^^^ q2.y) with h0 | h0
    · rw [h0, SC_LOG2_32_zero] at hbr
      omega
    · have := SC_LOG2_32_pos (q1.y ^^^ q2.y) (by omega) (Nat.xor_lt_two_pow hy1 hy2)
      rw [this] at hbr
      omega
  have hxne : q1.x ≠ q2.x := fun hc => hex0 (by rw [hc, Nat.xor_self])
  have hpxne : pkey q1.x ≠ pkey q2.x := by
    intro hc
    exact hxne (pkey_inj q1.x q2.x hrx1 hx1 hrx2 hx2 hc)
  have hpx0 : pkey q1.x ^^^ pkey q2.x ≠ 0 := Nat.xor_ne_zero.2 hpxne
  have hpxlt : pkey q1.x ^^^ pkey q2.x < 2 ^ 31 :=
    Nat.xor_lt_two_pow (pkey_lt_two31 _) (pkey_lt_two31 _)
  have hlpx31 : (pkey q1.x ^^^ pkey q2.x).log2 < 31 := (Nat.log2_lt hpx0).2 hpxlt
  have hover : ∀ i, (pkey q1.x ^^^ pkey q2.x).log2 ≤ i →
      (pkey q1.y ^^^ pkey q2.y).testBit i = false := by
    intro i hi
    have hpylt : pkey q1.y ^^^ pkey q2.y < 2 ^ 31 :=
      Nat.xor_lt_two_pow (pkey_lt_two31 _) (pkey_lt_two31 _)
    have hymixed_excluded : ∀ hyfacts : (q1.y ^^^ q2.y).log2 = 31, False := by
      intro hyl
      have hey0 : q1.y ^^^ q2.y ≠ 0 := by
        intro hc
        rw [hc] at hyl
        simp [Nat.log2] at hyl
      have hsy : SC_LOG2_32 (q1.y ^^^ q2.y) = (Nat.log2 (q1.y ^^^ q2.y) : Int) :=
        SC_LOG2_32_pos _ hey0 (Nat.xor_lt_two_pow hy1 hy2)
      have hsxle : SC_LOG2_32 (q1.x ^^^ q2.x) ≤ 31 := by
        rw [SC_LOG2_32_pos _ hex0 (Nat.xor_lt_two_pow hx1 hx2)]
        have : Nat.log2 (q1.x ^^^ q2.x) < 32 :=
          (Nat.log2_lt hex0).2 (Nat.xor_lt_two_pow hx1 hx2)
        exact_mod_cast by omega
      rw [hsy, hyl] at hbr
      omega
    have hysame : pkey q1.y ^^^ pkey q2.y = q1.y ^^^ q2.y ∧ q1.y ^^^ q2.y < 2 ^ 30 := by
      rcases hry1 with hy1p | hy1n
      · rcases hry2 with hy2p | hy2n
        · obtain ⟨hl, he⟩ := same_sign_facts q1.y q2.y hy1 hy2 (Or.inl ⟨hy1p, hy2p⟩)
          exact ⟨he, hl⟩
        · obtain ⟨hlog, -, -⟩ := mixed_sign_facts q2.y q1.y hy2n hy2 hy1p
          rw [Nat.xor_comm q2.y q1.y] at hlog
          exact absurd hlog hymixed_excluded
      · rcases hry2 with hy2p | hy2n
        · obtain ⟨hlog, -, -⟩ := mixed_sign_facts q1.y q2.y hy1n hy1 hy2p
          exact absurd hlog hymixed_excluded
        · obtain ⟨hl, he⟩ := same_sign_facts q1.y q2.y hy1 hy2 (Or.inr ⟨hy1n, hy2n⟩)
          exact ⟨he, hl⟩
    obtain ⟨hpyeq, heylt⟩ := hysame
    rcases hrx1 with hx1p | hx1n
    · rcases hrx2 with hx2p | hx2n
      · -- x same sign non-negative
        obtain ⟨hexlt, hexeq⟩ := same_sign_facts q1.x q2.x hx1 hx2 (Or.inl ⟨hx1p, hx2p⟩)
        by_cases hey0 : q1.y ^^^ q2.y = 0
        · rw [hpyeq, hey0]
          exact Nat.zero_testBit i
        · have hsy : SC_LOG2_32 (q1.y ^^^ q2.y) = (Nat.log2 (q1.y ^^^ q2.y) : Int) :=
            SC_LOG2_32_pos _ hey0 (Nat.xor_lt_two_pow hy1 hy2)
          have hsx : SC_LOG2_32 (q1.x ^^^ q2.x) = (Nat.log2 (q1.x ^^^ q2.x) : Int) :=
            SC_LOG2_32_pos _ hex0 (Nat.xor_lt_two_pow hx1 hx2)
          rw [hsy, hsx] at hbr
          have hlt : Nat.log2 (q1.y ^^^ q2.y) < Nat.log2 (q1.x ^^^ q2.x) := by
            exact_mod_cast hbr
          rw [hpyeq]
          apply testBit_false_of_log2_lt
          rw [hexeq] at hi
          omega
      · -- x mixed
        obtain ⟨-, hpxlog, -⟩ := mixed_sign_facts q2.x q1.x hx2n hx2 hx1p
        rw [Nat.xor_comm (pkey q2.x) (pkey q1.x)] at hpxlog
        rw [hpxlog] at hi
        rw [hpyeq]
        exact Nat.testBit_lt_two_pow (lt_of_lt_of_le heylt
          (Nat.pow_le_pow_right (by norm_num) (by omega)))
    · rcases hrx2 with hx2p | hx2n
      · obtain ⟨-, hpxlog, -⟩ := mixed_sign_facts q1.x q2.x hx1n hx1 hx2p
        rw [hpxlog] at hi
        rw [hpyeq]
        exact Nat.testBit_lt_two_pow (lt_of_lt_of_le heylt
          (Nat.pow_le_pow_right (by norm_num) (by omega)))
      · -- x same sign negative
        obtain ⟨hexlt, hexeq⟩ := same_sign_facts q1.x q2.x hx1 hx2 (Or.inr ⟨hx1n, hx2n⟩)
        by_cases hey0 : q1.y ^^^ q2.y = 0
        · rw [hpyeq, hey0]
          exact Nat.zero_testBit i
        · have hsy : SC_LOG2_32 (q1.y ^^^ q2.y) = (Nat.log2 (q1.y ^^^ q2.y) : Int) :=
            SC_LOG2_32_pos _ hey0 (Nat.xor_lt_two_pow hy1 hy2)
          have hsx : SC_LOG2_32 (q1.x ^^^ q2.x) = (Nat.log2 (q1.x ^^^ q2.x) : Int) :=
            SC_LOG2_32_pos _ hex0 (Nat.xor_lt_two_pow hx1 hx2)
          rw [hsy, hsx] at hbr
          have hlt : Nat.log2 (q1.y ^^^ q2.y) < Nat.log2 (q1.x ^^^ q2.x) := by
            exact_mod_cast hbr
          rw [hpyeq]
          apply testBit_false_of_log2_lt
          rw [hexeq] at hi
          omega
  have hxorkey : quadKey q1 ^^^ quadKey q2 =
      interleave (pkey q1.x ^^^ pkey q2.x) (pkey q1.y ^^^ pkey q2.y) 32 := by
    rw [quadKey, quadKey, interleave_xor]
  have hD : (quadKey q1 ^^^ quadKey q2).log2 =
      2 * (pkey q1.x ^^^ pkey q2.x).log2 := by
    rw [hxorkey]
    apply log2_eq_of_testBit
    · rw [interleave_testBit_even,
        decide_eq_true (show (pkey q1.x ^^^ pkey q2.x).log2 < 32 from by omega),
        Bool.true_and]
      exact testBit_log2_self _ hpx0
    · intro j hj
      rcases Nat.even_or_odd j with he | ho
      · obtain ⟨i, hi2⟩ := he
        have hji : j = 2 * i := by omega
        subst hji
        rw [interleave_testBit_even]
        rw [testBit_false_of_log2_lt _ _ (by omega)]
        simp
      · obtain ⟨i, hi2⟩ := ho
        subst hi2
        rw [interleave_testBit_odd]
        by_cases hi32 : i < 32
        · rw [hover i (by omega)]
          simp
        · simp [decide_eq_false hi32]
  have hKne : quadKey q1 ≠ quadKey q2 := by
    intro hc
    have hz : quadKey q1 ^^^ quadKey q2 = 0 := by rw [hc]; exact Nat.xor_self _
    rw [hxorkey] at hz
    have hb := interleave_testBit_even (pkey q1.x ^^^ pkey q2.x)
      (pkey q1.y ^^^ pkey q2.y) 32 ((pkey q1.x ^^^ pkey q2.x).log2)
    rw [hz, Nat.zero_testBit,
      decide_eq_true (show (pkey q1.x ^^^ pkey q2.x).log2 < 32 from by omega),
      Bool.true_and, testBit_log2_self _ hpx0] at hb
    exact Bool.false_ne_true hb
  rw [lt_iff_testBit_log2_xor _ _ hKne, hD,
    lt_iff_testBit_log2_xor _ _ hpxne]
  rw [quadKey, interleave_testBit_even,
    decide_eq_true (show (pkey q1.x ^^^ pkey q2.x).log2 < 32 from by omega), Bool.true_and]

theorem quadKey_inj (q1 q2 : Quadrant)
    (h1 : p4est_quadrant_is_extended q1) (h2 : p4est_quadrant_is_extended q2)
    (hr1 : inExtendedRange q1) (hr2 : inExtendedRange q2)
    (h : quadKey q1 = quadKey q2) : q1.x = q2.x ∧ q1.y = q2.y := by
  obtain ⟨hx1, hy1, -, -, -⟩ := h1
  obtain ⟨hx2, hy2, -, -, -⟩ := h2
  have hx := congrArg (fun t => gatherX t 32) h
  have hy := congrArg (fun t => gatherY t 32) h
  simp only [quadKey] at hx hy
  rw [gatherX_interleave, gatherX_interleave,
    Nat.mod_eq_of_lt (lt_trans (pkey_lt_two31 _) (by norm_num)),
    Nat.mod_eq_of_lt (lt_trans (pkey_lt_two31 _) (by norm_num))] at hx
  rw [gatherY_interleave, gatherY_interleave,
    Nat.mod_eq_of_lt (lt_trans (pkey_lt_two31 _) (by norm_num)),
    Nat.mod_eq_of_lt (lt_trans (pkey_lt_two31 _) (by norm_num))] at hy
  exact ⟨pkey_inj q1.x q2.x hr1.1 hx1 hr2.1 hx2 hx,
    pkey_inj q1.y q2.y hr1.2 hy1 hr2.2 hy2 hy⟩

/-- The comparison realizes the lexicographic order on `(quadKey, level)`:
the negative case. -/
theorem compare_lt_iff (q1 q2 : Quadrant)
    (h1 : p4est_quadrant_is_extended q1) (h2 : p4est_quadrant_is_extended q2)
    (hr1 : inExtendedRange q1) (hr2 : inExtendedRange q2) :
    p4est_quadrant_compare q1 q2 < 0 ↔
    (quadKey q1 < quadKey q2 ∨ (quadKey q1 = quadKey q2 ∧ q1.level < q2.level)) := by
  have hKeq : quadKey q1 = quadKey q2 ↔ (q1.x = q2.x ∧ q1.y = q2.y) := by
    constructor
    · exact quadKey_inj q1 q2 h1 h2 hr1 hr2
    · rintro ⟨hx, hy⟩
      rw [quadKey, quadKey, hx, hy]
  rw [p4est_quadrant_compare]
  by_cases hc : q1.y ^^^ q2.y = 0 ∧ q1.x ^^^ q2.x = 0
  · have hx : q1.x = q2.x := Nat.xor_eq_zero.1 hc.2
    have hy : q1.y = q2.y := Nat.xor_eq_zero.1 hc.1
    have hK : quadKey q1 = quadKey q2 := hKeq.2 ⟨hx, hy⟩
    rw [if_pos hc]
    constructor
    · intro h
      refine Or.inr ⟨hK, by omega⟩
    · rintro (h | ⟨-, h⟩)
      · omega
      · omega
  · have hKne : quadKey q1 ≠ quadKey q2 := by
      intro hk
      obtain ⟨hx, hy⟩ := hKeq.1 hk
      exact hc ⟨by rw [hy, Nat.xor_self], by rw [hx, Nat.xor_self]⟩
    rw [if_neg hc]
    by_cases hbr : SC_LOG2_32 (q1.y ^^^ q2.y) ≥ SC_LOG2_32 (q1.x ^^^ q2.x)
    · rw [if_pos hbr]
      have hyne : q1.y ≠ q2.y := by
        intro hy
        have hey : q1.y ^^^ q2.y = 0 := by rw [hy, Nat.xor_self]
        rw [hey, SC_LOG2_32_zero] at hbr
        rcases Nat.eq_zero_or_pos (q1.x ^^^ q2.x) with h0 | h0
        · exact hc ⟨hey, h0⟩
        · have := SC_LOG2_32_pos (q1.x ^^^ q2.x) (by omega)
            (Nat.xor_lt_two_pow h1.1 h2.1)
          rw [this] at hbr
          omega
      rw [compareRet_lt_zero_iff, rebias_eq_pkey _ h1.2.1, rebias_eq_pkey _ h2.2.1]
      have := axis_y_key q1 q2 h1 h2 hr1 hr2 hyne hbr
      constructor
      · intro h
        have hlt : pkey q1.y < pkey q2.y := by omega
        exact Or.inl (this.2 hlt)
      · rintro (h | ⟨hk, -⟩)
        · have := this.1 h
          omega
        · exact absurd hk hKne
    · rw [if_neg hbr]
      have hbr' : SC_LOG2_32 (q1.y ^^^ q2.y) < SC_LOG2_32 (q1.x ^^^ q2.x) :=
        lt_of_not_ge hbr
      rw [compareRet_lt_zero_iff, rebias_eq_pkey _ h1.1, rebias_eq_pkey _ h2.1]
      have := axis_x_key q1 q2 h1 h2 hr1 hr2 hbr'
      constructor
      · intro h
        have hlt : pkey q1.x < pkey q2.x := by omega
        exact Or.inl (this.2 hlt)
      · rintro (h | ⟨hk, -⟩)
        · have := this.1 h
          omega
        · exact absurd hk hKne

/-- The comparison realizes the lexicographic order on `(quadKey, level)`:
the zero case is record equality. -/
theorem compare_eq_iff (q1 q2 : Quadrant)
    (h1 : p4est_quadrant_is_extended q1) (h2 : p4est_quadrant_is_extended q2)
    (hr1 : inExtendedRange q1) (hr2 : inExtendedRange q2) :
    p4est_quadrant_compare q1 q2 = 0 ↔ q1 = q2 := by
  rw [p4est_quadrant_compare]
  by_cases hc : q1.y ^^^ q2.y = 0 ∧ q1.x ^^^ q2.x = 0
  · have hx : q1.x = q2.x := Nat.xor_eq_zero.1 hc.2
    have hy : q1.y = q2.y := Nat.xor_eq_zero.1 hc.1
    rw [if_pos hc]
    constructor
    · intro h
      have : q1.level = q2.level := by omega
      obtain ⟨a1, b1, c1⟩ := q1
      obtain ⟨a2, b2, c2⟩ := q2
      simp only at hx hy this
      rw [hx, hy, this]
    · intro h
      rw [h]
      omega
  · have hne : q1 ≠ q2 := by
      intro h
      rw [h] at hc
      exact hc ⟨Nat.xor_self _, Nat.xor_self _⟩
    rw [if_neg hc]
    have hpk : ∀ u v : Nat, u < 2 ^ 30 ∨ 2 ^ 32 - 2 ^ 29 ≤ u → u < 2 ^ 32 →
        v < 2 ^ 30 ∨ 2 ^ 32 - 2 ^ 29 ≤ v → v < 2 ^ 32 → u ≠ v →
        ¬ ((pkey u : Int) - pkey v = 0) := by
      intro u v hu h32 hv hv32 hne' hz
      apply hne'
      apply pkey_inj u v hu h32 hv hv32
      omega
    by_cases hbr : SC_LOG2_32 (q1.y ^^^ q2.y) ≥ SC_LOG2_32 (q1.x ^^^ q2.x)
    · rw [if_pos hbr]
      have hyne : q1.y ≠ q2.y := by
        intro hy
        have hey : q1.y ^^^ q2.y = 0 := by rw [hy, Nat.xor_self]
        rw [hey, SC_LOG2_32_zero] at hbr
        rcases Nat.eq_zero_or_pos (q1.x ^^^ q2.x) with h0 | h0
        · exact hc ⟨hey, h0⟩
        · have := SC_LOG2_32_pos (q1.x ^^^ q2.x) (by omega)
            (Nat.xor_lt_two_pow h1.1 h2.1)
          rw [this] at hbr
          omega
      rw [compareRet_eq_zero_iff, rebias_eq_pkey _ h1.2.1, rebias_eq_pkey _ h2.2.1]
      constructor
      · intro h
        exact absurd h (hpk q1.y q2.y hr1.2 h1.2.1 hr2.2 h2.2.1 hyne)
      · intro h
        exact absurd h hne
    · rw [if_neg hbr]
      have hbr' : SC_LOG2_32 (q1.y ^^^ q2.y) < SC_LOG2_32 (q1.x ^^^ q2.x) :=
        lt_of_not_ge hbr
      have hex0 : q1.x ^^^ q2.x ≠ 0 := by
        intro hc2
        rw [hc2, SC_LOG2_32_zero] at hbr'
        rcases Nat.eq_zero_or_pos (q1.y ^^^ q2.y) with h0 | h0
        · rw [h0, SC_LOG2_32_zero] at hbr'
          omega
        · have := SC_LOG2_32_pos (q1.y ^^^ q2.y) (by omega)
            (Nat.xor_lt_two_pow h1.2.1 h2.2.1)
          rw [this] at hbr'
          omega
      have hxne : q1.x ≠ q2.x := fun hx => hex0 (by rw [hx, Nat.xor_self])
      rw [compareRet_eq_zero_iff, rebias_eq_pkey _ h1.1, rebias_eq_pkey _ h2.1]
      constructor
      · intro h
        exact absurd h (hpk q1.x q2.x hr1.1 h1.1 hr2.1 h2.1 hxne)
      · intro h
        exact absurd h hne

theorem compare_le_iff (q1 q2 : Quadrant)
    (h1 : p4est_quadrant_is_extended q1) (h2 : p4est_quadrant_is_extended q2)
    (hr1 : inExtendedRange q1) (hr2 : inExtendedRange q2) :
    p4est_quadrant_compare q1 q2 ≤ 0 ↔
    (quadKey q1 < quadKey q2 ∨ (quadKey q1 = quadKey q2 ∧ q1.level ≤ q2.level)) := by
  have hlt := compare_lt_iff q1 q2 h1 h2 hr1 hr2
  have heq := compare_eq_iff q1 q2 h1 h2 hr1 hr2
  constructor
  · intro h
    rcases lt_or_eq_of_le h with h' | h'
    · rcases hlt.1 h' with h'' | ⟨hk, hl⟩
      · exact Or.inl h''
      · exact Or.inr ⟨hk, le_of_lt hl⟩
    · have := heq.1 h'
      subst this
      exact Or.inr ⟨rfl, le_refl _⟩
  · rintro (h | ⟨hk, hl⟩)
    · exact le_of_lt (hlt.2 (Or.inl h))
    · rcases lt_or_eq_of_le hl with h' | h'
      · exact le_of_lt (hlt.2 (Or.inr ⟨hk, h'⟩))
      · have hq : q1 = q2 := by
          obtain ⟨hx, hy⟩ := quadKey_inj q1 q2 h1 h2 hr1 hr2 hk
          obtain ⟨a1, b1, c1⟩ := q1
          obtain ⟨a2, b2, c2⟩ := q2
          simp only at hx hy h'
          rw [hx, hy, h']
        rw [heq.2 hq]

theorem compare_swap_pos (q1 q2 : Quadrant)
    (h1 : p4est_quadrant_is_extended q1) (h2 : p4est_quadrant_is_extended q2)
    (hr1 : inExtendedRange q1) (hr2 : inExtendedRange q2) :
    0 < p4est_quadrant_compare q1 q2 ↔ p4est_quadrant_compare q2 q1 < 0 := by
  have hlt12 := compare_lt_iff q1 q2 h1 h2 hr1 hr2
  have hlt21 := compare_lt_iff q2 q1 h2 h1 hr2 hr1
  have heq12 := compare_eq_iff q1 q2 h1 h2 hr1 hr2
  constructor
  · intro h
    have hne : ¬ (p4est_quadrant_compare q1 q2 < 0) := by omega
    have hne0 : ¬ (p4est_quadrant_compare q1 q2 = 0) := by omega
    rw [hlt12] at hne
    rw [heq12] at hne0
    apply hlt21.2
    push_neg at hne
    rcases Nat.lt_trichotomy (quadKey q2) (quadKey q1) with h' | h' | h'
    · exact Or.inl h'
    · refine Or.inr ⟨h', ?_⟩
      have hk : quadKey q1 = quadKey q2 := h'.symm
      have := hne.2 hk
      rcases Nat.lt_trichotomy q2.level q1.level with hl | hl | hl
      · exact hl
      · exfalso
        apply hne0
        obtain ⟨hx, hy⟩ := quadKey_inj q1 q2 h1 h2 hr1 hr2 hk
        obtain ⟨a1, b1, c1⟩ := q1
        obtain ⟨a2, b2, c2⟩ := q2
        simp only at hx hy hl
        rw [hx, hy, hl]
      · omega
    · omega
  · intro h
    rcases hlt21.1 h with h' | ⟨hk, hl⟩
    · have hne : ¬ (p4est_quadrant_compare q1 q2 < 0) := by
        rw [hlt12]
        push_neg
        exact ⟨by omega, fun hk => absurd hk.symm (by omega)⟩
      have hne0 : ¬ (p4est_quadrant_compare q1 q2 = 0) := by
        rw [heq12]
        intro hq
        rw [hq] at h'
        exact lt_irrefl _ h'
      omega
    · have hne : ¬ (p4est_quadrant_compare q1 q2 < 0) := by
        rw [hlt12]
        push_neg
        refine ⟨by omega, fun _ => by omega⟩
      have hne0 : ¬ (p4est_quadrant_compare q1 q2 = 0) := by
        rw [heq12]
        intro hq
        rw [hq] at hl
        exact lt_irrefl _ hl
      omega

theorem compare_lt_trans (a b c : Quadrant)
    (ha : p4est_quadrant_is_extended a) (hb : p4est_quadrant_is_extended b)
    (hc : p4est_quadrant_is_extended c)
    (hra : inExtendedRange a) (hrb : inExtendedRange b) (hrc : inExtendedRange c)
    (h1 : p4est_quadrant_compare a b < 0) (h2 : p4est_quadrant_compare b c < 0) :
    p4est_quadrant_compare a c < 0 := by
  rw [compare_lt_iff a b ha hb hra hrb] at h1
  rw [compare_lt_iff b c hb hc hrb hrc] at h2
  rw [compare_lt_iff a c ha hc hra hrc]
  rcases h1 with h1 | ⟨hk1, hl1⟩ <;> rcases h2 with h2 | ⟨hk2, hl2⟩
  · exact Or.inl (lt_trans h1 h2)
  · exact Or.inl (hk2 ▸ h1)
  · exact Or.inl (hk1 ▸ h2)
  · exact Or.inr ⟨hk1.trans hk2, lt_trans hl1 hl2⟩

theorem compare_lt_of_le_of_lt (a b c : Quadrant)
    (ha : p4est_quadrant_is_extended a) (hb : p4est_quadrant_is_extended b)
    (hc : p4est_quadrant_is_extended c)
    (hra : inExtendedRange a) (hrb : inExtendedRange b) (hrc : inExtendedRange c)
    (h1 : p4est_quadrant_compare a b ≤ 0) (h2 : p4est_quadrant_compare b c < 0) :
    p4est_quadrant_compare a c < 0 := by
  rw [compare_le_iff a b ha hb hra hrb] at h1
  rw [compare_lt_iff b c hb hc hrb hrc] at h2
  rw [compare_lt_iff a c ha hc hra hrc]
  rcases h1 with h1 | ⟨hk1, hl1⟩ <;> rcases h2 with h2 | ⟨hk2, hl2⟩
  · exact Or.inl (lt_trans h1 h2)
  · exact Or.inl (hk2 ▸ h1)
  · exact Or.inl (hk1 ▸ h2)
  · exact Or.inr ⟨hk1.trans hk2, lt_of_le_of_lt hl1 hl2⟩

theorem compare_lt_of_lt_of_le (a b c : Quadrant)
    (ha : p4est_quadrant_is_extended a) (hb : p4est_quadrant_is_extended b)
    (hc : p4est_quadrant_is_extended c)
    (hra : inExtendedRange a) (hrb : inExtendedRange b) (hrc : inExtendedRange c)
    (h1 : p4est_quadrant_compare a b < 0) (h2 : p4est_quadrant_compare b c ≤ 0) :
    p4est_quadrant_compare a c < 0 := by
  rw [compare_lt_iff a b ha hb hra hrb] at h1
  rw [compare_le_iff b c hb hc hrb hrc] at h2
  rw [compare_lt_iff a c ha hc hra hrc]
  rcases h1 with h1 | ⟨hk1, hl1⟩ <;> rcases h2 with h2 | ⟨hk2, hl2⟩
  · exact Or.inl (lt_trans h1 h2)
  · exact Or.inl (hk2 ▸ h1)
  · exact Or.inl (hk1 ▸ h2)
  · exact Or.inr ⟨hk1.trans hk2, lt_of_lt_of_le hl1 hl2⟩

theorem compare_le_trans (a b c : Quadrant)
    (ha : p4est_quadrant_is_extended a) (hb : p4est_quadrant_is_extended b)
    (hc : p4est_quadrant_is_extended c)
    (hra : inExtendedRange a) (hrb : inExtendedRange b) (hrc : inExtendedRange c)
    (h1 : p4est_quadrant_compare a b ≤ 0) (h2 : p4est_quadrant_compare b c ≤ 0) :
    p4est_quadrant_compare a c ≤ 0 := by
  rcases lt_or_eq_of_le h2 with h2' | h2'
  · exact le_of_lt (compare_lt_of_le_of_lt a b c ha hb hc hra hrb hrc h1 h2')
  · have := (compare_eq_iff b c hb hc hrb hrc).1 h2'
    subst this
    exact h1

theorem compare_total (a b : Quadrant)
    (ha : p4est_quadrant_is_extended a) (hb : p4est_quadrant_is_extended b)
    (hra : inExtendedRange a) (hrb : inExtendedRange b) :
    p4est_quadrant_compare a b ≤ 0 ∨ p4est_quadrant_compare b a ≤ 0 := by
  rw [compare_le_iff a b ha hb hra hrb, compare_le_iff b a hb ha hrb hra]
  rcases Nat.lt_trichotomy (quadKey a) (quadKey b) with h | h | h
  · exact Or.inl (Or.inl h)
  · rcases Nat.le_total a.level b.level with hl | hl
    · exact Or.inl (Or.inr ⟨h, hl⟩)
    · exact Or.inr (Or.inr ⟨h.symm, hl⟩)
  · exact Or.inr (Or.inl h)

theorem lt_two_pow_iff_high_bits (n a : Nat) :
    n < 2 ^ a ↔ ∀ j, a ≤ j → n.testBit j = false := by
  constructor
  · intro h j hj
    exact Nat.testBit_lt_two_pow (lt_of_lt_of_le h (Nat.pow_le_pow_right (by norm_num) hj))
  · intro h
    by_contra hge
    push_neg at hge
    have hne : n ≠ 0 := by
      intro h0
      rw [h0] at hge
      have := Nat.two_pow_pos a
      omega
    have hla : a ≤ n.log2 := (Nat.le_log2 hne).2 hge
    have := h n.log2 hla
    rw [testBit_log2_self n hne] at this
    exact Bool.true_eq_false.mp this

theorem testBit_ge32_false (u j : Nat) (hu : u < 2 ^ 32) (hj : 32 ≤ j) :
    u.testBit j = false :=
  (lt_two_pow_iff_high_bits u 32).1 hu j hj

theorem mask32not_testBit (m j : Nat) (hm : m < 2 ^ 32) :
    (mask32not m).testBit j = (decide (j < 32) && !(m.testBit j)) := by
  rw [mask32not, Nat.testBit_xor, Nat.testBit_two_pow_sub_one]
  by_cases hj : j < 32
  · simp [hj]
  · rw [testBit_ge32_false m j hm (by omega)]
    simp [hj]

theorem clearLow_testBit (u a j : Nat) (hu : u < 2 ^ 32) (ha : a ≤ 32) :
    (u &&& mask32not (2 ^ a - 1)).testBit j = (u.testBit j && decide (a ≤ j)) := by
  have hma : (2 : Nat) ^ a - 1 < 2 ^ 32 := by
    have : (2 : Nat) ^ a ≤ 2 ^ 32 := Nat.pow_le_pow_right (by norm_num) ha
    omega
  rw [Nat.testBit_and, mask32not_testBit _ _ hma, Nat.testBit_two_pow_sub_one]
  by_cases hj : j < 32
  · by_cases hja : a ≤ j
    · simp [hj, hja, Nat.not_lt_of_le hja]
    · simp [hj, hja, Nat.lt_of_not_le hja]
  · rw [testBit_ge32_false u j hu (by omega)]
    simp

theorem testBit_false_of_aligned (u a j : Nat) (hal : u &&& (2 ^ a - 1) = 0)
    (hj : j < a) : u.testBit j = false := by
  rw [land_two_pow_sub_one] at hal
  have := congrArg (fun n => n.testBit j) hal
  simp only [Nat.testBit_mod_two_pow, hj, decide_True, Bool.true_and, Nat.zero_testBit] at this
  exact this

theorem aligned_of_testBit_false (u a : Nat)
    (h : ∀ j, j < a → u.testBit j = false) : u &&& (2 ^ a - 1) = 0 := by
  apply Nat.eq_of_testBit_eq
  intro j
  rw [Nat.testBit_and, Nat.testBit_two_pow_sub_one, Nat.zero_testBit]
  by_cases hj : j < a
  · rw [h j hj]
    simp
  · simp [hj]

theorem clearLow_eq_self (u a : Nat) (hu : u < 2 ^ 32) (ha : a ≤ 32)
    (hal : u &&& (2 ^ a - 1) = 0) : u &&& mask32not (2 ^ a - 1) = u := by
  apply Nat.eq_of_testBit_eq
  intro j
  rw [clearLow_testBit u a j hu ha]
  by_cases hja : a ≤ j
  · simp [hja]
  · rw [testBit_false_of_aligned u a j hal (by omega)]
    simp

theorem clearLow_parent_step (u a : Nat) (hu : u < 2 ^ 32) (ha : a + 1 ≤ 32) :
    (u &&& mask32not (2 ^ a - 1)) &&& mask32not (2 ^ a) =
    u &&& mask32not (2 ^ (a + 1) - 1) := by
  have hua : u &&& mask32not (2 ^ a - 1) < 2 ^ 32 :=
    lt_of_le_of_lt Nat.and_le_left hu
  have hpa : (2 : Nat) ^ a < 2 ^ 32 := by
    have : (2 : Nat) ^ (a + 1) ≤ 2 ^ 32 := Nat.pow_le_pow_right (by norm_num) ha
    have : (2 : Nat) ^ a < 2 ^ (a + 1) := by
      have := Nat.pow_lt_pow_right (a := 2) (by norm_num) (Nat.lt_succ_self a)
      exact this
    omega
  apply Nat.eq_of_testBit_eq
  intro j
  rw [Nat.testBit_and, mask32not_testBit _ _ hpa, Nat.testBit_two_pow,
    clearLow_testBit u a j hu (by omega), clearLow_testBit u (a + 1) j hu ha]
  by_cases hj : j < 32
  · by_cases hja : j = a
    · simp [hja]
    · by_cases hja1 : a + 1 ≤ j
      · have h1 : a ≤ j := by omega
        have h2 : ¬ (a = j) := by omega
        simp [hj, hja1, h1, h2]
      · have h1 : ¬ a ≤ j := by omega
        simp [hj, hja1, h1]
  · rw [testBit_ge32_false u j hu (by omega)]
    simp

theorem clearLow_eq_iff (u v a : Nat) (hu : u < 2 ^ 32) (hv : v < 2 ^ 32)
    (ha : a ≤ 32) :
    (u &&& mask32not (2 ^ a - 1) = v &&& mask32not (2 ^ a - 1)) ↔
    u ^^^ v < 2 ^ a := by
  constructor
  · intro h
    rw [lt_two_pow_iff_high_bits]
    intro j hj
    have := congrArg (fun n => n.testBit j) h
    simp only [clearLow_testBit u a j hu ha, clearLow_testBit v a j hv ha, hj,
      decide_True, Bool.and_true] at this
    rw [Nat.testBit_xor, this]
    exact Bool.xor_self _
  · intro h
    apply Nat.eq_of_testBit_eq
    intro j
    rw [clearLow_testBit u a j hu ha, clearLow_testBit v a j hv ha]
    by_cases hja : a ≤ j
    · have hx : (u ^^^ v).testBit j = false :=
        (lt_two_pow_iff_high_bits _ a).1 h j hja
      rw [Nat.testBit_xor] at hx
      have : u.testBit j = v.testBit j := by
        cases hcu : u.testBit j <;> cases hcv : v.testBit j <;>
          simp [hcu, hcv] at hx ⊢
      rw [this]
    · simp [hja]

theorem clearLow_xor_self (u a : Nat) (hu : u < 2 ^ 32) (ha : a ≤ 32) :
    (u &&& mask32not (2 ^ a - 1)) ^^^ u = u % 2 ^ a := by
  apply Nat.eq_of_testBit_eq
  intro j
  rw [Nat.testBit_xor, clearLow_testBit u a j hu ha, Nat.testBit_mod_two_pow]
  by_cases hja : a ≤ j
  · have h2 : ¬ j < a := by omega
    simp [hja, h2]
  · have h2 : j < a := by omega
    simp [hja, h2]

theorem parent_spec (q : Quadrant) (h : p4est_quadrant_is_extended q)
    (hl : q.level ≠ 0) :
    p4est_quadrant_parent q =
      ⟨q.x &&& mask32not (2 ^ (P4EST_MAXLEVEL - (q.level - 1)) - 1),
       q.y &&& mask32not (2 ^ (P4EST_MAXLEVEL - (q.level - 1)) - 1),
       q.level - 1⟩ ∧
    p4est_quadrant_is_extended (p4est_quadrant_parent q) := by
  obtain ⟨hx32, hy32, hlev, hax, hay⟩ := h
  have hM : P4EST_MAXLEVEL = 29 := rfl
  have ha1 : P4EST_MAXLEVEL - q.level + 1 = P4EST_MAXLEVEL - (q.level - 1) := by
    rw [hM] at hlev ⊢
    omega
  have hstep : ∀ u : Nat, u < 2 ^ 32 → u &&& (P4EST_QUADRANT_LEN q.level - 1) = 0 →
      u &&& mask32not (P4EST_QUADRANT_LEN q.level) =
      u &&& mask32not (2 ^ (P4EST_MAXLEVEL - (q.level - 1)) - 1) := by
    intro u hu hau
    calc u &&& mask32not (P4EST_QUADRANT_LEN q.level)
        = (u &&& mask32not (2 ^ (P4EST_MAXLEVEL - q.level) - 1)) &&&
            mask32not (2 ^ (P4EST_MAXLEVEL - q.level)) := by
          rw [clearLow_eq_self u (P4EST_MAXLEVEL - q.level) hu (by rw [hM]; omega) hau]
          rfl
      _ = u &&& mask32not (2 ^ (P4EST_MAXLEVEL - q.level + 1) - 1) :=
          clearLow_parent_step u (P4EST_MAXLEVEL - q.level) hu (by rw [hM]; omega)
      _ = u &&& mask32not (2 ^ (P4EST_MAXLEVEL - (q.level - 1)) - 1) := by rw [ha1]
  have hform : p4est_quadrant_parent q =
      ⟨q.x &&& mask32not (2 ^ (P4EST_MAXLEVEL - (q.level - 1)) - 1),
       q.y &&& mask32not (2 ^ (P4EST_MAXLEVEL - (q.level - 1)) - 1),
       q.level - 1⟩ := by
    rw [p4est_quadrant_parent, hstep q.x hx32 hax, hstep q.y hy32 hay]
  refine ⟨hform, ?_⟩
  rw [hform]
  have hb : P4EST_MAXLEVEL - (q.level - 1) ≤ 32 := by rw [hM]; omega
  refine ⟨lt_of_le_of_lt Nat.and_le_left hx32, lt_of_le_of_lt Nat.and_le_left hy32,
    by show q.level - 1 ≤ P4EST_MAXLEVEL; rw [hM] at hlev ⊢; omega, ?_, ?_⟩
  · apply aligned_of_testBit_false
    intro j hj
    rw [clearLow_testBit q.x _ j hx32 hb]
    simp [Nat.not_le_of_lt hj]
  · apply aligned_of_testBit_false
    intro j hj
    rw [clearLow_testBit q.y _ j hy32 hb]
    simp [Nat.not_le_of_lt hj]

theorem parentIter_spec (k : Nat) :
    ∀ q : Quadrant, p4est_quadrant_is_extended q → k ≤ q.level →
    parentIter q k =
      ⟨q.x &&& mask32not (2 ^ (P4EST_MAXLEVEL - (q.level - k)) - 1),
       q.y &&& mask32not (2 ^ (P4EST_MAXLEVEL - (q.level - k)) - 1),
       q.level - k⟩ ∧
    p4est_quadrant_is_extended (parentIter q k) := by
  induction k with
  | zero =>
    intro q h _
    obtain ⟨hx32, hy32, hlev, hax, hay⟩ := h
    have hM : P4EST_MAXLEVEL = 29 := rfl
    have hform : parentIter q 0 = q := rfl
    rw [hform]
    constructor
    · have hx := clearLow_eq_self q.x (P4EST_MAXLEVEL - q.level) hx32 (by rw [hM]; omega) hax
      have hy := clearLow_eq_self q.y (P4EST_MAXLEVEL - q.level) hy32 (by rw [hM]; omega) hay
      simp only [Nat.sub_zero]
      rw [hx, hy]
    · exact ⟨hx32, hy32, hlev, hax, hay⟩
  | succ k ih =>
    intro q h hk
    have hl0 : q.level ≠ 0 := by omega
    obtain ⟨hpform, hpext⟩ := parent_spec q h hl0
    have hiter : parentIter q (k + 1) = parentIter (p4est_quadrant_parent q) k := rfl
    have hkle : k ≤ (p4est_quadrant_parent q).level := by
      rw [hpform]
      show k ≤ q.level - 1
      omega
    obtain ⟨hform, hext⟩ := ih (p4est_quadrant_parent q) hpext hkle
    rw [hiter]
    refine ⟨?_, hext⟩
    rw [hform, hpform]
    obtain ⟨hx32, hy32, hlev, hax, hay⟩ := h
    have hM : P4EST_MAXLEVEL = 29 := rfl
    have hle : P4EST_MAXLEVEL - (q.level - 1) ≤ P4EST_MAXLEVEL - (q.level - 1 - k) := by
      rw [hM]
      omega
    have hcomp : ∀ u : Nat, u < 2 ^ 32 →
        (u &&& mask32not (2 ^ (P4EST_MAXLEVEL - (q.level - 1)) - 1)) &&&
          mask32not (2 ^ (P4EST_MAXLEVEL - (q.level - 1 - k)) - 1) =
        u &&& mask32not (2 ^ (P4EST_MAXLEVEL - (q.level - (k + 1))) - 1) := by
      intro u hu
      have hu2 : u &&& mask32not (2 ^ (P4EST_MAXLEVEL - (q.level - 1)) - 1) < 2 ^ 32 :=
        lt_of_le_of_lt Nat.and_le_left hu
      have hexp : q.level - 1 - k = q.level - (k + 1) := by omega
      apply Nat.eq_of_testBit_eq
      intro j
      rw [clearLow_testBit _ _ j hu2 (by rw [hM]; omega),
        clearLow_testBit u _ j hu (by rw [hM]; omega),
        clearLow_testBit u _ j hu (by rw [hM]; omega), hexp]
      by_cases hja : P4EST_MAXLEVEL - (q.level - (k + 1)) ≤ j
      · have hjb : P4EST_MAXLEVEL - (q.level - 1) ≤ j := by
          rw [hM] at hja ⊢
          omega
        simp [hja, hjb]
      · simp [hja]
    show Quadrant.mk _ _ _ = _
    rw [hcomp q.x hx32, hcomp q.y hy32]
    have : q.level - 1 - k = q.level - (k + 1) := by omega
    rw [this]

theorem ml_facts (mc : Nat) (h29 : mc < 2 ^ 29) :
    ((SC_LOG2_32 mc + 1).toNat ≤ 29) ∧ mc < 2 ^ (SC_LOG2_32 mc + 1).toNat ∧
    (∀ b : Nat, 2 ^ b ≤ mc → b < (SC_LOG2_32 mc + 1).toNat) ∧
    (∀ c : Nat, mc < 2 ^ c → (SC_LOG2_32 mc + 1).toNat ≤ c) := by
  by_cases h0 : mc = 0
  · subst h0
    refine ⟨by rw [SC_LOG2_32_zero]; norm_num, by rw [SC_LOG2_32_zero]; norm_num, ?_, ?_⟩
    · intro b hb
      have := Nat.two_pow_pos b
      omega
    · intro c _
      rw [SC_LOG2_32_zero]
      exact Nat.zero_le c
  · have h32 : mc < 2 ^ 32 := lt_trans h29 (by norm_num)
    rw [SC_LOG2_32_pos mc h0 h32]
    have htn : ((mc.log2 : Int) + 1).toNat = mc.log2 + 1 := rfl
    rw [htn]
    refine ⟨?_, Nat.lt_log2_self, ?_, ?_⟩
    · have := (Nat.log2_lt h0).2 h29
      omega
    · intro b hb
      have := (Nat.le_log2 h0).2 hb
      omega
    · intro c hc
      have := (Nat.log2_lt h0).2 hc
      omega

theorem or_components_lt (x y n : Nat) (h : x ||| y < 2 ^ n) :
    x < 2 ^ n ∧ y < 2 ^ n := by
  rw [lt_two_pow_iff_high_bits] at h
  constructor <;> rw [lt_two_pow_iff_high_bits] <;> intro j hj <;>
    have hb := h j hj <;> rw [Nat.testBit_or] at hb
  · exact (Bool.or_eq_false_iff.mp hb).1
  · exact (Bool.or_eq_false_iff.mp hb).2


theorem ncaClimb_spec (j : Nat) :
    ∀ x1 y1 x2 y2 t : Nat, x1 < 2 ^ 32 → y1 < 2 ^ 32 → x2 < 2 ^ 32 → y2 < 2 ^ 32 →
    ((x1 ^^^ x2) ||| (y1 ^^^ y2)) < 2 ^ 29 → j ≤ 29 →
    t = min j (29 - (SC_LOG2_32 ((x1 ^^^ x2) ||| (y1 ^^^ y2)) + 1).toNat) →
    ncaClimb j ⟨x1 &&& mask32not (2 ^ (29 - j) - 1), y1 &&& mask32not (2 ^ (29 - j) - 1), j⟩
               ⟨x2 &&& mask32not (2 ^ (29 - j) - 1), y2 &&& mask32not (2 ^ (29 - j) - 1), j⟩
    = some ⟨x1 &&& mask32not (2 ^ (29 - t) - 1), y1 &&& mask32not (2 ^ (29 - t) - 1), t⟩ := by
  induction j with
  | zero =>
    intro x1 y1 x2 y2 t hx1 hy1 hx2 hy2 hmc hj ht
    have ht0 : t = 0 := by
      rw [ht]
      exact Nat.zero_min _
    subst ht0
    obtain ⟨hxlt, hylt⟩ := or_components_lt _ _ _ hmc
    have hx : x1 &&& mask32not (2 ^ (29 - 0) - 1) = x2 &&& mask32not (2 ^ (29 - 0) - 1) :=
      (clearLow_eq_iff x1 x2 (29 - 0) hx1 hx2 (by norm_num)).2 hxlt
    have hy : y1 &&& mask32not (2 ^ (29 - 0) - 1) = y2 &&& mask32not (2 ^ (29 - 0) - 1) :=
      (clearLow_eq_iff y1 y2 (29 - 0) hy1 hy2 (by norm_num)).2 hylt
    have hEq : (⟨x1 &&& mask32not (2 ^ (29 - 0) - 1), y1 &&& mask32not (2 ^ (29 - 0) - 1), 0⟩ : Quadrant) =
        ⟨x2 &&& mask32not (2 ^ (29 - 0) - 1), y2 &&& mask32not (2 ^ (29 - 0) - 1), 0⟩ := by
      rw [hx, hy]
    simp only [ncaClimb]
    rw [if_pos hEq]
  | succ j ih =>
    intro x1 y1 x2 y2 t hx1 hy1 hx2 hy2 hmc hj ht
    obtain ⟨hml29, hmlt, hmlmin, hmlmax⟩ := ml_facts _ hmc
    by_cases hsm : ((x1 ^^^ x2) ||| (y1 ^^^ y2)) < 2 ^ (29 - (j + 1))
    · obtain ⟨hxlt, hylt⟩ := or_components_lt _ _ _ hsm
      have hx : x1 &&& mask32not (2 ^ (29 - (j + 1)) - 1) =
          x2 &&& mask32not (2 ^ (29 - (j + 1)) - 1) :=
        (clearLow_eq_iff x1 x2 (29 - (j + 1)) hx1 hx2 (by omega)).2 hxlt
      have hy : y1 &&& mask32not (2 ^ (29 - (j + 1)) - 1) =
          y2 &&& mask32not (2 ^ (29 - (j + 1)) - 1) :=
        (clearLow_eq_iff y1 y2 (29 - (j + 1)) hy1 hy2 (by omega)).2 hylt
      have hEq : (⟨x1 &&& mask32not (2 ^ (29 - (j + 1)) - 1),
          y1 &&& mask32not (2 ^ (29 - (j + 1)) - 1), j + 1⟩ : Quadrant) =
          ⟨x2 &&& mask32not (2 ^ (29 - (j + 1)) - 1),
           y2 &&& mask32not (2 ^ (29 - (j + 1)) - 1), j + 1⟩ := by
        rw [hx, hy]
      have hmlle := hmlmax _ hsm
      have htj : t = j + 1 := by omega
      subst htj
      simp only [ncaClimb]
      rw [if_pos hEq]
    · have hge : 2 ^ (29 - (j + 1)) ≤ (x1 ^^^ x2) ||| (y1 ^^^ y2) := Nat.le_of_not_lt hsm
      have hmc0 : ((x1 ^^^ x2) ||| (y1 ^^^ y2)) ≠ 0 := by
        have := Nat.two_pow_pos (29 - (j + 1))
        omega
      have hmlgt : 29 - (j + 1) < (SC_LOG2_32 ((x1 ^^^ x2) ||| (y1 ^^^ y2)) + 1).toNat :=
        hmlmin _ hge
      have hbge : 29 - (j + 1) ≤ ((x1 ^^^ x2) ||| (y1 ^^^ y2)).log2 :=
        (Nat.le_log2 hmc0).2 hge
      have hbit : ((x1 ^^^ x2) ||| (y1 ^^^ y2)).testBit
          (((x1 ^^^ x2) ||| (y1 ^^^ y2)).log2) = true := testBit_log2_self _ hmc0
      rw [Nat.testBit_or] at hbit
      have hne : (⟨x1 &&& mask32not (2 ^ (29 - (j + 1)) - 1),
          y1 &&& mask32not (2 ^ (29 - (j + 1)) - 1), j + 1⟩ : Quadrant) ≠
          ⟨x2 &&& mask32not (2 ^ (29 - (j + 1)) - 1),
           y2 &&& mask32not (2 ^ (29 - (j + 1)) - 1), j + 1⟩ := by
        rcases Bool.or_eq_true_iff.mp hbit with hxb | hyb
        · intro hq
          have hcomp := congrArg Quadrant.x hq
          simp only at hcomp
          have hxor := (clearLow_eq_iff x1 x2 (29 - (j + 1)) hx1 hx2 (by omega)).1 hcomp
          have := (lt_two_pow_iff_high_bits _ _).1 hxor _ hbge
          rw [this] at hxb
          exact Bool.false_ne_true hxb
        · intro hq
          have hcomp := congrArg Quadrant.y hq
          simp only at hcomp
          have hxor := (clearLow_eq_iff y1 y2 (29 - (j + 1)) hy1 hy2 (by omega)).1 hcomp
          have := (lt_two_pow_iff_high_bits _ _).1 hxor _ hbge
          rw [this] at hyb
          exact Bool.false_ne_true hyb
      simp only [ncaClimb]
      rw [if_neg hne, if_neg (show ¬ ((⟨x1 &&& mask32not (2 ^ (29 - (j + 1)) - 1),
        y1 &&& mask32not (2 ^ (29 - (j + 1)) - 1), j + 1⟩ : Quadrant).level = 0) from
        Nat.succ_ne_zero j)]
      have hplen : P4EST_QUADRANT_LEN (j + 1) = 2 ^ (29 - (j + 1)) := rfl
      have he : 29 - (j + 1) + 1 = 29 - j := by omega
      have hparx : ∀ u v : Nat, u < 2 ^ 32 → v < 2 ^ 32 →
          p4est_quadrant_parent ⟨u &&& mask32not (2 ^ (29 - (j + 1)) - 1),
            v &&& mask32not (2 ^ (29 - (j + 1)) - 1), j + 1⟩ =
          ⟨u &&& mask32not (2 ^ (29 - j) - 1), v &&& mask32not (2 ^ (29 - j) - 1), j⟩ := by
        intro u v hu hv
        simp only [p4est_quadrant_parent, hplen]
        rw [clearLow_parent_step u (29 - (j + 1)) hu (by omega),
          clearLow_parent_step v (29 - (j + 1)) hv (by omega), he]
        rfl
      rw [hparx x1 y1 hx1 hy1, hparx x2 y2 hx2 hy2]
      have h1 : 29 - (SC_LOG2_32 ((x1 ^^^ x2) ||| (y1 ^^^ y2)) + 1).toNat ≤ j := by omega
      have ht2 : t = min j (29 - (SC_LOG2_32 ((x1 ^^^ x2) ||| (y1 ^^^ y2)) + 1).toNat) := by
        rw [ht, Nat.min_eq_right (by omega), Nat.min_eq_right h1]
      exact ih x1 y1 x2 y2 t hx1 hy1 hx2 hy2 hmc (by omega) ht2

theorem asr32_eq_zero (u s : Nat) (h31 : u < 2 ^ 31) (h : u < 2 ^ s) :
    asr32 u s = 0 := by
  rw [asr32, if_pos h31, Nat.shiftRight_eq_div_pow]
  exact Nat.div_eq_of_lt h

theorem clearLow_congr (u a b : Nat) (hu : u < 2 ^ 32) (ha : a ≤ 32) (hb : b ≤ 32)
    (hab : a ≤ b) (hz : ∀ j, a ≤ j → j < b → u.testBit j = false) :
    u &&& mask32not (2 ^ a - 1) = u &&& mask32not (2 ^ b - 1) := by
  apply Nat.eq_of_testBit_eq
  intro j
  rw [clearLow_testBit u a j hu ha, clearLow_testBit u b j hu hb]
  by_cases hja : a ≤ j
  · by_cases hjb : b ≤ j
    · simp [hja, hjb]
    · rw [hz j hja (by omega)]
      simp
  · simp [hja, show ¬ b ≤ j by omega]

theorem nca_canonical (q1 q2 : Quadrant) (h1 : p4est_quadrant_is_extended q1)
    (h2 : p4est_quadrant_is_extended q2)
    (hsame : (q1.x ^^^ q2.x) ||| (q1.y ^^^ q2.y) < 2 ^ 29) :
    p4est_nearest_common_ancestor q1 q2 =
      ⟨q1.x &&& mask32not (2 ^ (29 - min (min q1.level q2.level)
          (29 - (SC_LOG2_32 ((q1.x ^^^ q2.x) ||| (q1.y ^^^ q2.y)) + 1).toNat)) - 1),
       q1.y &&& mask32not (2 ^ (29 - min (min q1.level q2.level)
          (29 - (SC_LOG2_32 ((q1.x ^^^ q2.x) ||| (q1.y ^^^ q2.y)) + 1).toNat)) - 1),
       min (min q1.level q2.level)
          (29 - (SC_LOG2_32 ((q1.x ^^^ q2.x) ||| (q1.y ^^^ q2.y)) + 1).toNat)⟩ := by
  obtain ⟨hx1, hy1, hl1, hax1, hay1⟩ := h1
  obtain ⟨hx2, hy2, hl2, hax2, hay2⟩ := h2
  obtain ⟨hml29, hmlt, hmlmin, hmlmax⟩ := ml_facts _ hsame
  have hM : P4EST_MAXLEVEL = 29 := rfl
  have hl1b : q1.level ≤ 29 := by rw [hM] at hl1; exact hl1
  have hl2b : q2.level ≤ 29 := by rw [hM] at hl2; exact hl2
  have hshift : (1 : Nat) <<< (SC_LOG2_32 ((q1.x ^^^ q2.x) ||| (q1.y ^^^ q2.y)) + 1).toNat =
      2 ^ (SC_LOG2_32 ((q1.x ^^^ q2.x) ||| (q1.y ^^^ q2.y)) + 1).toNat :=
    one_shiftLeft_eq _
  have hcoord : ∀ u v : Nat, u < 2 ^ 32 → v < 2 ^ 32 →
      u &&& (P4EST_QUADRANT_LEN q1.level - 1) = 0 →
      v &&& (P4EST_QUADRANT_LEN q2.level - 1) = 0 →
      u ^^^ v < 2 ^ (SC_LOG2_32 ((q1.x ^^^ q2.x) ||| (q1.y ^^^ q2.y)) + 1).toNat →
      u &&& mask32not (2 ^ (SC_LOG2_32 ((q1.x ^^^ q2.x) ||| (q1.y ^^^ q2.y)) + 1).toNat - 1) =
      u &&& mask32not (2 ^ (29 - min (min q1.level q2.level)
          (29 - (SC_LOG2_32 ((q1.x ^^^ q2.x) ||| (q1.y ^^^ q2.y)) + 1).toNat)) - 1) := by
    intro u v hu hv hau hav hxor
    apply clearLow_congr u _ _ hu (by omega) (by omega) (by omega)
    intro j hjml hjlt
    by_cases hc : 29 - (SC_LOG2_32 ((q1.x ^^^ q2.x) ||| (q1.y ^^^ q2.y)) + 1).toNat ≤
        min q1.level q2.level
    · rw [Nat.min_eq_right hc] at hjlt
      exact absurd hjlt (by omega)
    · rw [Nat.min_eq_left (by omega)] at hjlt
      by_cases hj1 : j < 29 - q1.level
      · exact testBit_false_of_aligned u (29 - q1.level) j
          hau hj1
      · have hj2 : j < 29 - q2.level := by omega
        have hvb : v.testBit j = false := testBit_false_of_aligned v (29 - q2.level) j
          hav hj2
        have hxb : (u ^^^ v).testBit j = false :=
          (lt_two_pow_iff_high_bits _ _).1 hxor j hjml
        rw [Nat.testBit_xor, hvb, Bool.xor_false] at hxb
        exact hxb
  obtain ⟨hxc, hyc⟩ := or_components_lt _ _ _ hmlt
  show Quadrant.mk _ _ _ = _
  rw [Quadrant.mk.injEq]
  refine ⟨?_, ?_, Nat.min_comm _ _⟩
  · rw [hshift]
    exact hcoord q1.x q2.x hx1 hx2 hax1 hax2 hxc
  · rw [hshift]
    exact hcoord q1.y q2.y hy1 hy2 hay1 hay2 hyc

theorem ncaD_eq (q1 q2 : Quadrant) (h1 : p4est_quadrant_is_extended q1)
    (h2 : p4est_quadrant_is_extended q2)
    (hsame : (q1.x ^^^ q2.x) ||| (q1.y ^^^ q2.y) < 2 ^ 29) :
    p4est_nearest_common_ancestor_D q1 q2 =
      some ⟨q1.x &&& mask32not (2 ^ (29 - min (min q1.level q2.level)
          (29 - (SC_LOG2_32 ((q1.x ^^^ q2.x) ||| (q1.y ^^^ q2.y)) + 1).toNat)) - 1),
       q1.y &&& mask32not (2 ^ (29 - min (min q1.level q2.level)
          (29 - (SC_LOG2_32 ((q1.x ^^^ q2.x) ||| (q1.y ^^^ q2.y)) + 1).toNat)) - 1),
       min (min q1.level q2.level)
          (29 - (SC_LOG2_32 ((q1.x ^^^ q2.x) ||| (q1.y ^^^ q2.y)) + 1).toNat)⟩ := by
  have hM : P4EST_MAXLEVEL = 29 := rfl
  have hl1b : q1.level ≤ 29 := by
    have := h1.2.2.1
    rw [hM] at this
    exact this
  have hl2b : q2.level ≤ 29 := by
    have := h2.2.2.1
    rw [hM] at this
    exact this
  have hs1 : (if q2.level ≤ q1.level then parentIter q1 (q1.level - q2.level) else q1) =
      parentIter q1 (q1.level - min q1.level q2.level) := by
    by_cases h : q2.level ≤ q1.level
    · rw [if_pos h, Nat.min_eq_right h]
    · rw [if_neg h, Nat.min_eq_left (by omega), Nat.sub_self]
      rfl
  have hs2 : (if q1.level ≤ q2.level then parentIter q2 (q2.level - q1.level) else q2) =
      parentIter q2 (q2.level - min q1.level q2.level) := by
    by_cases h : q1.level ≤ q2.level
    · rw [if_pos h, Nat.min_eq_left h]
    · rw [if_neg h, Nat.min_eq_right (by omega), Nat.sub_self]
      rfl
  obtain ⟨hp1form, _⟩ := parentIter_spec (q1.level - min q1.level q2.level) q1 h1 (by omega)
  obtain ⟨hp2form, _⟩ := parentIter_spec (q2.level - min q1.level q2.level) q2 h2 (by omega)
  have hm1 : q1.level - (q1.level - min q1.level q2.level) = min q1.level q2.level := by omega
  have hm2 : q2.level - (q2.level - min q1.level q2.level) = min q1.level q2.level := by omega
  rw [hm1] at hp1form
  rw [hm2] at hp2form
  show ncaClimb _ _ _ = _
  rw [hs1, hs2, hp1form, hp2form]
  exact ncaClimb_spec (min q1.level q2.level) q1.x q1.y q2.x q2.y _
    h1.1 h1.2.1 h2.1 h2.2.1 hsame (by omega) rfl

theorem nca_symm (q1 q2 : Quadrant) (h1 : p4est_quadrant_is_extended q1)
    (h2 : p4est_quadrant_is_extended q2)
    (hsame : (q1.x ^^^ q2.x) ||| (q1.y ^^^ q2.y) < 2 ^ 29) :
    p4est_nearest_common_ancestor q1 q2 = p4est_nearest_common_ancestor q2 q1 := by
  have hcomm : (q2.x ^^^ q1.x) ||| (q2.y ^^^ q1.y) = (q1.x ^^^ q2.x) ||| (q1.y ^^^ q2.y) := by
    rw [Nat.xor_comm q2.x, Nat.xor_comm q2.y]
  have hsame2 : (q2.x ^^^ q1.x) ||| (q2.y ^^^ q1.y) < 2 ^ 29 := by
    rw [hcomm]
    exact hsame
  obtain ⟨hml29, hmlt, _, _⟩ := ml_facts _ hsame
  obtain ⟨hxc, hyc⟩ := or_components_lt _ _ _ hmlt
  rw [nca_canonical q1 q2 h1 h2 hsame, nca_canonical q2 q1 h2 h1 hsame2]
  rw [hcomm, Nat.min_comm q2.level q1.level, Quadrant.mk.injEq]
  have hxc2 : q1.x ^^^ q2.x <
      2 ^ (29 - min (min q1.level q2.level)
        (29 - (SC_LOG2_32 ((q1.x ^^^ q2.x) ||| (q1.y ^^^ q2.y)) + 1).toNat)) := by
    apply lt_of_lt_of_le hxc
    apply Nat.pow_le_pow_right (by norm_num)
    omega
  have hyc2 : q1.y ^^^ q2.y <
      2 ^ (29 - min (min q1.level q2.level)
        (29 - (SC_LOG2_32 ((q1.x ^^^ q2.x) ||| (q1.y ^^^ q2.y)) + 1).toNat)) := by
    apply lt_of_lt_of_le hyc
    apply Nat.pow_le_pow_right (by norm_num)
    omega
  exact ⟨(clearLow_eq_iff q1.x q2.x _ h1.1 h2.1 (by omega)).2 hxc2,
    (clearLow_eq_iff q1.y q2.y _ h1.2.1 h2.2.1 (by omega)).2 hyc2, rfl⟩

theorem nca_ancestor (q1 q2 : Quadrant) (h1 : p4est_quadrant_is_extended q1)
    (h2 : p4est_quadrant_is_extended q2)
    (hsame : (q1.x ^^^ q2.x) ||| (q1.y ^^^ q2.y) < 2 ^ 29) :
    p4est_nearest_common_ancestor q1 q2 = q1 ∨
    p4est_quadrant_is_ancestor (p4est_nearest_common_ancestor q1 q2) q1 := by
  obtain ⟨hml29, hmlt, _, _⟩ := ml_facts _ hsame
  have hM : P4EST_MAXLEVEL = 29 := rfl
  have hl1b : q1.level ≤ 29 := by
    have := h1.2.2.1
    rw [hM] at this
    exact this
  rw [nca_canonical q1 q2 h1 h2 hsame]
  by_cases hteq : min (min q1.level q2.level)
      (29 - (SC_LOG2_32 ((q1.x ^^^ q2.x) ||| (q1.y ^^^ q2.y)) + 1).toNat) = q1.level
  · left
    rw [Quadrant.mk.injEq, hteq]
    exact ⟨clearLow_eq_self q1.x (29 - q1.level) h1.1 (by omega) h1.2.2.2.1,
      clearLow_eq_self q1.y (29 - q1.level) h1.2.1 (by omega) h1.2.2.2.2, rfl⟩
  · right
    have htlt : min (min q1.level q2.level)
        (29 - (SC_LOG2_32 ((q1.x ^^^ q2.x) ||| (q1.y ^^^ q2.y)) + 1).toNat) < q1.level := by
      have : min (min q1.level q2.level)
          (29 - (SC_LOG2_32 ((q1.x ^^^ q2.x) ||| (q1.y ^^^ q2.y)) + 1).toNat) ≤ q1.level :=
        le_trans (Nat.min_le_left _ _) (Nat.min_le_left _ _)
      omega
    refine ⟨htlt, ?_, ?_⟩
    · show asr32 (q1.x &&& mask32not (2 ^ (29 - min (min q1.level q2.level)
          (29 - (SC_LOG2_32 ((q1.x ^^^ q2.x) ||| (q1.y ^^^ q2.y)) + 1).toNat)) - 1) ^^^ q1.x) _ = 0
      rw [clearLow_xor_self q1.x _ h1.1 (by omega)]
      apply asr32_eq_zero
      · exact lt_of_lt_of_le (Nat.mod_lt _ (Nat.two_pow_pos _))
          (Nat.pow_le_pow_right (by norm_num) (by omega))
      · exact Nat.mod_lt _ (Nat.two_pow_pos _)
    · show asr32 (q1.y &&& mask32not (2 ^ (29 - min (min q1.level q2.level)
          (29 - (SC_LOG2_32 ((q1.x ^^^ q2.x) ||| (q1.y ^^^ q2.y)) + 1).toNat)) - 1) ^^^ q1.y) _ = 0
      rw [clearLow_xor_self q1.y _ h1.2.1 (by omega)]
      apply asr32_eq_zero
      · exact lt_of_lt_of_le (Nat.mod_lt _ (Nat.two_pow_pos _))
          (Nat.pow_le_pow_right (by norm_num) (by omega))
      · exact Nat.mod_lt _ (Nat.two_pow_pos _)

/-- **C7.** For every pair of extended quadrants that lie in the same tree
(their coordinates agree in the high bits above the root length, which is
exactly the condition under which the parent-climbing loop of
`p4est_nearest_common_ancestor_D` terminates), the iterative version returns
the same quadrant as the closed-form `p4est_nearest_common_ancestor`; the
result is symmetric in the arguments and is an ancestor of, or equal to,
each input. -/
theorem C7_theorem (q1 q2 : Quadrant) (h1 : p4est_quadrant_is_extended q1)
    (h2 : p4est_quadrant_is_extended q2)
    (hsame : (q1.x ^^^ q2.x) ||| (q1.y ^^^ q2.y) < P4EST_ROOT_LEN) :
    p4est_nearest_common_ancestor_D q1 q2 =
      some (p4est_nearest_common_ancestor q1 q2) ∧
    p4est_nearest_common_ancestor q1 q2 = p4est_nearest_common_ancestor q2 q1 ∧
    (p4est_nearest_common_ancestor q1 q2 = q1 ∨
      p4est_quadrant_is_ancestor (p4est_nearest_common_ancestor q1 q2) q1) ∧
    (p4est_nearest_common_ancestor q1 q2 = q2 ∨
      p4est_quadrant_is_ancestor (p4est_nearest_common_ancestor q1 q2) q2) := by
  have hsame29 : (q1.x ^^^ q2.x) ||| (q1.y ^^^ q2.y) < 2 ^ 29 := hsame
  have hsame29s : (q2.x ^^^ q1.x) ||| (q2.y ^^^ q1.y) < 2 ^ 29 := by
    rw [Nat.xor_comm q2.x, Nat.xor_comm q2.y]
    exact hsame29
  refine ⟨?_, nca_symm q1 q2 h1 h2 hsame29, nca_ancestor q1 q2 h1 h2 hsame29, ?_⟩
  · rw [ncaD_eq q1 q2 h1 h2 hsame29, nca_canonical q1 q2 h1 h2 hsame29]
  · rw [nca_symm q1 q2 h1 h2 hsame29]
    exact nca_ancestor q2 q1 h2 h1 hsame29s

/-- Witness for C7 at a concrete pair: `q1 = (2^28, 0, 2)`,
`q2 = (0, 2^27, 3)`. -/
theorem C7_witness :
    p4est_quadrant_is_extended ⟨2 ^ 28, 0, 2⟩ ∧
    p4est_quadrant_is_extended ⟨0, 2 ^ 27, 3⟩ ∧
    ((2 ^ 28 ^^^ 0) ||| (0 ^^^ 2 ^ 27) : Nat) < P4EST_ROOT_LEN ∧
    (p4est_nearest_common_ancestor_D ⟨2 ^ 28, 0, 2⟩ ⟨0, 2 ^ 27, 3⟩ =
        some (p4est_nearest_common_ancestor ⟨2 ^ 28, 0, 2⟩ ⟨0, 2 ^ 27, 3⟩) ∧
      p4est_nearest_common_ancestor ⟨2 ^ 28, 0, 2⟩ ⟨0, 2 ^ 27, 3⟩ =
        p4est_nearest_common_ancestor ⟨0, 2 ^ 27, 3⟩ ⟨2 ^ 28, 0, 2⟩ ∧
      (p4est_nearest_common_ancestor ⟨2 ^ 28, 0, 2⟩ ⟨0, 2 ^ 27, 3⟩ = ⟨2 ^ 28, 0, 2⟩ ∨
        p4est_quadrant_is_ancestor
          (p4est_nearest_common_ancestor ⟨2 ^ 28, 0, 2⟩ ⟨0, 2 ^ 27, 3⟩) ⟨2 ^ 28, 0, 2⟩) ∧
      (p4est_nearest_common_ancestor ⟨2 ^ 28, 0, 2⟩ ⟨0, 2 ^ 27, 3⟩ = ⟨0, 2 ^ 27, 3⟩ ∨
        p4est_quadrant_is_ancestor
          (p4est_nearest_common_ancestor ⟨2 ^ 28, 0, 2⟩ ⟨0, 2 ^ 27, 3⟩) ⟨0, 2 ^ 27, 3⟩)) :=
  ⟨by decide, by decide, by decide,
    C7_theorem ⟨2 ^ 28, 0, 2⟩ ⟨0, 2 ^ 27, 3⟩ (by decide) (by decide) (by decide)⟩

theorem compare_mono_arr (arr : List Quadrant) (q : Quadrant)
    (hq : p4est_quadrant_is_extended q ∧ inExtendedRange q)
    (hall : ∀ r ∈ arr, p4est_quadrant_is_extended r ∧ inExtendedRange r)
    (hsorted : List.Pairwise (fun a b => p4est_quadrant_compare a b < 0) arr)
    (i j : Nat) (hij : i ≤ j) (hj : j < arr.length)
    (hp : p4est_quadrant_compare q (arr.getD i defaultQuad) ≤ 0) :
    p4est_quadrant_compare q (arr.getD j defaultQuad) ≤ 0 := by
  rcases Nat.lt_or_ge i j with hlt | hge
  · have hi : i < arr.length := lt_trans hlt hj
    rw [List.getD_eq_getElem arr defaultQuad hi] at hp
    rw [List.getD_eq_getElem arr defaultQuad hj]
    have hltc : p4est_quadrant_compare arr[i] arr[j] < 0 :=
      (List.pairwise_iff_getElem.mp hsorted) i j hi hj hlt
    have hmi := hall arr[i] (List.getElem_mem hi)
    have hmj := hall arr[j] (List.getElem_mem hj)
    exact le_of_lt (compare_lt_of_le_of_lt q arr[i] arr[j]
      hq.1 hmi.1 hmj.1 hq.2 hmi.2 hmj.2 hp hltc)
  · have : i = j := by omega
    subst this
    exact hp

theorem compare_mono_arr2 (arr : List Quadrant) (q : Quadrant)
    (hq : p4est_quadrant_is_extended q ∧ inExtendedRange q)
    (hall : ∀ r ∈ arr, p4est_quadrant_is_extended r ∧ inExtendedRange r)
    (hsorted : List.Pairwise (fun a b => p4est_quadrant_compare a b < 0) arr)
    (i j : Nat) (hij : i ≤ j) (hj : j < arr.length)
    (hp : p4est_quadrant_compare (arr.getD j defaultQuad) q ≤ 0) :
    p4est_quadrant_compare (arr.getD i defaultQuad) q ≤ 0 := by
  rcases Nat.lt_or_ge i j with hlt | hge
  · have hi : i < arr.length := lt_trans hlt hj
    rw [List.getD_eq_getElem arr defaultQuad hj] at hp
    rw [List.getD_eq_getElem arr defaultQuad hi]
    have hltc : p4est_quadrant_compare arr[i] arr[j] < 0 :=
      (List.pairwise_iff_getElem.mp hsorted) i j hi hj hlt
    have hmi := hall arr[i] (List.getElem_mem hi)
    have hmj := hall arr[j] (List.getElem_mem hj)
    exact le_of_lt (compare_lt_of_lt_of_le arr[i] arr[j] q
      hmi.1 hmj.1 hq.1 hmi.2 hmj.2 hq.2 hltc hp)
  · have : i = j := by omega
    subst this
    exact hp

theorem findLowerBoundLoop_spec (arr : List Quadrant) (q : Quadrant)
    (hq : p4est_quadrant_is_extended q ∧ inExtendedRange q)
    (hall : ∀ r ∈ arr, p4est_quadrant_is_extended r ∧ inExtendedRange r)
    (hsorted : List.Pairwise (fun a b => p4est_quadrant_compare a b < 0) arr) :
    ∀ fuel low high guess : Nat,
    low ≤ guess → guess ≤ high → high < arr.length → high - low < fuel →
    (∀ i, i < low → 0 < p4est_quadrant_compare q (arr.getD i defaultQuad)) →
    ((∃ i, i < arr.length ∧ p4est_quadrant_compare q (arr.getD i defaultQuad) ≤ 0) →
      ∃ j, j ≤ high ∧ p4est_quadrant_compare q (arr.getD j defaultQuad) ≤ 0) →
    (match findLowerBoundLoop arr q fuel low high guess with
     | some i => i < arr.length ∧ p4est_quadrant_compare q (arr.getD i defaultQuad) ≤ 0 ∧
         ∀ k, k < i → 0 < p4est_quadrant_compare q (arr.getD k defaultQuad)
     | none => ∀ k, k < arr.length → 0 < p4est_quadrant_compare q (arr.getD k defaultQuad)) := by
  intro fuel
  induction fuel with
  | zero =>
    intro low high guess _ _ _ h4 _ _
    exact absurd h4 (by omega)
  | succ fuel ih =>
    intro low high guess hlg hgh hhl hfuel hA hB
    simp only [findLowerBoundLoop]
    by_cases hc1 : p4est_quadrant_compare q (arr.getD guess defaultQuad) ≤ 0 ∧ 0 < guess ∧
        p4est_quadrant_compare q (arr.getD (guess - 1) defaultQuad) ≤ 0
    · rw [if_pos hc1]
      obtain ⟨hcomp, hg0, hprev⟩ := hc1
      have hlowle : low ≤ guess - 1 := by
        by_contra hlt
        push_neg at hlt
        have := hA (guess - 1) hlt
        omega
      apply ih low (guess - 1) ((low + (guess - 1) + 1) / 2)
        (by omega) (by omega) (by omega) (by omega) hA
      intro _
      exact ⟨guess - 1, le_refl _, hprev⟩
    · rw [if_neg hc1]
      by_cases hc2 : 0 < p4est_quadrant_compare q (arr.getD guess defaultQuad)
      · rw [if_pos hc2]
        by_cases hc3 : high < guess + 1
        · rw [if_pos hc3]
          intro k hk
          by_contra hle
          push_neg at hle
          obtain ⟨j, hjh, hPj⟩ := hB ⟨k, hk, hle⟩
          have := compare_mono_arr arr q hq hall hsorted j guess (by omega) (by omega) hPj
          omega
        · rw [if_neg hc3]
          apply ih (guess + 1) high ((guess + 1 + high) / 2)
            (by omega) (by omega) hhl (by omega)
          · intro i hi
            by_contra hle
            push_neg at hle
            have := compare_mono_arr arr q hq hall hsorted i guess (by omega) (by omega) hle
            omega
          · exact hB
      · rw [if_neg hc2]
        refine ⟨by omega, by omega, ?_⟩
        intro k hk
        by_contra hle
        push_neg at hle
        have hcomp : p4est_quadrant_compare q (arr.getD guess defaultQuad) ≤ 0 := by omega
        have hg0 : (0 : Nat) < guess := by omega
        have hPgm : p4est_quadrant_compare q (arr.getD (guess - 1) defaultQuad) ≤ 0 :=
          compare_mono_arr arr q hq hall hsorted k (guess - 1) (by omega) (by omega) hle
        exact hc1 ⟨hcomp, hg0, hPgm⟩

theorem findHigherBoundLoop_spec (arr : List Quadrant) (q : Quadrant)
    (hq : p4est_quadrant_is_extended q ∧ inExtendedRange q)
    (hall : ∀ r ∈ arr, p4est_quadrant_is_extended r ∧ inExtendedRange r)
    (hsorted : List.Pairwise (fun a b => p4est_quadrant_compare a b < 0) arr) :
    ∀ fuel low high guess : Nat,
    low ≤ guess → guess ≤ high → high < arr.length → high - low < fuel →
    (∀ i, high < i → i < arr.length →
      0 < p4est_quadrant_compare (arr.getD i defaultQuad) q) →
    ((∃ i, i < arr.length ∧ p4est_quadrant_compare (arr.getD i defaultQuad) q ≤ 0) →
      ∃ j, low ≤ j ∧ j < arr.length ∧
        p4est_quadrant_compare (arr.getD j defaultQuad) q ≤ 0) →
    (match findHigherBoundLoop arr q fuel low high guess with
     | some i => i < arr.length ∧ p4est_quadrant_compare (arr.getD i defaultQuad) q ≤ 0 ∧
         ∀ k, i < k → k < arr.length →
           0 < p4est_quadrant_compare (arr.getD k defaultQuad) q
     | none => ∀ k, k < arr.length →
         0 < p4est_quadrant_compare (arr.getD k defaultQuad) q) := by
  intro fuel
  induction fuel with
  | zero =>
    intro low high guess _ _ _ h4 _ _
    exact absurd h4 (by omega)
  | succ fuel ih =>
    intro low high guess hlg hgh hhl hfuel hA hB
    simp only [findHigherBoundLoop]
    by_cases hc1 : p4est_quadrant_compare (arr.getD guess defaultQuad) q ≤ 0 ∧
        guess + 1 < arr.length ∧
        p4est_quadrant_compare (arr.getD (guess + 1) defaultQuad) q ≤ 0
    · rw [if_pos hc1]
      obtain ⟨hcomp, hg1, hnext⟩ := hc1
      have hhige : guess + 1 ≤ high := by
        by_contra hlt
        push_neg at hlt
        have := hA (guess + 1) hlt hg1
        omega
      apply ih (guess + 1) high ((guess + 1 + high) / 2)
        (by omega) (by omega) hhl (by omega) hA
      intro _
      exact ⟨guess + 1, le_refl _, hg1, hnext⟩
    · rw [if_neg hc1]
      by_cases hc2 : 0 < p4est_quadrant_compare (arr.getD guess defaultQuad) q
      · rw [if_pos hc2]
        by_cases hc3 : guess ≤ low
        · rw [if_pos hc3]
          intro k hk
          by_contra hle
          push_neg at hle
          obtain ⟨j, hjl, hjlen, hPj⟩ := hB ⟨k, hk, hle⟩
          have := compare_mono_arr2 arr q hq hall hsorted guess j (by omega) hjlen hPj
          omega
        · rw [if_neg hc3]
          apply ih low (guess - 1) ((low + (guess - 1) + 1) / 2)
            (by omega) (by omega) (by omega) (by omega)
          · intro i hi hilen
            by_contra hle
            push_neg at hle
            have := compare_mono_arr2 arr q hq hall hsorted guess i (by omega) hilen hle
            omega
          · exact hB
      · rw [if_neg hc2]
        refine ⟨by omega, by omega, ?_⟩
        intro k hkg hk
        by_contra hle
        push_neg at hle
        have hcomp : p4est_quadrant_compare (arr.getD guess defaultQuad) q ≤ 0 := by omega
        have hg1 : guess + 1 < arr.length := by omega
        have hPgn : p4est_quadrant_compare (arr.getD (guess + 1) defaultQuad) q ≤ 0 :=
          compare_mono_arr2 arr q hq hall hsorted (guess + 1) k (by omega) hk hle
        exact hc1 ⟨hcomp, hg1, hPgn⟩

/-- **C9.** On a strictly sorted array of extended quadrants (all within the
extended coordinate range) with any initial guess in `[0, count)`,
`p4est_find_lower_bound` returns the smallest index whose quadrant compares
greater than or equal to `q` (`none` embeds the C return `-1` when every
element compares less than `q`), and `p4est_find_higher_bound` returns the
largest index whose quadrant compares less than or equal to `q` (`none` when
every element compares greater). -/
theorem C9_theorem (arr : List Quadrant) (q : Quadrant) (guess : Nat)
    (hq : p4est_quadrant_is_extended q ∧ inExtendedRange q)
    (hall : ∀ r ∈ arr, p4est_quadrant_is_extended r ∧ inExtendedRange r)
    (hsorted : List.Pairwise (fun a b => p4est_quadrant_compare a b < 0) arr)
    (hguess : guess < arr.length) :
    (match p4est_find_lower_bound arr q guess with
     | some i => i < arr.length ∧ p4est_quadrant_compare q (arr.getD i defaultQuad) ≤ 0 ∧
         ∀ k, k < i → 0 < p4est_quadrant_compare q (arr.getD k defaultQuad)
     | none => ∀ k, k < arr.length →
         0 < p4est_quadrant_compare q (arr.getD k defaultQuad)) ∧
    (match p4est_find_higher_bound arr q guess with
     | some i => i < arr.length ∧ p4est_quadrant_compare (arr.getD i defaultQuad) q ≤ 0 ∧
         ∀ k, i < k → k < arr.length →
           0 < p4est_quadrant_compare (arr.getD k defaultQuad) q
     | none => ∀ k, k < arr.length →
         0 < p4est_quadrant_compare (arr.getD k defaultQuad) q) := by
  constructor
  · exact findLowerBoundLoop_spec arr q hq hall hsorted (arr.length + 1) 0
      (arr.length - 1) guess (Nat.zero_le _) (by omega) (by omega) (by omega)
      (fun i hi => absurd hi (Nat.not_lt_zero i))
      (fun ⟨i, hi, hPi⟩ => ⟨i, by omega, hPi⟩)
  · exact findHigherBoundLoop_spec arr q hq hall hsorted (arr.length + 1) 0
      (arr.length - 1) guess (Nat.zero_le _) (by omega) (by omega) (by omega)
      (fun i hi hilen => absurd hilen (by omega))
      (fun ⟨i, hi, hPi⟩ => ⟨i, Nat.zero_le i, hi, hPi⟩)

/-- Witness for C9: the two-quadrant sorted array `[(0,0,1), (2^28,2^28,1)]`
with `q = (2^28,0,1)` and guess `0`. -/
theorem C9_witness :
    ((p4est_quadrant_is_extended (⟨2 ^ 28, 0, 1⟩ : Quadrant) ∧
        inExtendedRange ⟨2 ^ 28, 0, 1⟩) ∧
      (∀ r ∈ [(⟨0, 0, 1⟩ : Quadrant), ⟨2 ^ 28, 2 ^ 28, 1⟩],
        p4est_quadrant_is_extended r ∧ inExtendedRange r) ∧
      List.Pairwise (fun a b => p4est_quadrant_compare a b < 0)
        [(⟨0, 0, 1⟩ : Quadrant), ⟨2 ^ 28, 2 ^ 28, 1⟩] ∧
      0 < ([(⟨0, 0, 1⟩ : Quadrant), ⟨2 ^ 28, 2 ^ 28, 1⟩] : List Quadrant).length) ∧
    ((match p4est_find_lower_bound [(⟨0, 0, 1⟩ : Quadrant), ⟨2 ^ 28, 2 ^ 28, 1⟩]
        ⟨2 ^ 28, 0, 1⟩ 0 with
     | some i => i < ([(⟨0, 0, 1⟩ : Quadrant), ⟨2 ^ 28, 2 ^ 28, 1⟩] : List Quadrant).length ∧
         p4est_quadrant_compare ⟨2 ^ 28, 0, 1⟩
           (([(⟨0, 0, 1⟩ : Quadrant), ⟨2 ^ 28, 2 ^ 28, 1⟩]).getD i defaultQuad) ≤ 0 ∧
         ∀ k, k < i → 0 < p4est_quadrant_compare ⟨2 ^ 28, 0, 1⟩
           (([(⟨0, 0, 1⟩ : Quadrant), ⟨2 ^ 28, 2 ^ 28, 1⟩]).getD k defaultQuad)
     | none => ∀ k, k < ([(⟨0, 0, 1⟩ : Quadrant), ⟨2 ^ 28, 2 ^ 28, 1⟩] : List Quadrant).length →
         0 < p4est_quadrant_compare ⟨2 ^ 28, 0, 1⟩
           (([(⟨0, 0, 1⟩ : Quadrant), ⟨2 ^ 28, 2 ^ 28, 1⟩]).getD k defaultQuad)) ∧
    (match p4est_find_higher_bound [(⟨0, 0, 1⟩ : Quadrant), ⟨2 ^ 28, 2 ^ 28, 1⟩]
        ⟨2 ^ 28, 0, 1⟩ 0 with
     | some i => i < ([(⟨0, 0, 1⟩ : Quadrant), ⟨2 ^ 28, 2 ^ 28, 1⟩] : List Quadrant).length ∧
         p4est_quadrant_compare
           (([(⟨0, 0, 1⟩ : Quadrant), ⟨2 ^ 28, 2 ^ 28, 1⟩]).getD i defaultQuad)
           ⟨2 ^ 28, 0, 1⟩ ≤ 0 ∧
         ∀ k, i < k → k < ([(⟨0, 0, 1⟩ : Quadrant), ⟨2 ^ 28, 2 ^ 28, 1⟩] : List Quadrant).length →
           0 < p4est_quadrant_compare
             (([(⟨0, 0, 1⟩ : Quadrant), ⟨2 ^ 28, 2 ^ 28, 1⟩]).getD k defaultQuad)
             ⟨2 ^ 28, 0, 1⟩
     | none => ∀ k, k < ([(⟨0, 0, 1⟩ : Quadrant), ⟨2 ^ 28, 2 ^ 28, 1⟩] : List Quadrant).length →
         0 < p4est_quadrant_compare
           (([(⟨0, 0, 1⟩ : Quadrant), ⟨2 ^ 28, 2 ^ 28, 1⟩]).getD k defaultQuad)
           ⟨2 ^ 28, 0, 1⟩)) :=
  ⟨⟨⟨by decide, by decide⟩, by decide, by decide, by decide⟩,
    C9_theorem [(⟨0, 0, 1⟩ : Quadrant), ⟨2 ^ 28, 2 ^ 28, 1⟩] ⟨2 ^ 28, 0, 1⟩ 0
      ⟨by decide, by decide⟩ (by decide) (by decide) (by decide)⟩

theorem compare_self (q : Quadrant) : p4est_quadrant_compare q q = 0 := by
  rw [p4est_quadrant_compare]
  simp [Nat.xor_self]

theorem two_pow_le_of_testBit (n i : Nat) (h : n.testBit i = true) : 2 ^ i ≤ n := by
  by_contra hlt
  push_neg at hlt
  rw [Nat.testBit_lt_two_pow hlt] at h
  exact Bool.false_ne_true h

theorem pow4_eq (c : Nat) : (4 : Nat) ^ c = 2 ^ (2 * c) := by
  rw [pow_mul]
  norm_num

theorem shiftRight_eq_of_xor_lt (A B m : Nat) (h : A ^^^ B < 2 ^ m) :
    A >>> m = B >>> m := by
  apply Nat.eq_of_testBit_eq
  intro j
  rw [Nat.testBit_shiftRight, Nat.testBit_shiftRight]
  have hx : (A ^^^ B).testBit (m + j) = false :=
    (lt_two_pow_iff_high_bits _ _).1 h (m + j) (by omega)
  rw [Nat.testBit_xor] at hx
  cases hA : A.testBit (m + j) <;> cases hB : B.testBit (m + j) <;>
    simp [hA, hB] at hx ⊢

theorem xor_eq_mod_of_aligned (A B m : Nat) (hA : A % 2 ^ m = 0)
    (h : A ^^^ B < 2 ^ m) : A ^^^ B = B % 2 ^ m := by
  apply Nat.eq_of_testBit_eq
  intro j
  rw [Nat.testBit_xor, Nat.testBit_mod_two_pow]
  by_cases hj : j < m
  · have hAb : A.testBit j = false := by
      apply testBit_false_of_aligned A m j _ hj
      rw [land_two_pow_sub_one]
      exact hA
    rw [hAb]
    simp [hj]
  · have hx : (A ^^^ B).testBit j = false :=
      (lt_two_pow_iff_high_bits _ _).1 h j (by omega)
    rw [Nat.testBit_xor] at hx
    rw [hx]
    simp [hj]

theorem aligned_xor_lt_iff (A B m : Nat) (hA : A % 2 ^ m = 0) :
    A ^^^ B < 2 ^ m ↔ (A ≤ B ∧ B < A + 2 ^ m) := by
  have hAe : 2 ^ m * (A / 2 ^ m) = A := by
    have := Nat.div_add_mod A (2 ^ m)
    omega
  constructor
  · intro h
    have hd : A >>> m = B >>> m := shiftRight_eq_of_xor_lt A B m h
    rw [Nat.shiftRight_eq_div_pow, Nat.shiftRight_eq_div_pow] at hd
    have hlow := xor_eq_mod_of_aligned A B m hA h
    have hBeq : B = A + B % 2 ^ m := by
      calc B = 2 ^ m * (B / 2 ^ m) + B % 2 ^ m := (Nat.div_add_mod B (2 ^ m)).symm
        _ = 2 ^ m * (A / 2 ^ m) + B % 2 ^ m := by rw [hd]
        _ = A + B % 2 ^ m := by rw [hAe]
    have hmod : B % 2 ^ m < 2 ^ m := Nat.mod_lt _ (Nat.two_pow_pos m)
    omega
  · rintro ⟨h1, h2⟩
    have hk : B / 2 ^ m = A / 2 ^ m := by
      apply Nat.div_eq_of_lt_le
      · rw [Nat.mul_comm, hAe]
        exact h1
      · rw [Nat.succ_mul, Nat.mul_comm, hAe]
        exact h2
    rw [lt_two_pow_iff_high_bits]
    intro j hj
    have hsh : A >>> m = B >>> m := by
      rw [Nat.shiftRight_eq_div_pow, Nat.shiftRight_eq_div_pow, hk]
    have hbit : A.testBit j = B.testBit j := by
      have h1b := congrArg (fun n => n.testBit (j - m)) hsh
      simp only [Nat.testBit_shiftRight] at h1b
      have hmj : m + (j - m) = j := by omega
      rw [hmj] at h1b
      exact h1b
    rw [Nat.testBit_xor, hbit]
    exact Bool.xor_self _

theorem pkey_aligned (u c : Nat) (hc : c ≤ 31) (h : u &&& (2 ^ c - 1) = 0) :
    pkey u % 2 ^ c = 0 := by
  rw [land_two_pow_sub_one] at h
  rw [pkey, Nat.mod_mod_of_dvd u (Nat.pow_dvd_pow 2 hc)]
  exact h

theorem quadKey_aligned (q : Quadrant) (h : p4est_quadrant_is_extended q) :
    quadKey q % 2 ^ (2 * (P4EST_MAXLEVEL - q.level)) = 0 := by
  obtain ⟨hx32, hy32, hlev, hax, hay⟩ := h
  have hM : P4EST_MAXLEVEL = 29 := rfl
  have hc : P4EST_MAXLEVEL - q.level ≤ 31 := by rw [hM]; omega
  rw [← land_two_pow_sub_one]
  apply aligned_of_testBit_false
  intro j hj
  rcases Nat.even_or_odd j with he | ho
  · obtain ⟨i, hi⟩ := he
    have hj2 : j = 2 * i := by omega
    subst hj2
    rw [quadKey, interleave_testBit_even]
    have hb : (pkey q.x).testBit i = false := by
      apply testBit_false_of_aligned (pkey q.x) (P4EST_MAXLEVEL - q.level) i _ (by omega)
      rw [land_two_pow_sub_one]
      exact pkey_aligned q.x _ hc hax
    rw [hb]
    simp
  · obtain ⟨i, hi⟩ := ho
    subst hi
    rw [quadKey, interleave_testBit_odd]
    have hb : (pkey q.y).testBit i = false := by
      apply testBit_false_of_aligned (pkey q.y) (P4EST_MAXLEVEL - q.level) i _ (by omega)
      rw [land_two_pow_sub_one]
      exact pkey_aligned q.y _ hc hay
    rw [hb]
    simp

theorem interleave_lt_iff (a b c : Nat) (ha : a < 2 ^ 32) (hb : b < 2 ^ 32)
    (hc : c ≤ 32) :
    interleave a b 32 < 2 ^ (2 * c) ↔ (a < 2 ^ c ∧ b < 2 ^ c) := by
  constructor
  · intro h
    constructor
    · rw [lt_two_pow_iff_high_bits]
      intro i hi
      by_cases hi32 : i < 32
      · have hbit : (interleave a b 32).testBit (2 * i) = false :=
          (lt_two_pow_iff_high_bits _ _).1 h (2 * i) (by omega)
        rw [interleave_testBit_even] at hbit
        simp only [hi32, decide_True, Bool.true_and] at hbit
        exact hbit
      · exact testBit_ge32_false a i ha (by omega)
    · rw [lt_two_pow_iff_high_bits]
      intro i hi
      by_cases hi32 : i < 32
      · have hbit : (interleave a b 32).testBit (2 * i + 1) = false :=
          (lt_two_pow_iff_high_bits _ _).1 h (2 * i + 1) (by omega)
        rw [interleave_testBit_odd] at hbit
        simp only [hi32, decide_True, Bool.true_and] at hbit
        exact hbit
      · exact testBit_ge32_false b i hb (by omega)
  · rintro ⟨h1, h2⟩
    rw [lt_two_pow_iff_high_bits]
    intro j hj
    rcases Nat.even_or_odd j with he | ho
    · obtain ⟨i, hi⟩ := he
      have hj2 : j = 2 * i := by omega
      subst hj2
      rw [interleave_testBit_even]
      have : a.testBit i = false :=
        (lt_two_pow_iff_high_bits _ _).1 h1 i (by omega)
      rw [this]
      simp
    · obtain ⟨i, hi⟩ := ho
      subst hi
      rw [interleave_testBit_odd]
      have : b.testBit i = false :=
        (lt_two_pow_iff_high_bits _ _).1 h2 i (by omega)
      rw [this]
      simp

theorem testBit29_of_neg_range (u : Nat) (h1 : 2 ^ 32 - 2 ^ 29 ≤ u) (h2 : u < 2 ^ 32) :
    u.testBit 29 = true := by
  rw [Nat.testBit_to_div_mod, decide_eq_true_iff]
  omega

theorem testBit30_small (u : Nat) (h : u < 2 ^ 30) : u.testBit 30 = false :=
  Nat.testBit_lt_two_pow (lt_of_lt_of_le h (by norm_num))

theorem pkey_neg_range (u : Nat) (h1 : 2 ^ 32 - 2 ^ 29 ≤ u) (h2 : u < 2 ^ 32) :
    pkey u = u - 2 ^ 31 ∧ 2 ^ 31 - 2 ^ 29 ≤ pkey u := by
  rw [pkey]
  constructor
  · have : u - 2 ^ 31 < 2 ^ 31 := by omega
    have hu : u = 2 ^ 31 + (u - 2 ^ 31) := by omega
    calc u % 2 ^ 31 = (2 ^ 31 + (u - 2 ^ 31)) % 2 ^ 31 := by rw [← hu]
      _ = (u - 2 ^ 31) % 2 ^ 31 := by rw [Nat.add_mod_left]
      _ = u - 2 ^ 31 := Nat.mod_eq_of_lt this
  · have : u - 2 ^ 31 < 2 ^ 31 := by omega
    have hu : u = 2 ^ 31 + (u - 2 ^ 31) := by omega
    have he : u % 2 ^ 31 = u - 2 ^ 31 := by
      calc u % 2 ^ 31 = (2 ^ 31 + (u - 2 ^ 31)) % 2 ^ 31 := by rw [← hu]
        _ = (u - 2 ^ 31) % 2 ^ 31 := by rw [Nat.add_mod_left]
        _ = u - 2 ^ 31 := Nat.mod_eq_of_lt this
    omega

theorem testBit30_of_midrange (w : Nat) (h1 : 2 ^ 31 - 2 ^ 29 ≤ w) (h2 : w < 2 ^ 31) :
    w.testBit 30 = true := by
  rw [Nat.testBit_to_div_mod, decide_eq_true_iff]
  omega

theorem xor_lt_mixed_false (u v c : Nat) (hu : u < 2 ^ 30)
    (hv1 : 2 ^ 32 - 2 ^ 29 ≤ v) (hv2 : v < 2 ^ 32) (hc : c ≤ 29) :
    ¬ (u ^^^ v < 2 ^ c) ∧ ¬ (pkey u ^^^ pkey v < 2 ^ c) := by
  constructor
  · intro h
    have hub : u.testBit 31 = false :=
      Nat.testBit_lt_two_pow (lt_trans hu (by norm_num))
    have hvb : v.testBit 31 = true := (testBit_of_neg_range v hv1 hv2).1
    have hxb : (u ^^^ v).testBit 31 = true := by
      rw [Nat.testBit_xor, hub, hvb]
      rfl
    have := two_pow_le_of_testBit _ _ hxb
    have hcc : (2 : Nat) ^ c ≤ 2 ^ 29 := Nat.pow_le_pow_right (by norm_num) hc
    omega
  · intro h
    have hpu : pkey u = u := Nat.mod_eq_of_lt (lt_trans hu (by norm_num))
    obtain ⟨hpv, hpvge⟩ := pkey_neg_range v hv1 hv2
    have hub : (pkey u).testBit 30 = false := by
      rw [hpu]
      exact testBit30_small u hu
    have hvb : (pkey v).testBit 30 = true :=
      testBit30_of_midrange (pkey v) hpvge (pkey_lt_two31 v)
    have hxb : (pkey u ^^^ pkey v).testBit 30 = true := by
      rw [Nat.testBit_xor, hub, hvb]
      rfl
    have := two_pow_le_of_testBit _ _ hxb
    have hcc : (2 : Nat) ^ c ≤ 2 ^ 29 := Nat.pow_le_pow_right (by norm_num) hc
    omega

theorem xor_neg_pair_lt (u v : Nat) (hu1 : 2 ^ 32 - 2 ^ 29 ≤ u) (hu2 : u < 2 ^ 32)
    (hv1 : 2 ^ 32 - 2 ^ 29 ≤ v) (hv2 : v < 2 ^ 32) : u ^^^ v < 2 ^ 29 := by
  rw [lt_two_pow_iff_high_bits]
  intro j hj
  by_cases h32 : 32 ≤ j
  · rw [Nat.testBit_xor, testBit_ge32_false u j hu2 h32, testBit_ge32_false v j hv2 h32]
    rfl
  · have hj3 : j = 29 ∨ j = 30 ∨ j = 31 := by omega
    rcases hj3 with h | h | h <;> subst h <;> rw [Nat.testBit_xor]
    · rw [testBit29_of_neg_range u hu1 hu2, testBit29_of_neg_range v hv1 hv2]
      rfl
    · rw [(testBit_of_neg_range u hu1 hu2).2, (testBit_of_neg_range v hv1 hv2).2]
      rfl
    · rw [(testBit_of_neg_range u hu1 hu2).1, (testBit_of_neg_range v hv1 hv2).1]
      rfl

theorem pattern_xor_lt_iff_pkey (u v c : Nat) (hu32 : u < 2 ^ 32) (hv32 : v < 2 ^ 32)
    (hru : u < 2 ^ 30 ∨ 2 ^ 32 - 2 ^ 29 ≤ u) (hrv : v < 2 ^ 30 ∨ 2 ^ 32 - 2 ^ 29 ≤ v)
    (hc : c ≤ 29) :
    (u ^^^ v < 2 ^ c ↔ pkey u ^^^ pkey v < 2 ^ c) := by
  rcases hru with hu | hu <;> rcases hrv with hv | hv
  · rw [pkey, pkey, Nat.mod_eq_of_lt (lt_trans hu (by norm_num)),
      Nat.mod_eq_of_lt (lt_trans hv (by norm_num))]
  · obtain ⟨h1, h2⟩ := xor_lt_mixed_false u v c hu hv hv32 hc
    exact ⟨fun h => absurd h h1, fun h => absurd h h2⟩
  · obtain ⟨h1, h2⟩ := xor_lt_mixed_false v u c hv hu hu32 hc
    rw [Nat.xor_comm u v, Nat.xor_comm (pkey u) (pkey v)]
    exact ⟨fun h => absurd h h1, fun h => absurd h h2⟩
  · have hlt : u ^^^ v < 2 ^ 29 := xor_neg_pair_lt u v hu hu32 hv hv32
    have heq : pkey u ^^^ pkey v = u ^^^ v := by
      rw [pkey_xor]
      exact Nat.mod_eq_of_lt (lt_trans hlt (by norm_num))
    rw [heq]

theorem asr32_xor_zero_iff (w k : Nat) (hw : w < 2 ^ 32) (hk : k ≤ 31) :
    asr32 w k = 0 ↔ w < 2 ^ k := by
  rw [asr32]
  by_cases h31 : w < 2 ^ 31
  · rw [if_pos h31, Nat.shiftRight_eq_div_pow]
    rw [Nat.div_eq_zero_iff (Nat.two_pow_pos k)]
  · rw [if_neg h31]
    constructor
    · intro h
      rw [Nat.shiftRight_eq_div_pow] at h
      by_cases k0 : k = 0
      · subst k0
        simp only [pow_zero, Nat.div_one] at h
        omega
      · have hle : (2 : Nat) ^ (32 - k) ≤ 2 ^ 31 :=
          Nat.pow_le_pow_right (by norm_num) (by omega)
        have h2 := (Nat.add_eq_zero.mp h).2
        omega
    · intro h
      have hle : (2 : Nat) ^ k ≤ 2 ^ 31 := Nat.pow_le_pow_right (by norm_num) hk
      omega

theorem is_ancestor_iff_key (a b : Quadrant)
    (ha : p4est_quadrant_is_extended a) (hb : p4est_quadrant_is_extended b)
    (hra : inExtendedRange a) (hrb : inExtendedRange b) :
    p4est_quadrant_is_ancestor a b ↔
      (a.level < b.level ∧ quadKey a ≤ quadKey b ∧
        quadKey b < quadKey a + coverLen a.level) := by
  obtain ⟨hax32, hay32, halev, haax, haay⟩ := ha
  obtain ⟨hbx32, hby32, hblev, hbax, hbay⟩ := hb
  have hM : P4EST_MAXLEVEL = 29 := rfl
  have hkey : ∀ hl : a.level < b.level,
      ((a.x ^^^ b.x < 2 ^ (29 - a.level) ∧ a.y ^^^ b.y < 2 ^ (29 - a.level)) ↔
        (quadKey a ≤ quadKey b ∧ quadKey b < quadKey a + coverLen a.level)) := by
    intro hl
    have hc29 : 29 - a.level ≤ 29 := by omega
    have hx := pattern_xor_lt_iff_pkey a.x b.x (29 - a.level) hax32 hbx32 hra.1 hrb.1 hc29
    have hy := pattern_xor_lt_iff_pkey a.y b.y (29 - a.level) hay32 hby32 hra.2 hrb.2 hc29
    rw [hx, hy]
    have hkxor : quadKey a ^^^ quadKey b =
        interleave (pkey a.x ^^^ pkey b.x) (pkey a.y ^^^ pkey b.y) 32 := by
      rw [quadKey, quadKey, interleave_xor]
    have hil := interleave_lt_iff (pkey a.x ^^^ pkey b.x) (pkey a.y ^^^ pkey b.y)
      (29 - a.level)
      (by
        have h1 := pkey_lt_two31 a.x
        have h2 := pkey_lt_two31 b.x
        have := Nat.xor_lt_two_pow (n := 31) h1 h2
        omega)
      (by
        have h1 := pkey_lt_two31 a.y
        have h2 := pkey_lt_two31 b.y
        have := Nat.xor_lt_two_pow (n := 31) h1 h2
        omega)
      (by omega)
    rw [← hkxor] at hil
    rw [← hil]
    have halign : quadKey a % 2 ^ (2 * (29 - a.level)) = 0 := by
      have := quadKey_aligned a ⟨hax32, hay32, halev, haax, haay⟩
      rw [hM] at this
      exact this
    rw [aligned_xor_lt_iff _ _ _ halign, coverLen, hM, pow4_eq]
  rw [p4est_quadrant_is_ancestor]
  constructor
  · rintro ⟨hl, hasrx, hasry⟩
    have hxlt := (asr32_xor_zero_iff (a.x ^^^ b.x) (P4EST_MAXLEVEL - a.level)
      (by
        have := Nat.xor_lt_two_pow (n := 32) hax32 hbx32
        omega) (by rw [hM]; omega)).1 hasrx
    have hylt := (asr32_xor_zero_iff (a.y ^^^ b.y) (P4EST_MAXLEVEL - a.level)
      (by
        have := Nat.xor_lt_two_pow (n := 32) hay32 hby32
        omega) (by rw [hM]; omega)).1 hasry
    rw [hM] at hxlt hylt
    exact ⟨hl, (hkey hl).1 ⟨hxlt, hylt⟩⟩
  · rintro ⟨hl, hk1, hk2⟩
    obtain ⟨hxlt, hylt⟩ := (hkey hl).2 ⟨hk1, hk2⟩
    refine ⟨hl, ?_, ?_⟩
    · apply (asr32_xor_zero_iff (a.x ^^^ b.x) (P4EST_MAXLEVEL - a.level)
        (by
          have := Nat.xor_lt_two_pow (n := 32) hax32 hbx32
          omega) (by rw [hM]; omega)).2
      rw [hM]
      exact hxlt
    · apply (asr32_xor_zero_iff (a.y ^^^ b.y) (P4EST_MAXLEVEL - a.level)
        (by
          have := Nat.xor_lt_two_pow (n := 32) hay32 hby32
          omega) (by rw [hM]; omega)).2
      rw [hM]
      exact hylt

theorem ancestor_compare_lt (a b : Quadrant)
    (ha : p4est_quadrant_is_extended a) (hb : p4est_quadrant_is_extended b)
    (hra : inExtendedRange a) (hrb : inExtendedRange b)
    (h : p4est_quadrant_is_ancestor a b) : p4est_quadrant_compare a b < 0 := by
  obtain ⟨hl, hk1, hk2⟩ := (is_ancestor_iff_key a b ha hb hra hrb).1 h
  rw [compare_lt_iff a b ha hb hra hrb]
  rcases Nat.lt_or_ge (quadKey a) (quadKey b) with h' | h'
  · exact Or.inl h'
  · exact Or.inr ⟨by omega, hl⟩

theorem not_anc_of_between (q1 q2 h : Quadrant)
    (h1 : p4est_quadrant_is_extended q1) (h2 : p4est_quadrant_is_extended q2)
    (hh : p4est_quadrant_is_extended h)
    (hr1 : inExtendedRange q1) (hr2 : inExtendedRange q2) (hrh : inExtendedRange h)
    (h12 : p4est_quadrant_compare q1 q2 < 0) (hn : ¬ p4est_quadrant_is_ancestor q1 q2)
    (h2h : p4est_quadrant_compare q2 h ≤ 0) :
    ¬ p4est_quadrant_is_ancestor q1 h := by
  intro hanc
  obtain ⟨hlh, hk1, hk2⟩ := (is_ancestor_iff_key q1 h h1 hh hr1 hrh).1 hanc
  rw [compare_lt_iff q1 q2 h1 h2 hr1 hr2] at h12
  rw [compare_le_iff q2 h h2 hh hr2 hrh] at h2h
  have hk2le : quadKey q2 ≤ quadKey h := by
    rcases h2h with h' | ⟨h', _⟩
    · exact le_of_lt h'
    · omega
  apply hn
  rw [is_ancestor_iff_key q1 q2 h1 h2 hr1 hr2]
  rcases h12 with hlt | ⟨heq, hll⟩
  · have hm1 : quadKey q1 % 2 ^ (2 * (29 - q1.level)) = 0 := quadKey_aligned q1 h1
    have hm2 : quadKey q2 % 2 ^ (2 * (29 - q2.level)) = 0 := quadKey_aligned q2 h2
    have hM : P4EST_MAXLEVEL = 29 := rfl
    have hcov : coverLen q1.level = 2 ^ (2 * (29 - q1.level)) := by
      rw [coverLen, hM, pow4_eq]
    have hlvl : q1.level < q2.level := by
      by_contra hle
      push_neg at hle
      have hdvd : (2 : Nat) ^ (2 * (29 - q1.level)) ∣ 2 ^ (2 * (29 - q2.level)) :=
        Nat.pow_dvd_pow 2 (by omega)
      have hm2b : quadKey q2 % 2 ^ (2 * (29 - q1.level)) = 0 := by
        obtain ⟨d, hd⟩ := hdvd
        rcases Nat.dvd_of_mod_eq_zero hm2 with ⟨e, he⟩
        rw [he, hd]
        rw [Nat.mul_assoc]
        exact Nat.mul_mod_right _ _
      have hgap : quadKey q1 + 2 ^ (2 * (29 - q1.level)) ≤ quadKey q2 := by
        rcases Nat.dvd_of_mod_eq_zero hm1 with ⟨e1, he1⟩
        rcases Nat.dvd_of_mod_eq_zero hm2b with ⟨e2, he2⟩
        rw [he1, he2] at hlt ⊢
        have hee : e1 < e2 := by
          by_contra hc
          push_neg at hc
          have hmm := Nat.mul_le_mul_left (2 ^ (2 * (29 - q1.level))) hc
          omega
        have hee1 : e1 + 1 ≤ e2 := hee
        have hmm := Nat.mul_le_mul_left (2 ^ (2 * (29 - q1.level))) hee1
        rw [Nat.mul_add, Nat.mul_one] at hmm
        omega
      rw [hcov] at hk2
      omega
    refine ⟨hlvl, le_of_lt hlt, by omega⟩
  · have hcovpos : 0 < coverLen q1.level := Nat.pow_pos (by norm_num)
    exact ⟨hll, by omega, by omega⟩

theorem linearizeStep_sublist (l : List Quadrant) :
    ∀ pl : List Nat, (linearizeStep l pl).1.Sublist l := by
  induction l with
  | nil =>
    intro pl
    simp [linearizeStep]
  | cons q1 t ih =>
    intro pl
    cases t with
    | nil => simp [linearizeStep]
    | cons q2 rest =>
      rw [linearizeStep]
      by_cases hc : q1 = q2 ∨ p4est_quadrant_is_ancestor q1 q2
      · rw [if_pos hc]
        exact (ih _).cons q1
      · rw [if_neg hc]
        exact (ih pl).cons₂ q1

theorem linearizeStep_noop (l : List Quadrant) :
    ∀ pl : List Nat,
    List.Chain' (fun a b => ¬ (a = b ∨ p4est_quadrant_is_ancestor a b)) l →
    linearizeStep l pl = (l, pl) := by
  induction l with
  | nil =>
    intro pl _
    rfl
  | cons q1 t ih =>
    intro pl h
    cases t with
    | nil => rfl
    | cons q2 rest =>
      obtain ⟨h1, h2⟩ := List.chain'_cons.mp h
      rw [linearizeStep, if_neg h1, ih pl h2]

theorem linearizeStep_spec (l : List Quadrant) :
    ∀ pl : List Nat,
    (∀ q ∈ l, p4est_quadrant_is_extended q ∧ inExtendedRange q) →
    List.Chain' (fun a b => p4est_quadrant_compare a b ≤ 0) l →
    List.Chain' (fun a b => p4est_quadrant_compare a b < 0 ∧
      ¬ p4est_quadrant_is_ancestor a b) (linearizeStep l pl).1 ∧
    (∀ a b, l.head? = some a → (linearizeStep l pl).1.head? = some b →
      p4est_quadrant_compare a b ≤ 0) := by
  induction l with
  | nil =>
    intro pl _ _
    refine ⟨List.chain'_nil, ?_⟩
    intro a b ha _
    simp at ha
  | cons q1 t ih =>
    intro pl hmem hchain
    cases t with
    | nil =>
      refine ⟨List.chain'_singleton q1, ?_⟩
      intro a b ha hb
      have ha2 : q1 = a := by
        rw [List.head?] at ha
        exact Option.some.inj ha
      have hb2 : q1 = b := Option.some.inj hb
      rw [← ha2, ← hb2]
      rw [compare_self]
    | cons q2 rest =>
      obtain ⟨h12, hrest⟩ := List.chain'_cons.mp hchain
      have hmem2 : ∀ q ∈ q2 :: rest, p4est_quadrant_is_extended q ∧ inExtendedRange q :=
        fun q hq => hmem q (List.mem_cons_of_mem q1 hq)
      have hq1m := hmem q1 (List.mem_cons_self q1 _)
      have hq2m := hmem q2 (List.mem_cons_of_mem q1 (List.mem_cons_self q2 _))
      by_cases hc : q1 = q2 ∨ p4est_quadrant_is_ancestor q1 q2
      · rw [linearizeStep, if_pos hc]
        obtain ⟨hch, hhd⟩ :=
          ih (pl.set q1.level (pl.getD q1.level 0 - 1)) hmem2 hrest
        refine ⟨hch, ?_⟩
        intro a b ha hb
        have ha2 : q1 = a := Option.some.inj ha
        have hbmem : b ∈ q2 :: rest := by
          have hbres : b ∈ (linearizeStep (q2 :: rest)
              (pl.set q1.level (pl.getD q1.level 0 - 1))).1 := by
            apply List.mem_of_mem_head?
            rw [hb]
            rfl
          exact (linearizeStep_sublist (q2 :: rest) _).subset hbres
        have hbm := hmem2 b hbmem
        have h2b : p4est_quadrant_compare q2 b ≤ 0 := hhd q2 b rfl hb
        rw [← ha2]
        exact compare_le_trans q1 q2 b hq1m.1 hq2m.1 hbm.1 hq1m.2 hq2m.2 hbm.2 h12 h2b
      · rw [linearizeStep, if_neg hc]
        push_neg at hc
        obtain ⟨hne, hnanc⟩ := hc
        have h12lt : p4est_quadrant_compare q1 q2 < 0 := by
          rcases lt_or_eq_of_le h12 with h | h
          · exact h
          · exact absurd ((compare_eq_iff q1 q2 hq1m.1 hq2m.1 hq1m.2 hq2m.2).1 h) hne
        obtain ⟨hch, hhd⟩ := ih pl hmem2 hrest
        constructor
        · rw [List.chain'_cons']
          refine ⟨?_, hch⟩
          intro b hb
          rw [Option.mem_def] at hb
          have hbmem : b ∈ q2 :: rest := by
            have hbres : b ∈ (linearizeStep (q2 :: rest) pl).1 := by
              apply List.mem_of_mem_head?
              rw [hb]
              rfl
            exact (linearizeStep_sublist (q2 :: rest) _).subset hbres
          have hbm := hmem2 b hbmem
          have h2b : p4est_quadrant_compare q2 b ≤ 0 := hhd q2 b rfl hb
          refine ⟨?_, ?_⟩
          · exact compare_lt_of_lt_of_le q1 q2 b hq1m.1 hq2m.1 hbm.1
              hq1m.2 hq2m.2 hbm.2 h12lt h2b
          · exact not_anc_of_between q1 q2 b hq1m.1 hq2m.1 hbm.1
              hq1m.2 hq2m.2 hbm.2 h12lt hnanc h2b
        · intro a b ha hb
          have ha2 : q1 = a := Option.some.inj ha
          have hb2 : q1 = b := Option.some.inj hb
          rw [← ha2, ← hb2, compare_self]

theorem chain'_imp_of_mem {α : Type} {R S : α → α → Prop} :
    ∀ l : List α, (∀ a ∈ l, ∀ b ∈ l, R a b → S a b) →
    List.Chain' R l → List.Chain' S l := by
  intro l
  induction l with
  | nil =>
    intro _ _
    exact List.chain'_nil
  | cons a t ih =>
    intro H h
    rw [List.chain'_cons'] at h ⊢
    obtain ⟨hhd, htl⟩ := h
    constructor
    · intro b hb
      have hbmem : b ∈ t := List.mem_of_mem_head? hb
      exact H a (List.mem_cons_self a t) b (List.mem_cons_of_mem a hbmem) (hhd b hb)
    · exact ih (fun x hx y hy => H x (List.mem_cons_of_mem a hx)
        y (List.mem_cons_of_mem a hy)) htl

theorem linear_id_lt (q : Quadrant) (lvl : Nat) (hlvl : lvl ≤ 29) :
    p4est_quadrant_linear_id q lvl < 2 ^ 64 := by
  rw [p4est_quadrant_linear_id]
  have h := interleave_lt (sext64 (asr32 q.x (P4EST_MAXLEVEL - lvl)))
    (sext64 (asr32 q.y (P4EST_MAXLEVEL - lvl))) (lvl + (32 - P4EST_MAXLEVEL))
  have hle : (2 : Nat) ^ (2 * (lvl + (32 - P4EST_MAXLEVEL))) ≤ 2 ^ 64 := by
    apply Nat.pow_le_pow_right (by norm_num)
    have : P4EST_MAXLEVEL = 29 := rfl
    omega
  omega

theorem testBit31_false_iff (u : Nat) (hu : u < 2 ^ 32) :
    u.testBit 31 = false ↔ u < 2 ^ 31 := by
  rw [Nat.testBit_to_div_mod]
  constructor
  · intro h
    have := decide_eq_false_iff_not.mp h
    omega
  · intro h
    apply decide_eq_false
    omega

theorem asr32_eq_of_xor_lt (u v k : Nat) (hu : u < 2 ^ 32) (hv : v < 2 ^ 32)
    (hk : k ≤ 31) (h : u ^^^ v < 2 ^ k) : asr32 u k = asr32 v k := by
  have hb : u.testBit 31 = v.testBit 31 := by
    have hx : (u ^^^ v).testBit 31 = false := by
      apply Nat.testBit_lt_two_pow
      exact lt_of_lt_of_le h (Nat.pow_le_pow_right (by norm_num) hk)
    rw [Nat.testBit_xor] at hx
    cases hu1 : u.testBit 31 <;> cases hv1 : v.testBit 31 <;>
      simp [hu1, hv1] at hx ⊢
  have hsh : u >>> k = v >>> k := shiftRight_eq_of_xor_lt u v k h
  rw [asr32, asr32]
  by_cases h31 : u < 2 ^ 31
  · have hv31 : v < 2 ^ 31 := by
      rw [← testBit31_false_iff v hv, ← hb, testBit31_false_iff u hu]
      exact h31
    rw [if_pos h31, if_pos hv31, hsh]
  · have hv31 : ¬ v < 2 ^ 31 := by
      rw [← testBit31_false_iff v hv, ← hb, testBit31_false_iff u hu]
      exact h31
    rw [if_neg h31, if_neg hv31, hsh]

theorem is_next_not_eq_anc (q r : Quadrant)
    (hq : p4est_quadrant_is_extended q) (hr : p4est_quadrant_is_extended r)
    (h : p4est_quadrant_is_next q r) :
    ¬ (q = r ∨ p4est_quadrant_is_ancestor q r) := by
  have hM : P4EST_MAXLEVEL = 29 := rfl
  have hqlev : q.level ≤ 29 := by
    have := hq.2.2.1
    rw [hM] at this
    exact this
  rintro (heq | hanc)
  · subst heq
    rw [p4est_quadrant_is_next, if_neg (lt_irrefl q.level)] at h
    have hlt := linear_id_lt q q.level hqlev
    omega
  · have hlvl : q.level < r.level := hanc.1
    rw [p4est_quadrant_is_next, if_neg (by omega : ¬ r.level < q.level)] at h
    have hx32 : q.x ^^^ r.x < 2 ^ 32 := by
      have := Nat.xor_lt_two_pow (n := 32) hq.1 hr.1
      omega
    have hy32 : q.y ^^^ r.y < 2 ^ 32 := by
      have := Nat.xor_lt_two_pow (n := 32) hq.2.1 hr.2.1
      omega
    have hxlt := (asr32_xor_zero_iff (q.x ^^^ r.x) (P4EST_MAXLEVEL - q.level)
      hx32 (by rw [hM]; omega)).1 hanc.2.1
    have hylt := (asr32_xor_zero_iff (q.y ^^^ r.y) (P4EST_MAXLEVEL - q.level)
      hy32 (by rw [hM]; omega)).1 hanc.2.2
    have hxeq : asr32 r.x (P4EST_MAXLEVEL - q.level) =
        asr32 q.x (P4EST_MAXLEVEL - q.level) := by
      apply asr32_eq_of_xor_lt r.x q.x _ hr.1 hq.1 (by rw [hM]; omega)
      rw [Nat.xor_comm]
      exact hxlt
    have hyeq : asr32 r.y (P4EST_MAXLEVEL - q.level) =
        asr32 q.y (P4EST_MAXLEVEL - q.level) := by
      apply asr32_eq_of_xor_lt r.y q.y _ hr.2.1 hq.2.1 (by rw [hM]; omega)
      rw [Nat.xor_comm]
      exact hylt
    have hid : p4est_quadrant_linear_id r q.level =
        p4est_quadrant_linear_id q q.level := by
      rw [p4est_quadrant_linear_id, p4est_quadrant_linear_id, hxeq, hyeq]
    rw [hid] at h
    have hlt := linear_id_lt q q.level hqlev
    omega

/-- Counterexample for C4: (i) the almost-sorted pair of corner-aliased
quadrants `(-2^26,-2^26,3), (-2^27,-2^27,2)` survives linearization out of
order, so the output is not sorted; (ii) the tree `[root, child0]` is not
complete but its linearization `[child0]` is, so the completeness
equivalence fails; (iii) a sorted linear two-quadrant tree with a stale
cached `maxlevel` is not returned unchanged (the cache is rebuilt). -/
theorem C4_counterexample :
    p4est_tree_is_almost_sorted
      ⟨[⟨2 ^ 32 - 2 ^ 26, 2 ^ 32 - 2 ^ 26, 3⟩, ⟨2 ^ 32 - 2 ^ 27, 2 ^ 32 - 2 ^ 27, 2⟩],
        [0, 0, 1, 1], 3⟩ false ∧
    ¬ p4est_tree_is_sorted (p4est_linearize_subtree
      ⟨[⟨2 ^ 32 - 2 ^ 26, 2 ^ 32 - 2 ^ 26, 3⟩, ⟨2 ^ 32 - 2 ^ 27, 2 ^ 32 - 2 ^ 27, 2⟩],
        [0, 0, 1, 1], 3⟩) ∧
    ¬ p4est_tree_is_complete (⟨[⟨0, 0, 0⟩, ⟨0, 0, 1⟩], [1, 1], 1⟩ : PTree) ∧
    p4est_tree_is_complete (p4est_linearize_subtree
      ⟨[⟨0, 0, 0⟩, ⟨0, 0, 1⟩], [1, 1], 1⟩) ∧
    p4est_tree_is_sorted (⟨[⟨0, 0, 1⟩, ⟨2 ^ 28, 0, 1⟩], [0, 2], 5⟩ : PTree) ∧
    p4est_tree_is_linear (⟨[⟨0, 0, 1⟩, ⟨2 ^ 28, 0, 1⟩], [0, 2], 5⟩ : PTree) ∧
    p4est_linearize_subtree (⟨[⟨0, 0, 1⟩, ⟨2 ^ 28, 0, 1⟩], [0, 2], 5⟩ : PTree) ≠
      ⟨[⟨0, 0, 1⟩, ⟨2 ^ 28, 0, 1⟩], [0, 2], 5⟩ := by
  refine ⟨by decide, by decide, by decide, by decide, by decide, by decide, by decide⟩

/-- **C4 (amended).** For a tree of extended in-range quadrants:
if the input quadrant sequence is nondecreasing in the comparison order
(which excludes the corner-aliased disorder that
`p4est_tree_is_almost_sorted` tolerates), the linearized tree is sorted and
linear; an input that is sorted and linear with a consistent cached
`maxlevel` is returned unchanged; and a complete input keeps its quadrant
sequence (hence stays complete) — the converse of the completeness claim is
false (see the counterexample). -/
theorem C4_theorem (tree : PTree)
    (hmem : ∀ q ∈ tree.quadrants, p4est_quadrant_is_extended q ∧ inExtendedRange q) :
    (List.Chain' (fun a b => p4est_quadrant_compare a b ≤ 0) tree.quadrants →
      p4est_tree_is_sorted (p4est_linearize_subtree tree) ∧
      p4est_tree_is_linear (p4est_linearize_subtree tree)) ∧
    (p4est_tree_is_linear tree →
      tree.maxlevel = rebuildMaxlevel tree.quadrants_per_level →
      p4est_linearize_subtree tree = tree) ∧
    (p4est_tree_is_complete tree →
      (p4est_linearize_subtree tree).quadrants = tree.quadrants ∧
      p4est_tree_is_complete (p4est_linearize_subtree tree)) := by
  obtain ⟨tq, tpl, tml⟩ := tree
  refine ⟨?_, ?_, ?_⟩
  · intro hchain
    rw [p4est_linearize_subtree]
    by_cases hlen : tq.length ≤ 1
    · rw [if_pos hlen]
      have hshort : ∀ (R : Quadrant → Quadrant → Prop), List.Chain' R tq := by
        intro R
        match tq, hlen with
        | [], _ => exact List.chain'_nil
        | [q], _ => exact List.chain'_singleton q
      exact ⟨hshort _, hshort _⟩
    · rw [if_neg hlen]
      obtain ⟨hch, _⟩ := linearizeStep_spec tq tpl hmem hchain
      exact ⟨chain'_imp_of_mem _ (fun a _ b _ h => h.1) hch, hch⟩
  · intro hlin hcache
    rw [p4est_linearize_subtree]
    by_cases hlen : tq.length ≤ 1
    · rw [if_pos hlen]
    · rw [if_neg hlen]
      have hchain2 : List.Chain'
          (fun a b => ¬ (a = b ∨ p4est_quadrant_is_ancestor a b)) tq := by
        apply chain'_imp_of_mem _ _ hlin
        rintro a _ b _ ⟨hlt, hna⟩ (heq | hanc)
        · rw [heq, compare_self] at hlt
          exact lt_irrefl 0 hlt
        · exact hna hanc
      rw [linearizeStep_noop tq tpl hchain2]
      show PTree.mk tq tpl (rebuildMaxlevel tpl) = PTree.mk tq tpl tml
      rw [PTree.mk.injEq]
      exact ⟨rfl, rfl, hcache.symm⟩
  · intro hcomp
    rw [p4est_linearize_subtree]
    by_cases hlen : tq.length ≤ 1
    · rw [if_pos hlen]
      exact ⟨rfl, hcomp⟩
    · rw [if_neg hlen]
      have hchain2 : List.Chain'
          (fun a b => ¬ (a = b ∨ p4est_quadrant_is_ancestor a b)) tq := by
        apply chain'_imp_of_mem _ _ hcomp
        intro a ha b hb h
        exact is_next_not_eq_anc a b (hmem a ha).1 (hmem b hb).1 h
      rw [linearizeStep_noop tq tpl hchain2]
      exact ⟨rfl, hcomp⟩

/-- Witness for C4: the four children of the root with consistent counters
`[0, 4]` and cached maxlevel `1`. -/
theorem C4_witness :
    (∀ q ∈ ([⟨0, 0, 1⟩, ⟨2 ^ 28, 0, 1⟩, ⟨0, 2 ^ 28, 1⟩, ⟨2 ^ 28, 2 ^ 28, 1⟩] :
        List Quadrant), p4est_quadrant_is_extended q ∧ inExtendedRange q) ∧
    (List.Chain' (fun a b => p4est_quadrant_compare a b ≤ 0)
        (⟨[⟨0, 0, 1⟩, ⟨2 ^ 28, 0, 1⟩, ⟨0, 2 ^ 28, 1⟩, ⟨2 ^ 28, 2 ^ 28, 1⟩], [0, 4], 1⟩ :
          PTree).quadrants →
      p4est_tree_is_sorted (p4est_linearize_subtree
        ⟨[⟨0, 0, 1⟩, ⟨2 ^ 28, 0, 1⟩, ⟨0, 2 ^ 28, 1⟩, ⟨2 ^ 28, 2 ^ 28, 1⟩], [0, 4], 1⟩) ∧
      p4est_tree_is_linear (p4est_linearize_subtree
        ⟨[⟨0, 0, 1⟩, ⟨2 ^ 28, 0, 1⟩, ⟨0, 2 ^ 28, 1⟩, ⟨2 ^ 28, 2 ^ 28, 1⟩], [0, 4], 1⟩)) ∧
    (p4est_tree_is_linear
        ⟨[⟨0, 0, 1⟩, ⟨2 ^ 28, 0, 1⟩, ⟨0, 2 ^ 28, 1⟩, ⟨2 ^ 28, 2 ^ 28, 1⟩], [0, 4], 1⟩ →
      (⟨[⟨0, 0, 1⟩, ⟨2 ^ 28, 0, 1⟩, ⟨0, 2 ^ 28, 1⟩, ⟨2 ^ 28, 2 ^ 28, 1⟩], [0, 4], 1⟩ :
        PTree).maxlevel = rebuildMaxlevel (⟨[⟨0, 0, 1⟩, ⟨2 ^ 28, 0, 1⟩, ⟨0, 2 ^ 28, 1⟩,
          ⟨2 ^ 28, 2 ^ 28, 1⟩], [0, 4], 1⟩ : PTree).quadrants_per_level →
      p4est_linearize_subtree
        ⟨[⟨0, 0, 1⟩, ⟨2 ^ 28, 0, 1⟩, ⟨0, 2 ^ 28, 1⟩, ⟨2 ^ 28, 2 ^ 28, 1⟩], [0, 4], 1⟩ =
        ⟨[⟨0, 0, 1⟩, ⟨2 ^ 28, 0, 1⟩, ⟨0, 2 ^ 28, 1⟩, ⟨2 ^ 28, 2 ^ 28, 1⟩], [0, 4], 1⟩) ∧
    (p4est_tree_is_complete
        ⟨[⟨0, 0, 1⟩, ⟨2 ^ 28, 0, 1⟩, ⟨0, 2 ^ 28, 1⟩, ⟨2 ^ 28, 2 ^ 28, 1⟩], [0, 4], 1⟩ →
      (p4est_linearize_subtree
        ⟨[⟨0, 0, 1⟩, ⟨2 ^ 28, 0, 1⟩, ⟨0, 2 ^ 28, 1⟩, ⟨2 ^ 28, 2 ^ 28, 1⟩],
          [0, 4], 1⟩).quadrants =
        (⟨[⟨0, 0, 1⟩, ⟨2 ^ 28, 0, 1⟩, ⟨0, 2 ^ 28, 1⟩, ⟨2 ^ 28, 2 ^ 28, 1⟩], [0, 4], 1⟩ :
          PTree).quadrants ∧
      p4est_tree_is_complete (p4est_linearize_subtree
        ⟨[⟨0, 0, 1⟩, ⟨2 ^ 28, 0, 1⟩, ⟨0, 2 ^ 28, 1⟩, ⟨2 ^ 28, 2 ^ 28, 1⟩], [0, 4], 1⟩)) :=
  ⟨by decide,
    C4_theorem ⟨[⟨0, 0, 1⟩, ⟨2 ^ 28, 0, 1⟩, ⟨0, 2 ^ 28, 1⟩, ⟨2 ^ 28, 2 ^ 28, 1⟩],
      [0, 4], 1⟩ (by decide)⟩

/-- **C10.** For every balance mode, `p4est_complete_or_balance` (hence
`p4est_complete_subtree` and `p4est_balance_subtree`) returns the tree
unchanged when it has at most one quadrant or no quadrant inside the root. -/
theorem C10_theorem (balance : Nat) (tree : PTree)
    (h : tree.quadrants.length ≤ 1 ∨
      ∀ q ∈ tree.quadrants, ¬ p4est_quadrant_is_inside q) :
    p4est_complete_or_balance balance tree = tree ∧
    p4est_complete_subtree tree = tree ∧
    p4est_balance_subtree tree = tree := by
  have hgen : ∀ b : Nat, p4est_complete_or_balance b tree = tree := by
    intro b
    rw [p4est_complete_or_balance]
    by_cases hlen : tree.quadrants.length ≤ 1
    · rw [if_pos hlen]
    · rw [if_neg hlen]
      have hout : ∀ q ∈ tree.quadrants, ¬ p4est_quadrant_is_inside q := by
        rcases h with h | h
        · exact absurd h hlen
        · exact h
      have hfind : tree.quadrants.findIdx?
          (fun q => decide (p4est_quadrant_is_inside q)) = none := by
        rw [List.findIdx?_eq_none_iff]
        intro x hx
        exact decide_eq_false (hout x hx)
      rw [hfind]
  exact ⟨hgen balance, hgen 0, hgen 2⟩

/-- Witness for C10: a two-quadrant tree whose quadrants both lie outside
the root. -/
theorem C10_witness :
    ((⟨[⟨2 ^ 32 - 2 ^ 29, 0, 1⟩, ⟨0, 2 ^ 32 - 2 ^ 29, 1⟩], [0, 2], 1⟩ :
        PTree).quadrants.length ≤ 1 ∨
      ∀ q ∈ (⟨[⟨2 ^ 32 - 2 ^ 29, 0, 1⟩, ⟨0, 2 ^ 32 - 2 ^ 29, 1⟩], [0, 2], 1⟩ :
        PTree).quadrants, ¬ p4est_quadrant_is_inside q) ∧
    (p4est_complete_or_balance 1
        ⟨[⟨2 ^ 32 - 2 ^ 29, 0, 1⟩, ⟨0, 2 ^ 32 - 2 ^ 29, 1⟩], [0, 2], 1⟩ =
      ⟨[⟨2 ^ 32 - 2 ^ 29, 0, 1⟩, ⟨0, 2 ^ 32 - 2 ^ 29, 1⟩], [0, 2], 1⟩ ∧
    p4est_complete_subtree
        ⟨[⟨2 ^ 32 - 2 ^ 29, 0, 1⟩, ⟨0, 2 ^ 32 - 2 ^ 29, 1⟩], [0, 2], 1⟩ =
      ⟨[⟨2 ^ 32 - 2 ^ 29, 0, 1⟩, ⟨0, 2 ^ 32 - 2 ^ 29, 1⟩], [0, 2], 1⟩ ∧
    p4est_balance_subtree
        ⟨[⟨2 ^ 32 - 2 ^ 29, 0, 1⟩, ⟨0, 2 ^ 32 - 2 ^ 29, 1⟩], [0, 2], 1⟩ =
      ⟨[⟨2 ^ 32 - 2 ^ 29, 0, 1⟩, ⟨0, 2 ^ 32 - 2 ^ 29, 1⟩], [0, 2], 1⟩) :=
  ⟨Or.inr (by decide),
    C10_theorem 1 ⟨[⟨2 ^ 32 - 2 ^ 29, 0, 1⟩, ⟨0, 2 ^ 32 - 2 ^ 29, 1⟩], [0, 2], 1⟩
      (Or.inr (by decide))⟩

theorem insertByCompare_perm {α : Type} (cmp : α → α → Int) (a : α) :
    ∀ l : List α, (insertByCompare cmp a l).Perm (a :: l) := by
  intro l
  induction l with
  | nil => exact List.Perm.refl _
  | cons b rest ih =>
    rw [insertByCompare]
    by_cases hc : cmp a b ≤ 0
    · rw [if_pos hc]
    · rw [if_neg hc]
      exact List.Perm.trans (List.Perm.cons b ih) (List.Perm.swap a b rest)

theorem sortByCompare_perm {α : Type} (cmp : α → α → Int) :
    ∀ l : List α, (sortByCompare cmp l).Perm l := by
  intro l
  induction l with
  | nil => exact List.Perm.refl _
  | cons a rest ih =>
    rw [sortByCompare]
    exact List.Perm.trans (insertByCompare_perm cmp a _) (List.Perm.cons a ih)

theorem insertByCompare_chain {α : Type} (cmp : α → α → Int) (a : α) :
    ∀ l : List α,
    (∀ x ∈ a :: l, ∀ y ∈ a :: l, cmp x y ≤ 0 ∨ cmp y x ≤ 0) →
    List.Chain' (fun x y => cmp x y ≤ 0) l →
    List.Chain' (fun x y => cmp x y ≤ 0) (insertByCompare cmp a l) := by
  intro l
  induction l with
  | nil =>
    intro _ _
    exact List.chain'_singleton a
  | cons b rest ih =>
    intro htot h
    rw [insertByCompare]
    by_cases hc : cmp a b ≤ 0
    · rw [if_pos hc]
      exact List.chain'_cons.mpr ⟨hc, h⟩
    · rw [if_neg hc]
      have hba : cmp b a ≤ 0 := by
        rcases htot a (List.mem_cons_self a _) b
          (List.mem_cons_of_mem a (List.mem_cons_self b _)) with h' | h'
        · exact absurd h' hc
        · exact h'
      obtain ⟨hbr, hrest⟩ := List.chain'_cons'.mp h
      rw [List.chain'_cons']
      constructor
      · intro c hcm
        rw [Option.mem_def] at hcm
        cases rest with
        | nil =>
          have : c = a := by
            rw [insertByCompare] at hcm
            exact (Option.some.inj hcm).symm
          rw [this]
          exact hba
        | cons d rest2 =>
          rw [insertByCompare] at hcm
          by_cases hc2 : cmp a d ≤ 0
          · rw [if_pos hc2] at hcm
            have : c = a := (Option.some.inj hcm).symm
            rw [this]
            exact hba
          · rw [if_neg hc2] at hcm
            have : c = d := (Option.some.inj hcm).symm
            rw [this]
            exact hbr d rfl
      · apply ih
        · intro x hx y hy
          rcases List.mem_cons.mp hx with hx | hx
          · rcases List.mem_cons.mp hy with hy | hy
            · rw [hx, hy]
              exact htot a (List.mem_cons_self a _) a (List.mem_cons_self a _)
            · rw [hx]
              exact htot a (List.mem_cons_self a _) y
                (List.mem_cons_of_mem a (List.mem_cons_of_mem b hy))
          · rcases List.mem_cons.mp hy with hy | hy
            · rw [hy]
              exact htot x (List.mem_cons_of_mem a (List.mem_cons_of_mem b hx)) a
                (List.mem_cons_self a _)
            · exact htot x (List.mem_cons_of_mem a (List.mem_cons_of_mem b hx)) y
                (List.mem_cons_of_mem a (List.mem_cons_of_mem b hy))
        · exact hrest

theorem sortByCompare_chain {α : Type} (cmp : α → α → Int) :
    ∀ l : List α,
    (∀ x ∈ l, ∀ y ∈ l, cmp x y ≤ 0 ∨ cmp y x ≤ 0) →
    List.Chain' (fun x y => cmp x y ≤ 0) (sortByCompare cmp l) := by
  intro l
  induction l with
  | nil =>
    intro _
    exact List.chain'_nil
  | cons a rest ih =>
    intro htot
    rw [sortByCompare]
    apply insertByCompare_chain
    · intro x hx y hy
      have hmem : ∀ z, z ∈ a :: sortByCompare cmp rest → z ∈ a :: rest := by
        intro z hz
        rcases List.mem_cons.mp hz with hz | hz
        · rw [hz]
          exact List.mem_cons_self a _
        · exact List.mem_cons_of_mem a ((sortByCompare_perm cmp rest).mem_iff.mp hz)
      exact htot x (hmem x hx) y (hmem y hy)
    · exact ih (fun x hx y hy => htot x (List.mem_cons_of_mem a hx)
        y (List.mem_cons_of_mem a hy))

theorem uniqifyPass_sublist (na : List PiggyQuadrant) :
    ∀ l : List PiggyQuadrant, (uniqifyPass na l).Sublist l := by
  intro l
  induction l with
  | nil => simp [uniqifyPass]
  | cons q1 t ih =>
    cases t with
    | nil =>
      rw [uniqifyPass]
      by_cases hc : scArrayContains p4est_quadrant_compare_piggy na q1 = true
      · rw [if_pos hc]
        exact List.nil_sublist _
      · rw [if_neg hc]
    | cons q2 rest =>
      rw [uniqifyPass]
      by_cases hc1 : q1.quad = q2.quad
      · rw [if_pos hc1]
        exact ih.cons q1
      · rw [if_neg hc1]
        by_cases hc2 : scArrayContains p4est_quadrant_compare_piggy na q1 = true
        · rw [if_pos hc2]
          exact ih.cons q1
        · rw [if_neg hc2]
          exact ih.cons₂ q1

theorem uniqifyPass_spec (na : List PiggyQuadrant) :
    ∀ l : List PiggyQuadrant,
    (∀ p ∈ l, p4est_quadrant_is_extended p.quad ∧ inExtendedRange p.quad) →
    List.Chain' (fun a b => p4est_quadrant_compare a.quad b.quad ≤ 0) l →
    List.Chain' (fun a b => p4est_quadrant_compare a.quad b.quad < 0)
      (uniqifyPass na l) ∧
    (∀ a b, l.head? = some a → (uniqifyPass na l).head? = some b →
      p4est_quadrant_compare a.quad b.quad ≤ 0) ∧
    (∀ p ∈ uniqifyPass na l,
      scArrayContains p4est_quadrant_compare_piggy na p = false) ∧
    (∀ p ∈ l, (∃ s ∈ uniqifyPass na l, s.quad = p.quad) ∨
      (∃ s ∈ l, s.quad = p.quad ∧
        scArrayContains p4est_quadrant_compare_piggy na s = true)) := by
  intro l
  induction l with
  | nil =>
    intro _ _
    refine ⟨List.chain'_nil, ?_, ?_, ?_⟩
    · intro a b ha _
      simp at ha
    · intro p hp
      simp [uniqifyPass] at hp
    · intro p hp
      simp at hp
  | cons q1 t ih =>
    intro hmem hchain
    cases t with
    | nil =>
      rw [uniqifyPass]
      by_cases hc : scArrayContains p4est_quadrant_compare_piggy na q1 = true
      · rw [if_pos hc]
        refine ⟨List.chain'_nil, ?_, ?_, ?_⟩
        · intro a b _ hb
          simp at hb
        · intro p hp
          simp at hp
        · intro p hp
          rcases List.mem_cons.mp hp with hp | hp
          · right
            exact ⟨q1, List.mem_cons_self q1 _, by rw [hp], hc⟩
          · simp at hp
      · rw [if_neg hc]
        refine ⟨List.chain'_singleton q1, ?_, ?_, ?_⟩
        · intro a b ha hb
          have ha2 : q1 = a := Option.some.inj ha
          have hb2 : q1 = b := Option.some.inj hb
          rw [← ha2, ← hb2, compare_self]
        · intro p hp
          rcases List.mem_cons.mp hp with hp | hp
          · rw [hp]
            exact Bool.eq_false_iff.mpr hc
          · simp at hp
        · intro p hp
          rcases List.mem_cons.mp hp with hp | hp
          · left
            exact ⟨q1, List.mem_cons_self q1 _, by rw [hp]⟩
          · simp at hp
    | cons q2 rest =>
      obtain ⟨h12, hrest⟩ := List.chain'_cons.mp hchain
      have hmem2 : ∀ p ∈ q2 :: rest,
          p4est_quadrant_is_extended p.quad ∧ inExtendedRange p.quad :=
        fun p hp => hmem p (List.mem_cons_of_mem q1 hp)
      have hq1m := hmem q1 (List.mem_cons_self q1 _)
      have hq2m := hmem q2 (List.mem_cons_of_mem q1 (List.mem_cons_self q2 _))
      obtain ⟨hch, hhd, hnc, hrep⟩ := ih hmem2 hrest
      have hheadle : ∀ b, (uniqifyPass na (q2 :: rest)).head? = some b →
          p4est_quadrant_compare q1.quad b.quad ≤ 0 := by
        intro b hb
        have hbmem : b ∈ q2 :: rest :=
          (uniqifyPass_sublist na (q2 :: rest)).subset
            (List.mem_of_mem_head? hb)
        have hbm := hmem2 b hbmem
        have h2b := hhd q2 b rfl hb
        exact compare_le_trans q1.quad q2.quad b.quad hq1m.1 hq2m.1 hbm.1
          hq1m.2 hq2m.2 hbm.2 h12 h2b
      rw [uniqifyPass]
      by_cases hc1 : q1.quad = q2.quad
      · rw [if_pos hc1]
        refine ⟨hch, ?_, hnc, ?_⟩
        · intro a b ha hb
          have ha2 : q1 = a := Option.some.inj ha
          rw [← ha2]
          exact hheadle b hb
        · intro p hp
          rcases List.mem_cons.mp hp with hp | hp
          · rcases hrep q2 (List.mem_cons_self q2 _) with ⟨s, hs, hsq⟩ | ⟨s, hs, hsq, hsc⟩
            · left
              exact ⟨s, hs, by rw [hsq, ← hc1, ← hp]⟩
            · right
              exact ⟨s, List.mem_cons_of_mem q1 hs, by rw [hsq, ← hc1, ← hp], hsc⟩
          · rcases hrep p hp with ⟨s, hs, hsq⟩ | ⟨s, hs, hsq, hsc⟩
            · left
              exact ⟨s, hs, hsq⟩
            · right
              exact ⟨s, List.mem_cons_of_mem q1 hs, hsq, hsc⟩
      · rw [if_neg hc1]
        by_cases hc2 : scArrayContains p4est_quadrant_compare_piggy na q1 = true
        · rw [if_pos hc2]
          refine ⟨hch, ?_, hnc, ?_⟩
          · intro a b ha hb
            have ha2 : q1 = a := Option.some.inj ha
            rw [← ha2]
            exact hheadle b hb
          · intro p hp
            rcases List.mem_cons.mp hp with hp | hp
            · right
              exact ⟨q1, List.mem_cons_self q1 _, by rw [hp], hc2⟩
            · rcases hrep p hp with ⟨s, hs, hsq⟩ | ⟨s, hs, hsq, hsc⟩
              · left
                exact ⟨s, hs, hsq⟩
              · right
                exact ⟨s, List.mem_cons_of_mem q1 hs, hsq, hsc⟩
        · rw [if_neg hc2]
          have h12lt : p4est_quadrant_compare q1.quad q2.quad < 0 := by
            rcases lt_or_eq_of_le h12 with h | h
            · exact h
            · exact absurd ((compare_eq_iff q1.quad q2.quad hq1m.1 hq2m.1
                hq1m.2 hq2m.2).1 h) hc1
          refine ⟨?_, ?_, ?_, ?_⟩
          · rw [List.chain'_cons']
            refine ⟨?_, hch⟩
            intro b hb
            rw [Option.mem_def] at hb
            have hbmem : b ∈ q2 :: rest :=
              (uniqifyPass_sublist na (q2 :: rest)).subset
                (List.mem_of_mem_head? hb)
            have hbm := hmem2 b hbmem
            have h2b := hhd q2 b rfl hb
            exact compare_lt_of_lt_of_le q1.quad q2.quad b.quad hq1m.1 hq2m.1
              hbm.1 hq1m.2 hq2m.2 hbm.2 h12lt h2b
          · intro a b ha hb
            have ha2 : q1 = a := Option.some.inj ha
            have hb2 : q1 = b := Option.some.inj hb
            rw [← ha2, ← hb2, compare_self]
          · intro p hp
            rcases List.mem_cons.mp hp with hp | hp
            · rw [hp]
              exact Bool.eq_false_iff.mpr hc2
            · exact hnc p hp
          · intro p hp
            rcases List.mem_cons.mp hp with hp | hp
            · left
              exact ⟨q1, List.mem_cons_self q1 _, by rw [hp]⟩
            · rcases hrep p hp with ⟨s, hs, hsq⟩ | ⟨s, hs, hsq, hsc⟩
              · left
                exact ⟨s, List.mem_cons_of_mem q1 hs, hsq⟩
              · right
                exact ⟨s, List.mem_cons_of_mem q1 hs, hsq, hsc⟩

/-- Counterexample for C8: the comparator used by the sort and by the
duplicate test reads only the quadrant coordinates, not the piggy tree
index.  (i) Two elements with distinct tree indices in reverse piggy order
stay in plain Morton order, so the result is not sorted by the
piggy-extended order.  (ii) Two elements carrying the same quadrant but
different tree indices are treated as duplicates: one of them is removed
although it is no piggy duplicate and absent from the `not` filter. -/
theorem C8_counterexample :
    p4est_tree_uniqify_overlap [] [⟨⟨0, 0, 1⟩, 5⟩, ⟨⟨2 ^ 28, 0, 1⟩, 3⟩] =
      [⟨⟨0, 0, 1⟩, 5⟩, ⟨⟨2 ^ 28, 0, 1⟩, 3⟩] ∧
    0 < p4est_quadrant_compare_piggy ⟨⟨0, 0, 1⟩, 5⟩ ⟨⟨2 ^ 28, 0, 1⟩, 3⟩ ∧
    (⟨⟨0, 0, 1⟩, 0⟩ : PiggyQuadrant) ∉
      p4est_tree_uniqify_overlap [] [⟨⟨0, 0, 1⟩, 0⟩, ⟨⟨0, 0, 1⟩, 1⟩] ∧
    scArrayContains p4est_quadrant_compare_piggy ([] : List PiggyQuadrant)
      ⟨⟨0, 0, 1⟩, 0⟩ = false := by
  refine ⟨by decide, by decide, by decide⟩

/-- **C8 (amended).** `p4est_tree_uniqify_overlap` sorts `out` by the plain
quadrant comparison (the piggy tree index participates neither in the sort
nor in the duplicate test), keeps the last element of every run of
coordinate-equal elements, and drops the survivors that the `not` array
contains under the piggy comparison: the result is strictly sorted in the
plain order, every result element comes from `out` and is not piggy-present
in `not`, and every `out` element either has a coordinate-equal
representative in the result or a coordinate-equal witness in `out` that is
piggy-present in `not`. -/
theorem C8_theorem (na out : List PiggyQuadrant)
    (hmem : ∀ p ∈ out, p4est_quadrant_is_extended p.quad ∧ inExtendedRange p.quad) :
    List.Chain' (fun a b => p4est_quadrant_compare a.quad b.quad < 0)
      (p4est_tree_uniqify_overlap na out) ∧
    (∀ p ∈ p4est_tree_uniqify_overlap na out, p ∈ out ∧
      scArrayContains p4est_quadrant_compare_piggy na p = false) ∧
    (∀ p ∈ out, (∃ s ∈ p4est_tree_uniqify_overlap na out, s.quad = p.quad) ∨
      (∃ s ∈ out, s.quad = p.quad ∧
        scArrayContains p4est_quadrant_compare_piggy na s = true)) := by
  have hperm := sortByCompare_perm
    (fun a b => p4est_quadrant_compare a.quad b.quad) out
  have hmems : ∀ p ∈ sortByCompare
      (fun a b => p4est_quadrant_compare a.quad b.quad) out,
      p4est_quadrant_is_extended p.quad ∧ inExtendedRange p.quad :=
    fun p hp => hmem p (hperm.mem_iff.mp hp)
  have hchain2 : List.Chain' (fun a b => p4est_quadrant_compare a.quad b.quad ≤ 0)
      (sortByCompare (fun a b => p4est_quadrant_compare a.quad b.quad) out) := by
    apply sortByCompare_chain
    intro x hx y hy
    exact compare_total x.quad y.quad (hmem x hx).1 (hmem y hy).1
      (hmem x hx).2 (hmem y hy).2
  obtain ⟨hch, _, hnc, hrep⟩ := uniqifyPass_spec na _ hmems hchain2
  refine ⟨hch, ?_, ?_⟩
  · intro p hp
    refine ⟨?_, hnc p hp⟩
    exact hperm.mem_iff.mp ((uniqifyPass_sublist na _).subset hp)
  · intro p hp
    have hp2 : p ∈ sortByCompare
        (fun a b => p4est_quadrant_compare a.quad b.quad) out :=
      hperm.mem_iff.mpr hp
    rcases hrep p hp2 with ⟨s, hs, hsq⟩ | ⟨s, hs, hsq, hsc⟩
    · left
      exact ⟨s, hs, hsq⟩
    · right
      exact ⟨s, hperm.mem_iff.mp hs, hsq, hsc⟩

/-- Witness for C8: `out` holds a duplicated quadrant pair (same tree) and a
third quadrant filtered by `not`. -/
theorem C8_witness :
    (∀ p ∈ [(⟨⟨0, 0, 1⟩, 0⟩ : PiggyQuadrant), ⟨⟨0, 0, 1⟩, 0⟩,
        ⟨⟨2 ^ 28, 0, 1⟩, 0⟩],
      p4est_quadrant_is_extended p.quad ∧ inExtendedRange p.quad) ∧
    (List.Chain' (fun a b => p4est_quadrant_compare a.quad b.quad < 0)
      (p4est_tree_uniqify_overlap [⟨⟨2 ^ 28, 0, 1⟩, 0⟩]
        [⟨⟨0, 0, 1⟩, 0⟩, ⟨⟨0, 0, 1⟩, 0⟩, ⟨⟨2 ^ 28, 0, 1⟩, 0⟩]) ∧
    (∀ p ∈ p4est_tree_uniqify_overlap [⟨⟨2 ^ 28, 0, 1⟩, 0⟩]
        [⟨⟨0, 0, 1⟩, 0⟩, ⟨⟨0, 0, 1⟩, 0⟩, ⟨⟨2 ^ 28, 0, 1⟩, 0⟩],
      p ∈ [(⟨⟨0, 0, 1⟩, 0⟩ : PiggyQuadrant), ⟨⟨0, 0, 1⟩, 0⟩, ⟨⟨2 ^ 28, 0, 1⟩, 0⟩] ∧
      scArrayContains p4est_quadrant_compare_piggy [⟨⟨2 ^ 28, 0, 1⟩, 0⟩] p = false) ∧
    (∀ p ∈ [(⟨⟨0, 0, 1⟩, 0⟩ : PiggyQuadrant), ⟨⟨0, 0, 1⟩, 0⟩, ⟨⟨2 ^ 28, 0, 1⟩, 0⟩],
      (∃ s ∈ p4est_tree_uniqify_overlap [⟨⟨2 ^ 28, 0, 1⟩, 0⟩]
        [⟨⟨0, 0, 1⟩, 0⟩, ⟨⟨0, 0, 1⟩, 0⟩, ⟨⟨2 ^ 28, 0, 1⟩, 0⟩], s.quad = p.quad) ∨
      (∃ s ∈ [(⟨⟨0, 0, 1⟩, 0⟩ : PiggyQuadrant), ⟨⟨0, 0, 1⟩, 0⟩, ⟨⟨2 ^ 28, 0, 1⟩, 0⟩],
        s.quad = p.quad ∧
        scArrayContains p4est_quadrant_compare_piggy [⟨⟨2 ^ 28, 0, 1⟩, 0⟩] s = true))) :=
  ⟨by decide,
    C8_theorem [⟨⟨2 ^ 28, 0, 1⟩, 0⟩]
      [⟨⟨0, 0, 1⟩, 0⟩, ⟨⟨0, 0, 1⟩, 0⟩, ⟨⟨2 ^ 28, 0, 1⟩, 0⟩] (by decide)⟩

theorem sliceG_empty (G : List Quadrant) (b e : Int) (h : ¬ b ≤ e) :
    sliceG G b e = [] := by
  rw [sliceG, if_neg h]

theorem sliceG_append (G : List Quadrant) (b m e : Int) (hb : 0 ≤ b)
    (hbm : b ≤ m + 1) (hme : m ≤ e) :
    sliceG G b m ++ sliceG G (m + 1) e = sliceG G b e := by
  by_cases hbm2 : b ≤ m
  · by_cases hme2 : m + 1 ≤ e
    · rw [sliceG, if_pos hbm2, sliceG, if_pos hme2, sliceG, if_pos (by omega)]
      have hx : (e - b + 1).toNat = (m - b + 1).toNat + (e - (m + 1) + 1).toNat := by
        omega
      rw [hx, List.take_add, List.drop_drop]
      first
      | rw [show (m - b + 1).toNat + b.toNat = (m + 1).toNat from by omega]
      | rw [show b.toNat + (m - b + 1).toNat = (m + 1).toNat from by omega]
    · have hem : e = m := by omega
      rw [hem, sliceG_empty G (m + 1) m (by omega), List.append_nil]
  · have hbm3 : b = m + 1 := by omega
    rw [sliceG_empty G b m (by omega), List.nil_append, hbm3]

theorem slice_glue (G : List Quadrant) (mb me b w e2 : Int) (hmb : 0 ≤ mb)
    (hbw : b ≤ w + 1) (hwe : w ≤ e2) :
    sliceG G (max mb b) (min me w) ++ sliceG G (max mb (w + 1)) (min me e2) =
    sliceG G (max mb b) (min me e2) := by
  by_cases hme : me < w
  · have h1 : min me w = me := by omega
    have h2 : min me e2 = me := by omega
    rw [h1, h2, sliceG_empty G (max mb (w + 1)) me (by omega), List.append_nil]
  · by_cases hmb2 : w + 1 < mb
    · have h1 : ¬ max mb b ≤ min me w := by omega
      have h2 : max mb (w + 1) = mb := by omega
      have h3 : max mb b = mb := by omega
      rw [sliceG_empty G _ _ h1, List.nil_append, h2, h3]
    · have h1 : min me w = w := by omega
      have h2 : max mb (w + 1) = w + 1 := by omega
      rw [h1, h2]
      exact sliceG_append G (max mb b) w (min me e2) (by omega) (by omega) (by omega)

theorem sliceG_length (G : List Quadrant) (b e : Int) (hb : 0 ≤ b)
    (hbe : b ≤ e + 1) (he : e < (G.length : Int)) :
    ((sliceG G b e).length : Int) = e + 1 - b := by
  by_cases h : b ≤ e
  · rw [sliceG, if_pos h, List.length_take, List.length_drop]
    have h1 := List.length_drop b.toNat G
    omega
  · rw [sliceG, if_neg h]
    simp only [List.length_nil]
    omega

theorem sliceG_all (G : List Quadrant) :
    sliceG G 0 ((G.length : Int) - 1) = G := by
  by_cases h : (0 : Int) ≤ (G.length : Int) - 1
  · rw [sliceG, if_pos h]
    have h1 : ((0 : Int)).toNat = 0 := rfl
    have h2 : ((G.length : Int) - 1 - 0 + 1).toNat = G.length := by omega
    rw [h1, h2, List.drop_zero, List.take_length]
  · have hlen : G.length = 0 := by omega
    rw [sliceG, if_neg h]
    exact (List.eq_nil_of_length_eq_zero hlen).symm

theorem newLastIndexLoop_length (req : List Int) :
    ∀ prev : Int, (newLastIndexLoop prev req).length = req.length := by
  induction req with
  | nil =>
    intro prev
    rfl
  | cons r rest ih =>
    intro prev
    rw [newLastIndexLoop, List.length_cons, List.length_cons, ih]

theorem newLastIndexLoop_getD (req : List Int) :
    ∀ (prev : Int) (p : Nat), p < req.length →
    (newLastIndexLoop prev req).getD p 0 = prev + (req.take (p + 1)).sum := by
  induction req with
  | nil =>
    intro prev p hp
    simp at hp
  | cons r rest ih =>
    intro prev p hp
    cases p with
    | zero =>
      rw [newLastIndexLoop]
      simp [List.take]
      ring
    | succ p2 =>
      rw [newLastIndexLoop]
      have hstep := ih (r + prev) p2 (by simpa using hp)
      have hts : ((r :: rest).take (p2 + 1 + 1)).sum = r + (rest.take (p2 + 1)).sum := by
        rw [List.take_succ_cons, List.sum_cons]
      calc (((r + prev) :: newLastIndexLoop (r + prev) rest).getD (p2 + 1) 0)
          = (newLastIndexLoop (r + prev) rest).getD p2 0 := rfl
        _ = r + prev + (rest.take (p2 + 1)).sum := hstep
        _ = prev + ((r :: rest).take (p2 + 1 + 1)).sum := by
            rw [hts]
            ring

theorem procBegin_ngl (req : List Int) (r : Nat) (hr : r ≤ req.length) :
    procBegin (new_global_last_quad_index req) r = (req.take r).sum := by
  cases r with
  | zero =>
    rw [procBegin, if_pos rfl]
    simp
  | succ r2 =>
    rw [procBegin, if_neg (Nat.succ_ne_zero r2)]
    rw [new_global_last_quad_index]
    have := newLastIndexLoop_getD req (-1) r2 (by omega)
    rw [Nat.succ_sub_one, this]
    ring

theorem procEnd_ngl (req : List Int) (r : Nat) (hr : r < req.length) :
    procEnd (new_global_last_quad_index req) r = (req.take (r + 1)).sum - 1 := by
  rw [procEnd, new_global_last_quad_index, newLastIndexLoop_getD req (-1) r hr]
  ring

theorem take_sum_nonneg (req : List Int) (hreq : ∀ x ∈ req, 0 ≤ x) (r : Nat) :
    0 ≤ (req.take r).sum :=
  List.sum_nonneg (fun x hx => hreq x (List.mem_of_mem_take hx))

theorem take_sum_le (req : List Int) (hreq : ∀ x ∈ req, 0 ≤ x) (r : Nat) :
    (req.take r).sum ≤ req.sum := by
  have hsplit : req.take r ++ req.drop r = req := List.take_append_drop r req
  have hdrop : 0 ≤ (req.drop r).sum :=
    List.sum_nonneg (fun x hx => hreq x (List.mem_of_mem_drop hx))
  have : (req.take r).sum + (req.drop r).sum = req.sum := by
    rw [← List.sum_append, hsplit]
  omega

theorem take_sum_succ (req : List Int) (r : Nat) (hr : r < req.length) :
    (req.take (r + 1)).sum = (req.take r).sum + req.getD r 0 := by
  have h := List.sum_take_succ req r hr
  rw [h, List.getD_eq_getElem req 0 hr]

theorem procEnd_mono (gl : List Int) :
    ∀ (d p : Nat),
    (∀ t, p < t → t ≤ p + d → procBegin gl t ≤ procEnd gl t + 1) →
    procEnd gl p ≤ procEnd gl (p + d) := by
  intro d
  induction d with
  | zero =>
    intro p _
    exact le_refl _
  | succ d2 ih =>
    intro p hv
    have h1 : procEnd gl p ≤ procEnd gl (p + d2) :=
      ih p (fun t ht1 ht2 => hv t ht1 (by omega))
    have h2 : procBegin gl (p + d2 + 1) ≤ procEnd gl (p + d2 + 1) + 1 :=
      hv (p + d2 + 1) (by omega) (by omega)
    have h3 : procBegin gl (p + d2 + 1) = procEnd gl (p + d2) + 1 := by
      rw [procBegin, if_neg (Nat.succ_ne_zero _), Nat.succ_sub_one]
      rfl
    have heq : p + (d2 + 1) = p + d2 + 1 := by omega
    rw [heq]
    omega

theorem overlap_if_eq (G : List Quadrant) (mb me fb fe : Int) :
    (if fb ≤ me ∧ mb ≤ fe then sliceG G (max mb fb) (min me fe) else []) =
    sliceG G (max mb fb) (min me fe) := by
  by_cases hc : fb ≤ me ∧ mb ≤ fe
  · rw [if_pos hc]
  · rw [if_neg hc]
    push_neg at hc
    by_cases h1 : fb ≤ me
    · have := hc h1
      exact (sliceG_empty G _ _ (by omega)).symm
    · exact (sliceG_empty G _ _ (by omega)).symm

theorem overlap_tile (G : List Quadrant) (gl : List Int) (mb me : Int)
    (hmb : 0 ≤ mb) :
    ∀ k i : Nat, 0 < k →
    (∀ p, i ≤ p → p < i + k → procBegin gl p ≤ procEnd gl p + 1) →
    ((List.range' i k).flatMap (fun fp =>
      if procBegin gl fp ≤ me ∧ mb ≤ procEnd gl fp then
        sliceG G (max mb (procBegin gl fp)) (min me (procEnd gl fp))
      else []))
    = sliceG G (max mb (procBegin gl i)) (min me (procEnd gl (i + k - 1))) := by
  intro k
  induction k with
  | zero =>
    intro i hk _
    exact absurd hk (lt_irrefl 0)
  | succ k2 ih =>
    intro i _ hv
    cases Nat.eq_zero_or_pos k2 with
    | inl hk0 =>
      subst hk0
      show (if _ then _ else []) ++ [].flatMap _ =
        sliceG G (max mb (procBegin gl i)) (min me (procEnd gl (i + 1 - 1)))
      rw [List.flatMap_nil, List.append_nil, overlap_if_eq]
      have : i + 1 - 1 = i := by omega
      rw [this]
    | inr hk2 =>
      show (if _ then _ else []) ++ (List.range' (i + 1) k2).flatMap _ =
        sliceG G (max mb (procBegin gl i)) (min me (procEnd gl (i + (k2 + 1) - 1)))
      rw [overlap_if_eq,
        ih (i + 1) hk2 (fun p hp1 hp2 => hv p (by omega) (by omega))]
      have hb1 : procBegin gl (i + 1) = procEnd gl i + 1 := by
        rw [procBegin, if_neg (Nat.succ_ne_zero _), Nat.succ_sub_one]
        rfl
      have hmono : procEnd gl i ≤ procEnd gl (i + 1 + k2 - 1) := by
        have hm := procEnd_mono gl k2 i
        have heq : i + k2 = i + 1 + k2 - 1 := by omega
        rw [heq] at hm
        apply hm
        intro t ht1 ht2
        exact hv t (by omega) (by omega)
      have hbv : procBegin gl i ≤ procEnd gl i + 1 :=
        hv i (le_refl i) (by omega)
      rw [hb1]
      have heq2 : i + 1 + k2 - 1 = i + (k2 + 1) - 1 := by omega
      rw [heq2] at hmono ⊢
      exact slice_glue G mb me (procBegin gl i) (procEnd gl i)
        (procEnd gl (i + (k2 + 1) - 1)) hmb hbv hmono

theorem flatMap_congr {α β : Type} (l : List α) (f g : α → List β)
    (h : ∀ x ∈ l, f x = g x) : l.flatMap f = l.flatMap g := by
  induction l with
  | nil => rfl
  | cons a t ih =>
    rw [List.flatMap_cons, List.flatMap_cons, h a (List.mem_cons_self a t),
      ih (fun x hx => h x (List.mem_cons_of_mem a hx))]

/-- **C2.** Under a valid request (`req[p] ≥ 0`, `Σ req = |G|`) and a valid
old ownership prefix-sum array `gl`, `p4est_partition_given` redistributes
the unchanged global quadrant sequence: the concatenation of the new local
sequences is the old global sequence (hence the checksum word stream, and
with it the forest checksum, is unchanged), and process `p` ends up with
exactly `req[p]` quadrants. -/
theorem C2_theorem (G : List Quadrant) (gl req : List Int) (nprocs : Nat)
    (hnp : 0 < nprocs)
    (hreq_len : req.length = nprocs)
    (hreq_nonneg : ∀ r ∈ req, 0 ≤ r)
    (hreq_sum : req.sum = (G.length : Int))
    (hgl_valid : ∀ p : Nat, p < nprocs → procBegin gl p ≤ procEnd gl p + 1)
    (hgl_last : procEnd gl (nprocs - 1) = (G.length : Int) - 1) :
    ((List.range nprocs).flatMap
      (fun rank => p4est_partition_given G gl req nprocs rank)) = G ∧
    checksumWords ((List.range nprocs).flatMap
      (fun rank => p4est_partition_given G gl req nprocs rank)) =
      checksumWords G ∧
    (∀ p : Nat, p < nprocs →
      ((p4est_partition_given G gl req nprocs p).length : Int) = req.getD p 0) := by
  have hb0 : ∀ glx : List Int, procBegin glx 0 = 0 := fun glx => rfl
  have h0n : 0 + nprocs - 1 = nprocs - 1 := by omega
  have hrank : ∀ rank : Nat, rank < nprocs →
      p4est_partition_given G gl req nprocs rank =
      sliceG G ((req.take rank).sum) ((req.take (rank + 1)).sum - 1) := by
    intro rank hrank
    have hmbv : procBegin (new_global_last_quad_index req) rank =
        (req.take rank).sum := procBegin_ngl req rank (by omega)
    have hmev : procEnd (new_global_last_quad_index req) rank =
        (req.take (rank + 1)).sum - 1 := procEnd_ngl req rank (by omega)
    have hmbnn : 0 ≤ (req.take rank).sum := take_sum_nonneg req hreq_nonneg rank
    have hmele : (req.take (rank + 1)).sum - 1 ≤ (G.length : Int) - 1 := by
      have := take_sum_le req hreq_nonneg (rank + 1)
      omega
    rw [p4est_partition_given, partitionNewLocal, List.range_eq_range']
    rw [overlap_tile G gl (procBegin (new_global_last_quad_index req) rank)
      (procEnd (new_global_last_quad_index req) rank)
      (by rw [hmbv]; exact hmbnn) nprocs 0 hnp
      (fun p hp1 hp2 => hgl_valid p (by omega))]
    rw [h0n, hb0 gl, hgl_last, hmbv, hmev]
    rw [max_eq_left hmbnn, min_eq_left hmele]
  have hvalid_ngl : ∀ p : Nat, 0 ≤ p → p < 0 + nprocs →
      procBegin (new_global_last_quad_index req) p ≤
      procEnd (new_global_last_quad_index req) p + 1 := by
    intro p _ hp
    rw [procBegin_ngl req p (by omega), procEnd_ngl req p (by omega)]
    have hstep := take_sum_succ req p (by omega)
    have hnn : 0 ≤ req.getD p 0 := by
      apply hreq_nonneg
      rw [List.getD_eq_getElem req 0 (by omega)]
      exact List.getElem_mem _
    omega
  have hglobal : ((List.range nprocs).flatMap
      (fun rank => p4est_partition_given G gl req nprocs rank)) = G := by
    rw [flatMap_congr (List.range nprocs) _
      (fun rank => sliceG G ((req.take rank).sum) ((req.take (rank + 1)).sum - 1))
      (fun x hx => hrank x (List.mem_range.mp hx))]
    rw [flatMap_congr (List.range nprocs) _
      (fun fp => if procBegin (new_global_last_quad_index req) fp ≤
          (G.length : Int) - 1 ∧ (0 : Int) ≤
          procEnd (new_global_last_quad_index req) fp then
        sliceG G (max 0 (procBegin (new_global_last_quad_index req) fp))
          (min ((G.length : Int) - 1)
            (procEnd (new_global_last_quad_index req) fp))
      else []) ?hterm]
    case hterm =>
      intro x hx
      show _ = if procBegin (new_global_last_quad_index req) x ≤
          (G.length : Int) - 1 ∧ (0 : Int) ≤
          procEnd (new_global_last_quad_index req) x then
        sliceG G (max 0 (procBegin (new_global_last_quad_index req) x))
          (min ((G.length : Int) - 1)
            (procEnd (new_global_last_quad_index req) x))
      else []
      have hxn := List.mem_range.mp hx
      have hmbv := procBegin_ngl req x (by omega)
      have hmev := procEnd_ngl req x (by omega)
      have hmbnn : 0 ≤ (req.take x).sum := take_sum_nonneg req hreq_nonneg x
      have hmele : (req.take (x + 1)).sum - 1 ≤ (G.length : Int) - 1 := by
        have := take_sum_le req hreq_nonneg (x + 1)
        omega
      rw [overlap_if_eq, hmbv, hmev, max_eq_right hmbnn, min_eq_right hmele]
    rw [List.range_eq_range']
    rw [overlap_tile G (new_global_last_quad_index req) 0 ((G.length : Int) - 1)
      (le_refl 0) nprocs 0 hnp hvalid_ngl]
    rw [h0n, hb0, procEnd_ngl req (nprocs - 1) (by omega)]
    have hlast : (req.take (nprocs - 1 + 1)).sum = req.sum := by
      have heq : nprocs - 1 + 1 = req.length := by omega
      rw [heq, List.take_length]
    rw [hlast, hreq_sum, max_self, min_self]
    exact sliceG_all G
  refine ⟨hglobal, by rw [hglobal], ?_⟩
  intro p hp
  rw [hrank p hp]
  have hmbnn : 0 ≤ (req.take p).sum := take_sum_nonneg req hreq_nonneg p
  have hstep := take_sum_succ req p (by omega)
  have hnn : 0 ≤ req.getD p 0 := by
    apply hreq_nonneg
    rw [List.getD_eq_getElem req 0 (by omega)]
    exact List.getElem_mem _
  have hmele : (req.take (p + 1)).sum ≤ (G.length : Int) := by
    have := take_sum_le req hreq_nonneg (p + 1)
    omega
  rw [sliceG_length G _ _ hmbnn (by omega) (by omega)]
  omega

/-- Witness for C2: three global quadrants, two processes, old ownership
`[0..0], [1..2]` (prefix sums `[0, 2]`), request `[2, 1]`. -/
theorem C2_witness :
    ((0 : Nat) < 2 ∧
      ([2, 1] : List Int).length = 2 ∧
      (∀ r ∈ ([2, 1] : List Int), 0 ≤ r) ∧
      ([2, 1] : List Int).sum =
        (([⟨0, 0, 0⟩, ⟨1, 2, 3⟩, ⟨4, 5, 6⟩] : List Quadrant).length : Int) ∧
      (∀ p : Nat, p < 2 → procBegin [0, 2] p ≤ procEnd [0, 2] p + 1) ∧
      procEnd [0, 2] (2 - 1) =
        (([⟨0, 0, 0⟩, ⟨1, 2, 3⟩, ⟨4, 5, 6⟩] : List Quadrant).length : Int) - 1) ∧
    (((List.range 2).flatMap
      (fun rank => p4est_partition_given [⟨0, 0, 0⟩, ⟨1, 2, 3⟩, ⟨4, 5, 6⟩]
        [0, 2] [2, 1] 2 rank)) = [⟨0, 0, 0⟩, ⟨1, 2, 3⟩, ⟨4, 5, 6⟩] ∧
    checksumWords ((List.range 2).flatMap
      (fun rank => p4est_partition_given [⟨0, 0, 0⟩, ⟨1, 2, 3⟩, ⟨4, 5, 6⟩]
        [0, 2] [2, 1] 2 rank)) =
      checksumWords [⟨0, 0, 0⟩, ⟨1, 2, 3⟩, ⟨4, 5, 6⟩] ∧
    (∀ p : Nat, p < 2 →
      ((p4est_partition_given [⟨0, 0, 0⟩, ⟨1, 2, 3⟩, ⟨4, 5, 6⟩]
        [0, 2] [2, 1] 2 p).length : Int) = ([2, 1] : List Int).getD p 0)) :=
  ⟨⟨by decide, by decide, by decide, by decide, by decide, by decide⟩,
    C2_theorem [⟨0, 0, 0⟩, ⟨1, 2, 3⟩, ⟨4, 5, 6⟩] [0, 2] [2, 1] 2
      (by decide) (by decide) (by decide) (by decide) (by decide) (by decide)⟩

theorem valid_extended (q : Quadrant) (h : p4est_quadrant_is_valid q) :
    p4est_quadrant_is_extended q := by
  obtain ⟨hl, hx, hy, hax, hay⟩ := h
  have hroot : P4EST_ROOT_LEN = 2 ^ 29 := rfl
  rw [hroot] at hx hy
  exact ⟨lt_trans hx (by norm_num), lt_trans hy (by norm_num), hl, hax, hay⟩

theorem valid_range (q : Quadrant) (h : p4est_quadrant_is_valid q) :
    inExtendedRange q := by
  obtain ⟨hl, hx, hy, _, _⟩ := h
  have hroot : P4EST_ROOT_LEN = 2 ^ 29 := rfl
  rw [hroot] at hx hy
  exact ⟨Or.inl (lt_trans hx (by norm_num)), Or.inl (lt_trans hy (by norm_num))⟩

theorem quadKey_valid (q : Quadrant) (h : p4est_quadrant_is_valid q) :
    quadKey q = interleave q.x q.y 32 := by
  obtain ⟨_, hx, hy, _, _⟩ := h
  have hroot : P4EST_ROOT_LEN = 2 ^ 29 := rfl
  rw [hroot] at hx hy
  rw [quadKey, pkey, pkey, Nat.mod_eq_of_lt (lt_trans hx (by norm_num)),
    Nat.mod_eq_of_lt (lt_trans hy (by norm_num))]

theorem quadKey_lt (q : Quadrant) (h : p4est_quadrant_is_valid q) :
    quadKey q < 4 ^ 29 := by
  have h2 := h
  obtain ⟨_, hx, hy, _, _⟩ := h2
  have hroot : P4EST_ROOT_LEN = 2 ^ 29 := rfl
  rw [hroot] at hx hy
  rw [quadKey_valid q h, pow4_eq]
  exact (interleave_lt_iff q.x q.y 29 (lt_trans hx (by norm_num))
    (lt_trans hy (by norm_num)) (by norm_num)).2 ⟨hx, hy⟩

theorem quadKey_mod_cover (q : Quadrant) (h : p4est_quadrant_is_extended q) :
    quadKey q % coverLen q.level = 0 := by
  have := quadKey_aligned q h
  rw [coverLen, pow4_eq]
  exact this

theorem coverLen_pos (l : Nat) : 0 < coverLen l := Nat.pow_pos (by norm_num)

theorem coverLen_le (l1 l2 : Nat) (h : l1 ≤ l2) : coverLen l2 ≤ coverLen l1 :=
  Nat.pow_le_pow_right (by norm_num) (by rw [P4EST_MAXLEVEL]; omega)

theorem coverLen_dvd (l1 l2 : Nat) (h : l1 ≤ l2) : coverLen l2 ∣ coverLen l1 :=
  Nat.pow_dvd_pow 4 (by rw [P4EST_MAXLEVEL]; omega)

theorem key_end_le (q : Quadrant) (h : p4est_quadrant_is_valid q) :
    quadKey q + coverLen q.level ≤ 4 ^ 29 := by
  have hmod := quadKey_mod_cover q (valid_extended q h)
  have hlt := quadKey_lt q h
  obtain ⟨m, hm⟩ := Nat.dvd_of_mod_eq_zero hmod
  have hcov : coverLen q.level ∣ 4 ^ 29 :=
    Nat.pow_dvd_pow 4 (by rw [P4EST_MAXLEVEL]; omega)
  obtain ⟨t, ht⟩ := hcov
  have hcp := coverLen_pos q.level
  rw [hm, ht] at hlt ⊢
  have hmt : m < t := by
    by_contra hc
    push_neg at hc
    have := Nat.mul_le_mul_left (coverLen q.level) hc
    omega
  have : m + 1 ≤ t := hmt
  have := Nat.mul_le_mul_left (coverLen q.level) this
  rw [Nat.mul_add, Nat.mul_one] at this
  omega

theorem dyadic_classify (k1 c1 k2 c2 : Nat) (hc1 : 0 < c1)
    (hdvd : c2 ∣ c1) (h1 : k1 % c1 = 0) (h2 : k2 % c2 = 0) :
    k2 + c2 ≤ k1 ∨ k1 + c1 ≤ k2 ∨ (k1 ≤ k2 ∧ k2 + c2 ≤ k1 + c1) := by
  have hc2 : 0 < c2 := Nat.pos_of_dvd_of_pos hdvd hc1
  have h1b : k1 % c2 = 0 := by
    obtain ⟨d, hd⟩ := hdvd
    obtain ⟨e, he⟩ := Nat.dvd_of_mod_eq_zero h1
    rw [he, hd, Nat.mul_assoc]
    exact Nat.mul_mod_right _ _
  by_cases hA : k2 < k1
  · left
    obtain ⟨e1, he1⟩ := Nat.dvd_of_mod_eq_zero h1b
    obtain ⟨e2, he2⟩ := Nat.dvd_of_mod_eq_zero h2
    rw [he1, he2] at hA ⊢
    have hee : e2 < e1 := by
      by_contra hc
      push_neg at hc
      have := Nat.mul_le_mul_left c2 hc
      omega
    have : e2 + 1 ≤ e1 := hee
    have := Nat.mul_le_mul_left c2 this
    rw [Nat.mul_add, Nat.mul_one] at this
    omega
  · push_neg at hA
    by_cases hB : k1 + c1 ≤ k2
    · right
      left
      exact hB
    · right
      right
      push_neg at hB
      refine ⟨hA, ?_⟩
      have hend : (k1 + c1) % c2 = 0 := by
        obtain ⟨d, hd⟩ := hdvd
        obtain ⟨e, he⟩ := Nat.dvd_of_mod_eq_zero h1b
        rw [he, hd, ← Nat.mul_add]
        exact Nat.mul_mod_right _ _
      obtain ⟨e1, he1⟩ := Nat.dvd_of_mod_eq_zero hend
      obtain ⟨e2, he2⟩ := Nat.dvd_of_mod_eq_zero h2
      rw [he1, he2] at hB ⊢
      have hee : e2 < e1 := by
        by_contra hc
        push_neg at hc
        have := Nat.mul_le_mul_left c2 hc
        omega
      have : e2 + 1 ≤ e1 := hee
      have := Nat.mul_le_mul_left c2 this
      rw [Nat.mul_add, Nat.mul_one] at this
      omega

theorem block_cases (x y : Quadrant) (hx : p4est_quadrant_is_valid x)
    (hy : p4est_quadrant_is_valid y) :
    x = y ∨ p4est_quadrant_is_ancestor x y ∨ p4est_quadrant_is_ancestor y x ∨
    quadKey x + coverLen x.level ≤ quadKey y ∨
    quadKey y + coverLen y.level ≤ quadKey x := by
  have hex := valid_extended x hx
  have hey := valid_extended y hy
  have hrx := valid_range x hx
  have hry := valid_range y hy
  have hmx := quadKey_mod_cover x hex
  have hmy := quadKey_mod_cover y hey
  rcases Nat.le_total x.level y.level with hl | hl
  · rcases dyadic_classify (quadKey x) (coverLen x.level) (quadKey y)
      (coverLen y.level) (coverLen_pos _) (coverLen_dvd _ _ hl) hmx hmy with
      h | h | ⟨h1, h2⟩
    · right; right; right; right
      exact h
    · right; right; right; left
      exact h
    · rcases Nat.eq_or_lt_of_le hl with hleq | hllt
      · left
        have hceq : coverLen x.level = coverLen y.level := by rw [hleq]
        have hkeq : quadKey x = quadKey y := by omega
        obtain ⟨hxx, hyy⟩ := quadKey_inj x y hex hey hrx hry hkeq
        obtain ⟨a1, b1, c1⟩ := x
        obtain ⟨a2, b2, c2⟩ := y
        simp only at hxx hyy hleq
        rw [hxx, hyy, hleq]
      · right; left
        rw [is_ancestor_iff_key x y hex hey hrx hry]
        have hcp := coverLen_pos y.level
        exact ⟨hllt, h1, by omega⟩
  · rcases dyadic_classify (quadKey y) (coverLen y.level) (quadKey x)
      (coverLen x.level) (coverLen_pos _) (coverLen_dvd _ _ hl) hmy hmx with
      h | h | ⟨h1, h2⟩
    · right; right; right; left
      exact h
    · right; right; right; right
      exact h
    · rcases Nat.eq_or_lt_of_le hl with hleq | hllt
      · left
        have hkeq : quadKey x = quadKey y := by
          have hceq : coverLen x.level = coverLen y.level := by rw [hleq]
          omega
        obtain ⟨hxx, hyy⟩ := quadKey_inj x y hex hey hrx hry hkeq
        obtain ⟨a1, b1, c1⟩ := x
        obtain ⟨a2, b2, c2⟩ := y
        simp only at hxx hyy hleq
        rw [hxx, hyy, hleq]
      · right; right; left
        rw [is_ancestor_iff_key y x hey hex hry hrx]
        have hcp := coverLen_pos x.level
        exact ⟨hllt, h1, by omega⟩

theorem gap_exists (a b : Quadrant) (hva : p4est_quadrant_is_valid a)
    (hvb : p4est_quadrant_is_valid b)
    (hab : p4est_quadrant_compare a b < 0)
    (hna : ¬ p4est_quadrant_is_ancestor a b) :
    quadKey a + coverLen a.level ≤ quadKey b := by
  have hea := valid_extended a hva
  have heb := valid_extended b hvb
  have hra := valid_range a hva
  have hrb := valid_range b hvb
  have hkey : quadKey a < quadKey b ∨
      (quadKey a = quadKey b ∧ a.level < b.level) :=
    (compare_lt_iff a b hea heb hra hrb).1 hab
  rcases block_cases a b hva hvb with h | h | h | h | h
  · rw [h] at hab
    rw [compare_self] at hab
    exact absurd hab (lt_irrefl 0)
  · exact absurd h hna
  · obtain ⟨hl, hk1, hk2⟩ := (is_ancestor_iff_key b a heb hea hrb hra).1 h
    rcases hkey with h2 | ⟨h2, h3⟩ <;> omega
  · exact h
  · have hcp := coverLen_pos b.level
    rcases hkey with h2 | ⟨h2, h3⟩
    · omega
    · omega

theorem or_two_pow_eq_add (u m : Nat) (h : u.testBit m = false) :
    u ||| 2 ^ m = u + 2 ^ m := by
  have hr : u % 2 ^ (m + 1) = u % 2 ^ m := by
    have hmm : u % (2 ^ m * 2) = u % 2 ^ m + 2 ^ m * (u / 2 ^ m % 2) :=
      Nat.mod_mul
    rw [Nat.testBit_to_div_mod] at h
    have hz : u / 2 ^ m % 2 = 0 := by
      have := decide_eq_false_iff_not.mp h
      omega
    rw [hz, Nat.mul_zero, Nat.add_zero] at hmm
    calc u % 2 ^ (m + 1) = u % (2 ^ m * 2) := by rw [pow_succ]
      _ = u % 2 ^ m := hmm
  have hdecomp : u = 2 ^ (m + 1) * (u / 2 ^ (m + 1)) + u % 2 ^ m := by
    rw [← hr]
    have := Nat.div_add_mod u (2 ^ (m + 1))
    omega
  have hrlt : u % 2 ^ m < 2 ^ m := Nat.mod_lt _ (Nat.two_pow_pos m)
  have h1 : u = 2 ^ (m + 1) * (u / 2 ^ (m + 1)) ||| u % 2 ^ m := by
    rw [← Nat.mul_add_lt_is_or (lt_trans hrlt (by
      have := Nat.two_pow_pos m
      rw [pow_succ]
      omega)) (u / 2 ^ (m + 1))]
    exact hdecomp
  rw [h1, Nat.lor_assoc]
  have h2 : u % 2 ^ m ||| 2 ^ m = 2 ^ m + u % 2 ^ m := by
    rw [Nat.lor_comm]
    have := Nat.mul_add_lt_is_or hrlt 1
    rw [Nat.mul_one] at this
    rw [← this]
  rw [h2]
  have h3 : 2 ^ m + u % 2 ^ m < 2 ^ (m + 1) := by
    have := Nat.two_pow_pos m
    rw [pow_succ]
    omega
  rw [← Nat.mul_add_lt_is_or h3 (u / 2 ^ (m + 1))]
  omega

theorem interleave_lor (x1 y1 x2 y2 n : Nat) :
    interleave x1 y1 n ||| interleave x2 y2 n =
    interleave (x1 ||| x2) (y1 ||| y2) n := by
  apply Nat.eq_of_testBit_eq
  intro j
  rcases Nat.even_or_odd j with he | ho
  · obtain ⟨i, hi⟩ := he
    have hj : j = 2 * i := by omega
    subst hj
    rw [Nat.testBit_or, interleave_testBit_even, interleave_testBit_even,
      interleave_testBit_even, Nat.testBit_or]
    cases decide (i < n) <;> simp
  · obtain ⟨i, hi⟩ := ho
    subst hi
    rw [Nat.testBit_or, interleave_testBit_odd, interleave_testBit_odd,
      interleave_testBit_odd, Nat.testBit_or]
    cases decide (i < n) <;> simp

theorem interleave_pow_left (m n : Nat) (h : m < n) :
    interleave (2 ^ m) 0 n = 2 ^ (2 * m) := by
  apply Nat.eq_of_testBit_eq
  intro j
  rcases Nat.even_or_odd j with he | ho
  · obtain ⟨i, hi⟩ := he
    have hj : j = 2 * i := by omega
    subst hj
    rw [interleave_testBit_even, Nat.testBit_two_pow, Nat.testBit_two_pow]
    by_cases him : m = i
    · subst him
      simp [h]
    · have : ¬ 2 * m = 2 * i := by omega
      simp [him, this]
  · obtain ⟨i, hi⟩ := ho
    subst hi
    rw [interleave_testBit_odd, Nat.testBit_two_pow, Nat.zero_testBit]
    have : ¬ 2 * m = 2 * i + 1 := by omega
    simp [this]

theorem interleave_pow_right (m n : Nat) (h : m < n) :
    interleave 0 (2 ^ m) n = 2 ^ (2 * m + 1) := by
  apply Nat.eq_of_testBit_eq
  intro j
  rcases Nat.even_or_odd j with he | ho
  · obtain ⟨i, hi⟩ := he
    have hj : j = 2 * i := by omega
    subst hj
    rw [interleave_testBit_even, Nat.zero_testBit, Nat.testBit_two_pow]
    have : ¬ 2 * m + 1 = 2 * i := by omega
    simp [this]
  · obtain ⟨i, hi⟩ := ho
    subst hi
    rw [interleave_testBit_odd, Nat.testBit_two_pow, Nat.testBit_two_pow]
    by_cases him : m = i
    · subst him
      simp [h]
    · have : ¬ 2 * m + 1 = 2 * i + 1 := by omega
      simp [him, this]

theorem lor_eq_add_of_aligned (u v n : Nat) (hu : u % 2 ^ n = 0) (hv : v < 2 ^ n) :
    u ||| v = u + v := by
  obtain ⟨t, ht⟩ := Nat.dvd_of_mod_eq_zero hu
  rw [ht]
  exact (Nat.mul_add_lt_is_or hv t).symm

theorem pow_sub_pow_testBit (A B t : Nat) (h : B ≤ A) :
    ((2 : Nat) ^ A - 2 ^ B).testBit t = (decide (B ≤ t) && decide (t < A)) := by
  have hfac : (2 : Nat) ^ A - 2 ^ B = 2 ^ B * (2 ^ (A - B) - 1) := by
    rw [Nat.mul_sub_one, ← pow_add]
    congr 2
    omega
  rw [hfac, Nat.mul_comm, ← Nat.shiftLeft_eq_mul_pow, Nat.testBit_shiftLeft,
    Nat.testBit_two_pow_sub_one]
  by_cases hBt : B ≤ t
  · by_cases htA : t < A
    · simp [hBt, htA, show t - B < A - B by omega]
    · simp [hBt, htA, show ¬ t - B < A - B by omega]
  · simp [hBt, show ¬ t ≥ B by omega]

theorem crBudget_pos (k : Nat) : 1 ≤ crBudget k := by
  cases k with
  | zero => exact le_refl 1
  | succ n =>
    show 1 ≤ 1 + 4 * crBudget n
    omega

theorem crBudget_mono (m n : Nat) (h : m ≤ n) : crBudget m ≤ crBudget n := by
  induction n with
  | zero =>
    have hm : m = 0 := Nat.le_zero.mp h
    subst hm
    exact le_refl _
  | succ n ih =>
    rcases Nat.lt_or_ge m (n + 1) with h' | h'
    · have h1 := ih (by omega)
      have h2 : crBudget (n + 1) = 1 + 4 * crBudget n := rfl
      omega
    · have hm : m = n + 1 := by omega
      subst hm
      exact le_refl _

theorem tilingEnd_nil (s : Nat) : tilingEnd s [] = s := rfl

theorem tilingEnd_cons (s : Nat) (w : Quadrant) (rest : List Quadrant) :
    tilingEnd s (w :: rest) = tilingEnd (s + coverLen w.level) rest := rfl

theorem tilingEnd_append (s : Nat) (W1 W2 : List Quadrant) :
    tilingEnd s (W1 ++ W2) = tilingEnd (tilingEnd s W1) W2 := by
  rw [tilingEnd, tilingEnd, tilingEnd, List.foldl_append]

theorem tilingEnd_ge (s : Nat) (W : List Quadrant) : s ≤ tilingEnd s W := by
  induction W generalizing s with
  | nil => exact le_refl s
  | cons w rest ih =>
    rw [tilingEnd_cons]
    exact le_trans (Nat.le_add_right s (coverLen w.level)) (ih _)

theorem isTiling_append (s : Nat) (W1 W2 : List Quadrant) (h1 : isTiling s W1)
    (h2 : isTiling (tilingEnd s W1) W2) : isTiling s (W1 ++ W2) := by
  induction W1 generalizing s with
  | nil => exact h2
  | cons w rest ih =>
    obtain ⟨hk, ht⟩ := h1
    exact ⟨hk, ih _ ht h2⟩

theorem isTiling_mem_bounds (W : List Quadrant) (s : Nat) (h : isTiling s W) :
    ∀ c ∈ W, s ≤ quadKey c ∧ quadKey c + coverLen c.level ≤ tilingEnd s W := by
  induction W generalizing s with
  | nil =>
    intro c hc
    exact absurd hc (List.not_mem_nil c)
  | cons w rest ih =>
    intro c hc
    obtain ⟨hk, ht⟩ := h
    rcases List.mem_cons.mp hc with hcw | hcr
    · subst hcw
      rw [tilingEnd_cons, hk]
      exact ⟨le_refl _, tilingEnd_ge _ _⟩
    · have := ih _ ht c hcr
      rw [tilingEnd_cons]
      exact ⟨le_trans (Nat.le_add_right s (coverLen w.level)) this.1, this.2⟩

theorem sum_map_budget_const (W : List Quadrant) (l L : Nat)
    (h : ∀ w ∈ W, w.level = l) :
    (W.map (fun w => crBudget (L - w.level))).sum = W.length * crBudget (L - l) := by
  induction W with
  | nil => simp
  | cons w rest ih =>
    rw [List.map_cons, List.sum_cons, List.length_cons,
      h w (List.mem_cons_self w rest),
      ih (fun u hu => h u (List.mem_cons_of_mem w hu))]
    ring

theorem children_spec (w : Quadrant) (hv : p4est_quadrant_is_valid w)
    (hl : w.level < P4EST_MAXLEVEL) :
    (∀ c ∈ p4est_quadrant_children w,
      p4est_quadrant_is_valid c ∧ c.level = w.level + 1) ∧
    isTiling (quadKey w) (p4est_quadrant_children w) ∧
    tilingEnd (quadKey w) (p4est_quadrant_children w) =
      quadKey w + coverLen w.level ∧
    (p4est_quadrant_children w).length = 4 := by
  have hv' := hv
  obtain ⟨hlev, hx, hy, hax, hay⟩ := hv'
  have hM : P4EST_MAXLEVEL = 29 := rfl
  have hR : P4EST_ROOT_LEN = 2 ^ 29 := rfl
  rw [hM] at hl
  rw [hR] at hx hy
  have hq1 : P4EST_QUADRANT_LEN (w.level + 1) = 2 ^ (28 - w.level) := by
    rw [P4EST_QUADRANT_LEN, hM]
    congr 1
    omega
  have hq0 : P4EST_QUADRANT_LEN w.level = 2 ^ (29 - w.level) := by
    rw [P4EST_QUADRANT_LEN, hM]
  rw [hq0] at hax hay
  have haxm : w.x % 2 ^ (29 - w.level) = 0 := by
    rw [← land_two_pow_sub_one]
    exact hax
  have haym : w.y % 2 ^ (29 - w.level) = 0 := by
    rw [← land_two_pow_sub_one]
    exact hay
  have hbx : w.x.testBit (28 - w.level) = false :=
    testBit_false_of_aligned _ (29 - w.level) _ hax (by omega)
  have hby : w.y.testBit (28 - w.level) = false :=
    testBit_false_of_aligned _ (29 - w.level) _ hay (by omega)
  have hc1x : w.x ||| 2 ^ (28 - w.level) = w.x + 2 ^ (28 - w.level) :=
    or_two_pow_eq_add _ _ hbx
  have hc2y : w.y ||| 2 ^ (28 - w.level) = w.y + 2 ^ (28 - w.level) :=
    or_two_pow_eq_add _ _ hby
  have hps : (2 : Nat) ^ (29 - w.level) = 2 * 2 ^ (28 - w.level) := by
    rw [show 29 - w.level = (28 - w.level) + 1 from by omega, pow_succ]
    ring
  have hbound : ∀ u : Nat, u < 2 ^ 29 → u % 2 ^ (29 - w.level) = 0 →
      u + 2 ^ (28 - w.level) < 2 ^ 29 := by
    intro u hu hum
    obtain ⟨t, ht⟩ := Nat.dvd_of_mod_eq_zero hum
    have he2 : (2 : Nat) ^ 29 = 2 ^ (29 - w.level) * 2 ^ w.level := by
      rw [← pow_add]
      congr 1
      omega
    have htlt : t < 2 ^ w.level := by
      have hu' : 2 ^ (29 - w.level) * t < 2 ^ (29 - w.level) * 2 ^ w.level := by
        rw [← ht, ← he2]
        exact hu
      exact Nat.lt_of_mul_lt_mul_left hu'
    have hts : t + 1 ≤ 2 ^ w.level := htlt
    have hmul := Nat.mul_le_mul_left (2 ^ (29 - w.level)) hts
    rw [Nat.mul_add, Nat.mul_one, ← ht, ← he2] at hmul
    have hH := Nat.two_pow_pos (28 - w.level)
    omega
  have hxb := hbound w.x hx haxm
  have hyb := hbound w.y hy haym
  have halow : ∀ u : Nat, u % 2 ^ (29 - w.level) = 0 → u % 2 ^ (28 - w.level) = 0 := by
    intro u hum
    have hdvd : (2 : Nat) ^ (28 - w.level) ∣ 2 ^ (29 - w.level) :=
      Nat.pow_dvd_pow 2 (by omega)
    rw [← Nat.mod_mod_of_dvd u hdvd, hum, Nat.zero_mod]
  have hax1 := halow w.x haxm
  have hay1 := halow w.y haym
  have hax1' : (w.x + 2 ^ (28 - w.level)) % 2 ^ (28 - w.level) = 0 := by
    rw [Nat.add_mod_right]
    exact hax1
  have hay1' : (w.y + 2 ^ (28 - w.level)) % 2 ^ (28 - w.level) = 0 := by
    rw [Nat.add_mod_right]
    exact hay1
  have hvalid : ∀ u v : Nat, u < 2 ^ 29 → u % 2 ^ (28 - w.level) = 0 →
      v < 2 ^ 29 → v % 2 ^ (28 - w.level) = 0 →
      p4est_quadrant_is_valid ⟨u, v, w.level + 1⟩ := by
    intro u v hu hau hv2 hav
    refine ⟨by show w.level + 1 ≤ P4EST_MAXLEVEL; rw [hM]; omega,
      by show u < P4EST_ROOT_LEN; rw [hR]; exact hu,
      by show v < P4EST_ROOT_LEN; rw [hR]; exact hv2, ?_, ?_⟩
    · show u &&& (P4EST_QUADRANT_LEN (w.level + 1) - 1) = 0
      rw [hq1, land_two_pow_sub_one]
      exact hau
    · show v &&& (P4EST_QUADRANT_LEN (w.level + 1) - 1) = 0
      rw [hq1, land_two_pow_sub_one]
      exact hav
  have hv0 := hvalid w.x w.y hx hax1 hy hay1
  have hv1 := hvalid _ w.y hxb hax1' hy hay1
  have hv2 := hvalid w.x _ hx hax1 hyb hay1'
  have hv3 := hvalid _ _ hxb hax1' hyb hay1'
  have hch : p4est_quadrant_children w =
      [⟨w.x, w.y, w.level + 1⟩,
       ⟨w.x + 2 ^ (28 - w.level), w.y, w.level + 1⟩,
       ⟨w.x, w.y + 2 ^ (28 - w.level), w.level + 1⟩,
       ⟨w.x + 2 ^ (28 - w.level), w.y + 2 ^ (28 - w.level), w.level + 1⟩] := by
    show [(⟨w.x, w.y, w.level + 1⟩ : Quadrant),
       ⟨w.x ||| P4EST_QUADRANT_LEN (w.level + 1), w.y, w.level + 1⟩,
       ⟨w.x, w.y ||| P4EST_QUADRANT_LEN (w.level + 1), w.level + 1⟩,
       ⟨w.x ||| P4EST_QUADRANT_LEN (w.level + 1),
        w.y ||| P4EST_QUADRANT_LEN (w.level + 1), w.level + 1⟩] = _
    rw [hq1, hc1x, hc2y]
  have hkw : quadKey w = interleave w.x w.y 32 := quadKey_valid w hv
  have hm2 : quadKey w % 2 ^ (2 * (28 - w.level) + 2) = 0 := by
    have hal := quadKey_aligned w (valid_extended w hv)
    rw [hM] at hal
    rw [show 2 * (28 - w.level) + 2 = 2 * (29 - w.level) from by omega]
    exact hal
  have hlt22 : (2 : Nat) ^ (2 * (28 - w.level)) < 2 ^ (2 * (28 - w.level) + 2) :=
    Nat.pow_lt_pow_right (by norm_num) (by omega)
  have hps2 : (2 : Nat) ^ (2 * (28 - w.level) + 1) = 2 * 2 ^ (2 * (28 - w.level)) := by
    rw [pow_succ]
    ring
  have hps3 : (2 : Nat) ^ (2 * (28 - w.level) + 2) = 4 * 2 ^ (2 * (28 - w.level)) := by
    rw [show 2 * (28 - w.level) + 2 = (2 * (28 - w.level) + 1) + 1 from rfl, pow_succ, hps2]
    ring
  have hk1 : interleave (w.x + 2 ^ (28 - w.level)) w.y 32 =
      quadKey w + 2 ^ (2 * (28 - w.level)) := by
    calc interleave (w.x + 2 ^ (28 - w.level)) w.y 32
        = interleave (w.x ||| 2 ^ (28 - w.level)) (w.y ||| 0) 32 := by
          rw [hc1x, Nat.or_zero]
      _ = interleave w.x w.y 32 ||| interleave (2 ^ (28 - w.level)) 0 32 :=
          (interleave_lor _ _ _ _ 32).symm
      _ = quadKey w ||| 2 ^ (2 * (28 - w.level)) := by
          rw [← hkw, interleave_pow_left _ 32 (by omega)]
      _ = quadKey w + 2 ^ (2 * (28 - w.level)) :=
          lor_eq_add_of_aligned _ _ _ hm2 hlt22
  have hk2 : interleave w.x (w.y + 2 ^ (28 - w.level)) 32 =
      quadKey w + 2 ^ (2 * (28 - w.level) + 1) := by
    calc interleave w.x (w.y + 2 ^ (28 - w.level)) 32
        = interleave (w.x ||| 0) (w.y ||| 2 ^ (28 - w.level)) 32 := by
          rw [hc2y, Nat.or_zero]
      _ = interleave w.x w.y 32 ||| interleave 0 (2 ^ (28 - w.level)) 32 :=
          (interleave_lor _ _ _ _ 32).symm
      _ = quadKey w ||| 2 ^ (2 * (28 - w.level) + 1) := by
          rw [← hkw, interleave_pow_right _ 32 (by omega)]
      _ = quadKey w + 2 ^ (2 * (28 - w.level) + 1) :=
          lor_eq_add_of_aligned _ _ _ hm2
            (Nat.pow_lt_pow_right (by norm_num) (by omega))
  have hHH : interleave (2 ^ (28 - w.level)) (2 ^ (28 - w.level)) 32 =
      2 ^ (2 * (28 - w.level)) + 2 ^ (2 * (28 - w.level) + 1) := by
    calc interleave (2 ^ (28 - w.level)) (2 ^ (28 - w.level)) 32
        = interleave (2 ^ (28 - w.level) ||| 0) (0 ||| 2 ^ (28 - w.level)) 32 := by
          rw [Nat.or_zero, Nat.zero_or]
      _ = interleave (2 ^ (28 - w.level)) 0 32 ||| interleave 0 (2 ^ (28 - w.level)) 32 :=
          (interleave_lor _ _ _ _ 32).symm
      _ = 2 ^ (2 * (28 - w.level)) ||| 2 ^ (2 * (28 - w.level) + 1) := by
          rw [interleave_pow_left _ 32 (by omega), interleave_pow_right _ 32 (by omega)]
      _ = 2 ^ (2 * (28 - w.level)) + 2 ^ (2 * (28 - w.level) + 1) :=
          or_two_pow_eq_add _ _
            (by rw [Nat.testBit_two_pow]; exact decide_eq_false (by omega))
  have hk3 : interleave (w.x + 2 ^ (28 - w.level)) (w.y + 2 ^ (28 - w.level)) 32 =
      quadKey w + (2 ^ (2 * (28 - w.level)) + 2 ^ (2 * (28 - w.level) + 1)) := by
    calc interleave (w.x + 2 ^ (28 - w.level)) (w.y + 2 ^ (28 - w.level)) 32
        = interleave (w.x ||| 2 ^ (28 - w.level)) (w.y ||| 2 ^ (28 - w.level)) 32 := by
          rw [hc1x, hc2y]
      _ = interleave w.x w.y 32 |||
            interleave (2 ^ (28 - w.level)) (2 ^ (28 - w.level)) 32 :=
          (interleave_lor _ _ _ _ 32).symm
      _ = quadKey w ||| (2 ^ (2 * (28 - w.level)) + 2 ^ (2 * (28 - w.level) + 1)) := by
          rw [← hkw, hHH]
      _ = quadKey w + (2 ^ (2 * (28 - w.level)) + 2 ^ (2 * (28 - w.level) + 1)) :=
          lor_eq_add_of_aligned _ _ _ hm2
            (by have := Nat.two_pow_pos (2 * (28 - w.level)); omega)
  have hcov1 : coverLen (w.level + 1) = 2 ^ (2 * (28 - w.level)) := by
    rw [coverLen, hM, pow4_eq]
    congr 1
    omega
  have hcov0 : coverLen w.level = 4 * 2 ^ (2 * (28 - w.level)) := by
    rw [coverLen, hM, pow4_eq, ← hps3]
    congr 1
    omega
  rw [hch]
  refine ⟨?_, ?_, ?_, rfl⟩
  · intro c hc
    simp only [List.mem_cons, List.not_mem_nil, or_false] at hc
    rcases hc with h | h | h | h <;> subst h
    · exact ⟨hv0, rfl⟩
    · exact ⟨hv1, rfl⟩
    · exact ⟨hv2, rfl⟩
    · exact ⟨hv3, rfl⟩
  · have hk0' : quadKey ⟨w.x, w.y, w.level + 1⟩ = quadKey w := by
      rw [quadKey_valid _ hv0, hkw]
    have hk1' : quadKey ⟨w.x + 2 ^ (28 - w.level), w.y, w.level + 1⟩ =
        quadKey w + 2 ^ (2 * (28 - w.level)) := by
      rw [quadKey_valid _ hv1]
      exact hk1
    have hk2' : quadKey ⟨w.x, w.y + 2 ^ (28 - w.level), w.level + 1⟩ =
        quadKey w + 2 ^ (2 * (28 - w.level) + 1) := by
      rw [quadKey_valid _ hv2]
      exact hk2
    have hk3' : quadKey ⟨w.x + 2 ^ (28 - w.level), w.y + 2 ^ (28 - w.level),
        w.level + 1⟩ =
        quadKey w + (2 ^ (2 * (28 - w.level)) + 2 ^ (2 * (28 - w.level) + 1)) := by
      rw [quadKey_valid _ hv3]
      exact hk3
    show quadKey ⟨w.x, w.y, w.level + 1⟩ = quadKey w ∧
      quadKey ⟨w.x + 2 ^ (28 - w.level), w.y, w.level + 1⟩ =
        quadKey w + coverLen (w.level + 1) ∧
      quadKey ⟨w.x, w.y + 2 ^ (28 - w.level), w.level + 1⟩ =
        quadKey w + coverLen (w.level + 1) + coverLen (w.level + 1) ∧
      quadKey ⟨w.x + 2 ^ (28 - w.level), w.y + 2 ^ (28 - w.level), w.level + 1⟩ =
        quadKey w + coverLen (w.level + 1) + coverLen (w.level + 1) +
          coverLen (w.level + 1) ∧ True
    refine ⟨hk0', ?_, ?_, ?_, trivial⟩
    · rw [hk1', hcov1]
    · rw [hk2', hcov1, hps2]
      omega
    · rw [hk3', hcov1, hps2]
      omega
  · show tilingEnd _ _ = _
    rw [tilingEnd_cons, tilingEnd_cons, tilingEnd_cons, tilingEnd_cons, tilingEnd_nil]
    show quadKey w + coverLen (w.level + 1) + coverLen (w.level + 1) +
      coverLen (w.level + 1) + coverLen (w.level + 1) = quadKey w + coverLen w.level
    rw [hcov1, hcov0]
    ring

theorem anc_tile (x y : Quadrant) (hvx : p4est_quadrant_is_valid x)
    (hvy : p4est_quadrant_is_valid y) (h : p4est_quadrant_is_ancestor x y) :
    x.level < y.level ∧ quadKey x ≤ quadKey y ∧
    quadKey y + coverLen y.level ≤ quadKey x + coverLen x.level := by
  have hex := valid_extended x hvx
  have hey := valid_extended y hvy
  have hrx := valid_range x hvx
  have hry := valid_range y hvy
  obtain ⟨hl, h1, h2⟩ := (is_ancestor_iff_key x y hex hey hrx hry).1 h
  refine ⟨hl, h1, ?_⟩
  have hmy := quadKey_mod_cover y hey
  have hmx := quadKey_mod_cover x hex
  have hdvd : coverLen y.level ∣ coverLen x.level := coverLen_dvd _ _ (le_of_lt hl)
  have hmx' : (quadKey x + coverLen x.level) % coverLen y.level = 0 := by
    obtain ⟨k, hk⟩ := Nat.dvd_add (dvd_trans hdvd (Nat.dvd_of_mod_eq_zero hmx)) hdvd
    rw [hk, Nat.mul_mod_right]
  obtain ⟨ey, hey'⟩ := Nat.dvd_of_mod_eq_zero hmy
  obtain ⟨ex, hex'⟩ := Nat.dvd_of_mod_eq_zero hmx'
  rw [hey', hex'] at h2 ⊢
  have hee : ey < ex := Nat.lt_of_mul_lt_mul_left h2
  have h3 : ey + 1 ≤ ex := hee
  have h4 := Nat.mul_le_mul_left (coverLen y.level) h3
  rw [Nat.mul_add, Nat.mul_one] at h4
  exact h4

theorem anc_trans (x y z : Quadrant) (hvx : p4est_quadrant_is_valid x)
    (hvy : p4est_quadrant_is_valid y) (hvz : p4est_quadrant_is_valid z)
    (h1 : p4est_quadrant_is_ancestor x y) (h2 : p4est_quadrant_is_ancestor y z) :
    p4est_quadrant_is_ancestor x z := by
  obtain ⟨l1, k1, e1⟩ := anc_tile x y hvx hvy h1
  obtain ⟨l2, k2, e2⟩ := anc_tile y z hvy hvz h2
  rw [is_ancestor_iff_key x z (valid_extended x hvx) (valid_extended z hvz)
    (valid_range x hvx) (valid_range z hvz)]
  have hcz := coverLen_pos z.level
  exact ⟨by omega, by omega, by omega⟩

theorem child_inv (a b w c : Quadrant) (hva : p4est_quadrant_is_valid a)
    (hvb : p4est_quadrant_is_valid b) (hvw : p4est_quadrant_is_valid w)
    (hab : p4est_quadrant_compare a b < 0)
    (hnab : ¬ p4est_quadrant_is_ancestor a b)
    (hwa : ¬ p4est_quadrant_is_ancestor a w)
    (hwb : ¬ p4est_quadrant_is_ancestor b w)
    (hexp : p4est_quadrant_is_ancestor w a ∨ p4est_quadrant_is_ancestor w b)
    (hlw : w.level < P4EST_MAXLEVEL)
    (hc : c ∈ p4est_quadrant_children w) :
    ¬ p4est_quadrant_is_ancestor a c ∧ ¬ p4est_quadrant_is_ancestor b c := by
  obtain ⟨hcv_all, hct, hce, _⟩ := children_spec w hvw hlw
  obtain ⟨hcv, hclev⟩ := hcv_all c hc
  have hcb := isTiling_mem_bounds _ _ hct c hc
  rw [hce] at hcb
  have hccz := coverLen_pos c.level
  cases hexp with
  | inl hwa' =>
    have hwal : w.level < a.level := hwa'.1
    constructor
    · intro hac
      have hlt : a.level < c.level := hac.1
      omega
    · intro hbc
      have hbl : b.level < c.level := hbc.1
      have htb := anc_tile b c hvb hcv hbc
      rcases block_cases w b hvw hvb with h | h | h | h | h
      · rw [h] at hwa'
        have hba := ancestor_compare_lt b a (valid_extended b hvb)
          (valid_extended a hva) (valid_range b hvb) (valid_range a hva) hwa'
        have hswap := (compare_swap_pos b a (valid_extended b hvb)
          (valid_extended a hva) (valid_range b hvb) (valid_range a hva)).2 hab
        omega
      · have := h.1
        omega
      · exact hwb h
      · omega
      · omega
  | inr hwb' =>
    have hwbl : w.level < b.level := hwb'.1
    constructor
    · intro hac
      have hal' : a.level < c.level := hac.1
      have hta := anc_tile a c hva hcv hac
      rcases block_cases w a hvw hva with h | h | h | h | h
      · rw [h] at hwb'
        exact hnab hwb'
      · have := h.1
        omega
      · exact hwa h
      · omega
      · omega
    · intro hbc
      have := hbc.1
      omega

theorem nca_valid (a b : Quadrant) (hva : p4est_quadrant_is_valid a)
    (hvb : p4est_quadrant_is_valid b) :
    p4est_quadrant_is_valid (p4est_nearest_common_ancestor a b) ∧
    (p4est_nearest_common_ancestor a b).level ≤ min a.level b.level := by
  have hea := valid_extended a hva
  have heb := valid_extended b hvb
  have hR : P4EST_ROOT_LEN = 2 ^ 29 := rfl
  have hax : a.x < 2 ^ 29 := by have := hva.2.1; rwa [hR] at this
  have hay : a.y < 2 ^ 29 := by have := hva.2.2.1; rwa [hR] at this
  have hbx : b.x < 2 ^ 29 := by have := hvb.2.1; rwa [hR] at this
  have hby : b.y < 2 ^ 29 := by have := hvb.2.2.1; rwa [hR] at this
  have hsame : (a.x ^^^ b.x) ||| (a.y ^^^ b.y) < 2 ^ 29 :=
    Nat.or_lt_two_pow (Nat.xor_lt_two_pow hax hbx) (Nat.xor_lt_two_pow hay hby)
  rw [nca_canonical a b hea heb hsame]
  have hclear : ∀ u : Nat, u < 2 ^ 29 →
      u &&& mask32not (2 ^ (29 - min (min a.level b.level)
        (29 - (SC_LOG2_32 ((a.x ^^^ b.x) ||| (a.y ^^^ b.y)) + 1).toNat)) - 1) &&&
      (P4EST_QUADRANT_LEN (min (min a.level b.level)
        (29 - (SC_LOG2_32 ((a.x ^^^ b.x) ||| (a.y ^^^ b.y)) + 1).toNat)) - 1) = 0 := by
    intro u hu
    have hq : P4EST_QUADRANT_LEN (min (min a.level b.level)
        (29 - (SC_LOG2_32 ((a.x ^^^ b.x) ||| (a.y ^^^ b.y)) + 1).toNat)) =
        2 ^ (29 - min (min a.level b.level)
        (29 - (SC_LOG2_32 ((a.x ^^^ b.x) ||| (a.y ^^^ b.y)) + 1).toNat)) := rfl
    rw [hq]
    apply aligned_of_testBit_false
    intro j hj
    rw [clearLow_testBit u _ j (lt_trans hu (by norm_num)) (by omega)]
    rw [decide_eq_false (show ¬ (29 - min (min a.level b.level)
      (29 - (SC_LOG2_32 ((a.x ^^^ b.x) ||| (a.y ^^^ b.y)) + 1).toNat) ≤ j) from by omega),
      Bool.and_false]
  refine ⟨⟨?_, ?_, ?_, hclear a.x hax, hclear a.y hay⟩,
    Nat.min_le_left _ _⟩
  · show min (min a.level b.level)
      (29 - (SC_LOG2_32 ((a.x ^^^ b.x) ||| (a.y ^^^ b.y)) + 1).toNat) ≤ P4EST_MAXLEVEL
    have h1 := hva.1
    omega
  · show a.x &&& mask32not _ < P4EST_ROOT_LEN
    exact lt_of_le_of_lt (Nat.and_le_left) hva.2.1
  · show a.y &&& mask32not _ < P4EST_ROOT_LEN
    exact lt_of_le_of_lt (Nat.and_le_left) hva.2.2.1

theorem linear_id_valid (q : Quadrant) (hx : q.x < 2 ^ 31) (hy : q.y < 2 ^ 31)
    (lvl : Nat) (hl : lvl ≤ 29) :
    p4est_quadrant_linear_id q lvl = quadKey q / coverLen lvl := by
  have hM : P4EST_MAXLEVEL = 29 := rfl
  have hcov : coverLen lvl = 2 ^ (2 * (29 - lvl)) := by
    rw [coverLen, hM, pow4_eq]
  have hxs : asr32 q.x (29 - lvl) = q.x >>> (29 - lvl) := by
    rw [asr32, if_pos hx]
  have hys : asr32 q.y (29 - lvl) = q.y >>> (29 - lvl) := by
    rw [asr32, if_pos hy]
  have hsr : ∀ u : Nat, u < 2 ^ 31 → sext64 (u >>> (29 - lvl)) = u >>> (29 - lvl) := by
    intro u hu
    rw [sext64, if_pos]
    rw [Nat.shiftRight_eq_div_pow]
    exact lt_of_le_of_lt (Nat.div_le_self _ _) hu
  have hkq : quadKey q = interleave q.x q.y 32 := by
    rw [quadKey, pkey, pkey, Nat.mod_eq_of_lt hx, Nat.mod_eq_of_lt hy]
  have hmain : interleave (q.x >>> (29 - lvl)) (q.y >>> (29 - lvl)) (lvl + (32 - 29)) =
      interleave q.x q.y 32 >>> (2 * (29 - lvl)) := by
    apply Nat.eq_of_testBit_eq
    intro j
    rw [Nat.testBit_shiftRight]
    rcases Nat.even_or_odd j with he | ho
    · obtain ⟨i, hi⟩ := he
      have hj : j = 2 * i := by omega
      subst hj
      rw [interleave_testBit_even]
      rw [show 2 * (29 - lvl) + 2 * i = 2 * ((29 - lvl) + i) from by ring,
        interleave_testBit_even]
      by_cases hc : i < lvl + (32 - 29)
      · rw [decide_eq_true hc, decide_eq_true (show (29 - lvl) + i < 32 from by omega),
          Nat.testBit_shiftRight]
      · rw [decide_eq_false hc, decide_eq_false (show ¬ ((29 - lvl) + i < 32) from by omega)]
        simp
    · obtain ⟨i, hi⟩ := ho
      subst hi
      rw [interleave_testBit_odd]
      rw [show 2 * (29 - lvl) + (2 * i + 1) = 2 * ((29 - lvl) + i) + 1 from by ring,
        interleave_testBit_odd]
      by_cases hc : i < lvl + (32 - 29)
      · rw [decide_eq_true hc, decide_eq_true (show (29 - lvl) + i < 32 from by omega),
          Nat.testBit_shiftRight]
      · rw [decide_eq_false hc, decide_eq_false (show ¬ ((29 - lvl) + i < 32) from by omega)]
        simp
  rw [p4est_quadrant_linear_id, hM, hxs, hys, hsr q.x hx, hsr q.y hy, hmain, hkq, hcov,
    Nat.shiftRight_eq_div_pow]

theorem is_next_of_consecutive (q r : Quadrant) (hq : p4est_quadrant_is_valid q)
    (hr : p4est_quadrant_is_valid r)
    (hk : quadKey r = quadKey q + coverLen q.level) :
    p4est_quadrant_is_next q r := by
  have hM : P4EST_MAXLEVEL = 29 := rfl
  have hR : P4EST_ROOT_LEN = 2 ^ 29 := rfl
  have hql : q.level ≤ 29 := by have := hq.1; omega
  have hrl : r.level ≤ 29 := by have := hr.1; omega
  have hqx31 : q.x < 2 ^ 31 := by
    have := hq.2.1
    rw [hR] at this
    omega
  have hqy31 : q.y < 2 ^ 31 := by
    have := hq.2.2.1
    rw [hR] at this
    omega
  have hrx31 : r.x < 2 ^ 31 := by
    have := hr.2.1
    rw [hR] at this
    omega
  have hry31 : r.y < 2 ^ 31 := by
    have := hr.2.2.1
    rw [hR] at this
    omega
  have hqmod := quadKey_mod_cover q (valid_extended q hq)
  have hrmod := quadKey_mod_cover r (valid_extended r hr)
  have hklt := quadKey_lt q hq
  have h464 : (4 : Nat) ^ 29 < 2 ^ 64 := by norm_num
  unfold p4est_quadrant_is_next
  by_cases hlv : r.level < q.level
  · rw [if_pos hlv]
    -- the covers at the two levels
    have hcq : coverLen q.level = 2 ^ (2 * (29 - q.level)) := by
      rw [coverLen, hM, pow4_eq]
    have hcr : coverLen r.level = 2 ^ (2 * (29 - r.level)) := by
      rw [coverLen, hM, pow4_eq]
    have hcqr : coverLen q.level < coverLen r.level := by
      rw [coverLen, coverLen, hM]
      exact Nat.pow_lt_pow_right (by norm_num) (by omega)
    have hcqpos := coverLen_pos q.level
    have hcrpos := coverLen_pos r.level
    -- key of q modulo the coarse cover is cover r - cover q
    have hqm : quadKey q % coverLen r.level = coverLen r.level - coverLen q.level := by
      have hsum : (quadKey q + coverLen q.level) % coverLen r.level = 0 := by
        rw [← hk]
        exact hrmod
      have hm1 : quadKey q % coverLen r.level < coverLen r.level :=
        Nat.mod_lt _ hcrpos
      have hm2 : (quadKey q % coverLen r.level + coverLen q.level) % coverLen r.level
          = 0 := by
        rw [Nat.add_mod, Nat.mod_mod_of_dvd _ (dvd_refl _), ← Nat.add_mod]
        exact hsum
      obtain ⟨k, hmk⟩ := Nat.dvd_of_mod_eq_zero hm2
      have hk2 : coverLen r.level * k < coverLen r.level * 2 := by omega
      have hklt2 : k < 2 := Nat.lt_of_mul_lt_mul_left hk2
      have hk01 : k = 0 ∨ k = 1 := by omega
      rcases hk01 with h0 | h1
      · rw [h0, Nat.mul_zero] at hmk
        omega
      · rw [h1, Nat.mul_one] at hmk
        omega
    -- bits of the key of q in the window are all ones
    have hKbit : ∀ t, 2 * (29 - q.level) ≤ t → t < 2 * (29 - r.level) →
        (quadKey q).testBit t = true := by
      intro t h1 h2
      have h3 : (quadKey q % 2 ^ (2 * (29 - r.level))).testBit t = true := by
        rw [← hcr, hqm, hcq, hcr,
          pow_sub_pow_testBit _ _ _ (by omega),
          decide_eq_true h1, decide_eq_true h2]
        rfl
      rw [Nat.testBit_mod_two_pow, decide_eq_true h2, Bool.true_and] at h3
      exact h3
    have hkq : quadKey q = interleave q.x q.y 32 := quadKey_valid q hq
    have hxbit : ∀ i, 29 - q.level ≤ i → i < 29 - r.level → q.x.testBit i = true := by
      intro i h1 h2
      have h3 := hKbit (2 * i) (by omega) (by omega)
      rw [hkq, interleave_testBit_even, decide_eq_true (show i < 32 from by omega),
        Bool.true_and] at h3
      exact h3
    have hybit : ∀ i, 29 - q.level ≤ i → i < 29 - r.level → q.y.testBit i = true := by
      intro i h1 h2
      have h3 := hKbit (2 * i + 1) (by omega) (by omega)
      rw [hkq, interleave_testBit_odd, decide_eq_true (show i < 32 from by omega),
        Bool.true_and] at h3
      exact h3
    have hqlenr : P4EST_QUADRANT_LEN r.level = 2 ^ (29 - r.level) := rfl
    have hqlenq : P4EST_QUADRANT_LEN q.level = 2 ^ (29 - q.level) := rfl
    have hand : ∀ u : Nat, (∀ i, 29 - q.level ≤ i → i < 29 - r.level →
        u.testBit i = true) →
        u &&& (2 ^ (29 - r.level) - 2 ^ (29 - q.level)) =
          2 ^ (29 - r.level) - 2 ^ (29 - q.level) := by
      intro u hbits
      apply Nat.eq_of_testBit_eq
      intro j
      rw [Nat.testBit_and, pow_sub_pow_testBit _ _ _ (by omega)]
      by_cases h1 : 29 - q.level ≤ j ∧ j < 29 - r.level
      · rw [hbits j h1.1 h1.2, decide_eq_true h1.1, decide_eq_true h1.2]
        rfl
      · have hz : (decide (29 - q.level ≤ j) && decide (j < 29 - r.level)) = false := by
          rcases not_and_or.mp h1 with h | h
          · rw [decide_eq_false h, Bool.false_and]
          · rw [decide_eq_false h, Bool.and_false]
        rw [hz, Bool.and_false]
    -- the consecutive linear ids at the coarse level
    have hdm := Nat.div_add_mod (quadKey q) (coverLen r.level)
    have hidq : p4est_quadrant_linear_id q r.level = quadKey q / coverLen r.level :=
      linear_id_valid q hqx31 hqy31 r.level hrl
    have hidr : p4est_quadrant_linear_id r r.level = quadKey r / coverLen r.level :=
      linear_id_valid r hrx31 hry31 r.level hrl
    have hrdiv : quadKey r / coverLen r.level = quadKey q / coverLen r.level + 1 := by
      have hreq : quadKey r = coverLen r.level * (quadKey q / coverLen r.level + 1) := by
        rw [Nat.mul_add, Nat.mul_one]
        omega
      rw [hreq, Nat.mul_div_cancel_left _ hcrpos]
    refine ⟨?_, ?_, ?_⟩
    · rw [hqlenr, hqlenq]
      exact hand q.x hxbit
    · rw [hqlenr, hqlenq]
      exact hand q.y hybit
    · rw [hidq, hidr, hrdiv]
      have hdle : quadKey q / coverLen r.level ≤ quadKey q := Nat.div_le_self _ _
      exact Nat.mod_eq_of_lt (by omega)
  · rw [if_neg hlv]
    have hcqpos := coverLen_pos q.level
    have hidq : p4est_quadrant_linear_id q q.level = quadKey q / coverLen q.level :=
      linear_id_valid q hqx31 hqy31 q.level hql
    have hidr : p4est_quadrant_linear_id r q.level = quadKey r / coverLen q.level :=
      linear_id_valid r hrx31 hry31 q.level hql
    have hrdiv : quadKey r / coverLen q.level = quadKey q / coverLen q.level + 1 := by
      have hdm := Nat.div_add_mod (quadKey q) (coverLen q.level)
      have hreq : quadKey r = coverLen q.level * (quadKey q / coverLen q.level + 1) := by
        rw [Nat.mul_add, Nat.mul_one]
        omega
      rw [hreq, Nat.mul_div_cancel_left _ hcqpos]
    rw [hidq, hidr, hrdiv]
    have hdle : quadKey q / coverLen q.level ≤ quadKey q := Nat.div_le_self _ _
    exact Nat.mod_eq_of_lt (by omega)

theorem crLoop_spec (a b : Quadrant) (hva : p4est_quadrant_is_valid a)
    (hvb : p4est_quadrant_is_valid b)
    (hab : p4est_quadrant_compare a b < 0)
    (hnab : ¬ p4est_quadrant_is_ancestor a b) :
    ∀ (fuel : Nat) (W : List Quadrant) (s : Nat),
    (∀ w ∈ W, p4est_quadrant_is_valid w ∧ ¬ p4est_quadrant_is_ancestor a w ∧
      ¬ p4est_quadrant_is_ancestor b w) →
    isTiling s W →
    (W.map (fun w => crBudget (max a.level b.level - w.level))).sum ≤ fuel →
    (∀ u ∈ completeRegionLoop a b fuel W, p4est_quadrant_is_valid u) ∧
    (max s (quadKey a + coverLen a.level) < min (tilingEnd s W) (quadKey b) →
      isTiling (max s (quadKey a + coverLen a.level)) (completeRegionLoop a b fuel W) ∧
      tilingEnd (max s (quadKey a + coverLen a.level)) (completeRegionLoop a b fuel W) =
        min (tilingEnd s W) (quadKey b)) ∧
    (min (tilingEnd s W) (quadKey b) ≤ max s (quadKey a + coverLen a.level) →
      completeRegionLoop a b fuel W = []) := by
  have hea := valid_extended a hva
  have heb := valid_extended b hvb
  have hra := valid_range a hva
  have hrb := valid_range b hvb
  have hcapos := coverLen_pos a.level
  have hcbpos := coverLen_pos b.level
  intro fuel
  induction fuel with
  | zero =>
    intro W s hW hT hF
    cases W with
    | nil =>
      refine ⟨fun u hu => absurd hu (List.not_mem_nil u), ?_, fun _ => rfl⟩
      intro hlt
      exfalso
      rw [tilingEnd_nil] at hlt
      omega
    | cons w rest =>
      exfalso
      rw [List.map_cons, List.sum_cons] at hF
      have := crBudget_pos (max a.level b.level - w.level)
      omega
  | succ fuel ih =>
    intro W s hW hT hF
    cases W with
    | nil =>
      refine ⟨fun u hu => by rw [show completeRegionLoop a b (fuel + 1) [] = []
          from by simp [completeRegionLoop]] at hu; exact absurd hu (List.not_mem_nil u),
        ?_, fun _ => by simp [completeRegionLoop]⟩
      intro hlt
      exfalso
      rw [tilingEnd_nil] at hlt
      omega
    | cons w rest =>
      obtain ⟨hvw, hwa, hwb⟩ := hW w (List.mem_cons_self w rest)
      have hWrest : ∀ u ∈ rest, p4est_quadrant_is_valid u ∧
          ¬ p4est_quadrant_is_ancestor a u ∧ ¬ p4est_quadrant_is_ancestor b u :=
        fun u hu => hW u (List.mem_cons_of_mem w hu)
      obtain ⟨hkw, hTrest⟩ := hT
      rw [List.map_cons, List.sum_cons] at hF
      have hbre : (rest.map (fun u => crBudget (max a.level b.level - u.level))).sum
          ≤ fuel := by
        have := crBudget_pos (max a.level b.level - w.level)
        omega
      have hcwpos := coverLen_pos w.level
      have hew := valid_extended w hvw
      have hrw := valid_range w hvw
      simp only [completeRegionLoop]
      by_cases hE : (p4est_quadrant_compare a w < 0 ∧ p4est_quadrant_compare w b < 0) ∧
          ¬ p4est_quadrant_is_ancestor w b
      · rw [if_pos hE]
        obtain ⟨⟨haw, hwbc⟩, hnwb⟩ := hE
        have hAs : quadKey a + coverLen a.level ≤ s := by
          rcases block_cases w a hvw hva with h | h | h | h | h
          · exfalso
            rw [h, compare_self] at haw
            exact absurd haw (lt_irrefl 0)
          · exfalso
            have h1 := ancestor_compare_lt w a hew hea hrw hra h
            have h2 := (compare_swap_pos w a hew hea hrw hra).2 haw
            omega
          · exact absurd h hwa
          · exfalso
            have h1 := (compare_lt_iff a w hea hew hra hrw).1 haw
            rcases h1 with h1 | ⟨h1, _⟩ <;> omega
          · omega
        have hsB : s + coverLen w.level ≤ quadKey b := by
          have := gap_exists w b hvw hvb hwbc hnwb
          omega
        obtain ⟨ih1, ih2, ih3⟩ := ih rest (s + coverLen w.level) hWrest hTrest hbre
        rw [tilingEnd_cons]
        have hge := tilingEnd_ge (s + coverLen w.level) rest
        refine ⟨?_, ?_, ?_⟩
        · intro u hu
          rcases List.mem_cons.mp hu with h | h
          · rw [h]
            exact hvw
          · exact ih1 u h
        · intro hlt
          have hmaxs : max s (quadKey a + coverLen a.level) = s := by omega
          rw [hmaxs]
          constructor
          · show quadKey w = s ∧
              isTiling (s + coverLen w.level) (completeRegionLoop a b fuel rest)
            refine ⟨hkw, ?_⟩
            by_cases hc : max (s + coverLen w.level)
                (quadKey a + coverLen a.level) <
                min (tilingEnd (s + coverLen w.level) rest) (quadKey b)
            · have h5 := (ih2 hc).1
              rw [Nat.max_eq_left (by omega)] at h5
              exact h5
            · rw [ih3 (by omega)]
              trivial
          · show tilingEnd s (w :: completeRegionLoop a b fuel rest) = _
            rw [tilingEnd_cons]
            by_cases hc : max (s + coverLen w.level)
                (quadKey a + coverLen a.level) <
                min (tilingEnd (s + coverLen w.level) rest) (quadKey b)
            · have h5 := (ih2 hc).2
              rw [Nat.max_eq_left (by omega)] at h5
              exact h5
            · rw [ih3 (by omega), tilingEnd_nil]
              omega
        · intro hle
          exfalso
          omega
      · rw [if_neg hE]
        by_cases hX : p4est_quadrant_is_ancestor w a ∨ p4est_quadrant_is_ancestor w b
        · rw [if_pos hX]
          have hlw : w.level < P4EST_MAXLEVEL := by
            rcases hX with h | h
            · have h1 := h.1
              have h2 := hva.1
              omega
            · have h1 := h.1
              have h2 := hvb.1
              omega
          obtain ⟨hcv_all, hct, hce, hclen⟩ := children_spec w hvw hlw
          have hWch : ∀ u ∈ p4est_quadrant_children w ++ rest,
              p4est_quadrant_is_valid u ∧ ¬ p4est_quadrant_is_ancestor a u ∧
              ¬ p4est_quadrant_is_ancestor b u := by
            intro u hu
            rcases List.mem_append.mp hu with h | h
            · obtain ⟨h1, _⟩ := hcv_all u h
              obtain ⟨h2, h3⟩ := child_inv a b w u hva hvb hvw hab hnab hwa hwb hX hlw h
              exact ⟨h1, h2, h3⟩
            · exact hWrest u h
          have hce' : tilingEnd s (p4est_quadrant_children w) = s + coverLen w.level := by
            rw [← hkw]
            exact hce
          have hTch : isTiling s (p4est_quadrant_children w ++ rest) := by
            apply isTiling_append
            · rw [← hkw]
              exact hct
            · rw [hce']
              exact hTrest
          have hFch : ((p4est_quadrant_children w ++ rest).map
              (fun u => crBudget (max a.level b.level - u.level))).sum ≤ fuel := by
            rw [List.map_append, List.sum_append]
            rw [sum_map_budget_const (p4est_quadrant_children w) (w.level + 1)
              (max a.level b.level) (fun c hc => (hcv_all c hc).2), hclen]
            have hwlt : w.level < max a.level b.level := by
              rcases hX with h | h
              · have := h.1
                omega
              · have := h.1
                omega
            have hbud : crBudget (max a.level b.level - w.level) =
                1 + 4 * crBudget (max a.level b.level - (w.level + 1)) := by
              rw [show max a.level b.level - w.level =
                (max a.level b.level - (w.level + 1)) + 1 from by omega]
              rfl
            omega
          have hech : tilingEnd s (p4est_quadrant_children w ++ rest) =
              tilingEnd (s + coverLen w.level) rest := by
            rw [tilingEnd_append, hce']
          obtain ⟨ih1, ih2, ih3⟩ := ih (p4est_quadrant_children w ++ rest) s
            hWch hTch hFch
          rw [hech] at ih2 ih3
          rw [tilingEnd_cons]
          exact ⟨ih1, ih2, ih3⟩
        · rw [if_neg hX]
          obtain ⟨hnwa, hnwb⟩ := not_or.mp hX
          have hdrop : s + coverLen w.level ≤ quadKey a + coverLen a.level ∨
              quadKey b ≤ s := by
            rcases block_cases w a hvw hva with h | h | h | h | h
            · left
              have h1 : quadKey w = quadKey a := by rw [h]
              have h2 : w.level = a.level := by rw [h]
              have h3 : coverLen w.level = coverLen a.level := by rw [h2]
              omega
            · exact absurd h hnwa
            · exact absurd h hwa
            · left
              omega
            · rcases block_cases w b hvw hvb with h2 | h2 | h2 | h2 | h2
              · right
                have h3 : quadKey w = quadKey b := by rw [h2]
                omega
              · exact absurd h2 hnwb
              · exact absurd h2 hwb
              · exfalso
                apply hE
                refine ⟨⟨?_, ?_⟩, hnwb⟩
                · rw [compare_lt_iff a w hea hew hra hrw]
                  left
                  omega
                · rw [compare_lt_iff w b hew heb hrw hrb]
                  left
                  omega
              · right
                omega
          obtain ⟨ih1, ih2, ih3⟩ := ih rest (s + coverLen w.level) hWrest hTrest hbre
          rw [tilingEnd_cons]
          have hge := tilingEnd_ge (s + coverLen w.level) rest
          rcases hdrop with hd | hd
          · have hm1 : max s (quadKey a + coverLen a.level) =
                quadKey a + coverLen a.level := by omega
            have hm2 : max (s + coverLen w.level) (quadKey a + coverLen a.level) =
                quadKey a + coverLen a.level := by omega
            rw [hm1]
            rw [hm2] at ih2 ih3
            exact ⟨ih1, ih2, ih3⟩
          · refine ⟨ih1, ?_, ?_⟩
            · intro hlt
              exfalso
              omega
            · intro _
              apply ih3
              omega

theorem isTiling_chain (W : List Quadrant) (s : Nat) (h : isTiling s W) :
    List.Chain' (fun u v => quadKey v = quadKey u + coverLen u.level) W := by
  induction W generalizing s with
  | nil => exact List.chain'_nil
  | cons w rest ih =>
    obtain ⟨hk, ht⟩ := h
    rw [List.chain'_cons']
    refine ⟨?_, ih _ ht⟩
    intro u hu
    cases rest with
    | nil => simp at hu
    | cons r rest' =>
      have hru : r = u := by simpa using hu
      subst hru
      have h1 := ht.1
      omega

theorem crOut_spec (a b : Quadrant) (hva : p4est_quadrant_is_valid a)
    (hvb : p4est_quadrant_is_valid b)
    (hab : p4est_quadrant_compare a b < 0)
    (hnab : ¬ p4est_quadrant_is_ancestor a b) :
    (∀ u ∈ completeRegionLoop a b (crBudget (max a.level b.level + 2))
      (p4est_quadrant_children (p4est_nearest_common_ancestor a b)),
      p4est_quadrant_is_valid u) ∧
    isTiling (quadKey a + coverLen a.level)
      (completeRegionLoop a b (crBudget (max a.level b.level + 2))
        (p4est_quadrant_children (p4est_nearest_common_ancestor a b))) ∧
    tilingEnd (quadKey a + coverLen a.level)
      (completeRegionLoop a b (crBudget (max a.level b.level + 2))
        (p4est_quadrant_children (p4est_nearest_common_ancestor a b))) =
      quadKey b := by
  obtain ⟨hNv, hNlev⟩ := nca_valid a b hva hvb
  have hea := valid_extended a hva
  have heb := valid_extended b hvb
  have hra := valid_range a hva
  have hrb := valid_range b hvb
  have hM : P4EST_MAXLEVEL = 29 := rfl
  have hR : P4EST_ROOT_LEN = 2 ^ 29 := rfl
  have hax : a.x < 2 ^ 29 := by have := hva.2.1; rwa [hR] at this
  have hay : a.y < 2 ^ 29 := by have := hva.2.2.1; rwa [hR] at this
  have hbx : b.x < 2 ^ 29 := by have := hvb.2.1; rwa [hR] at this
  have hby : b.y < 2 ^ 29 := by have := hvb.2.2.1; rwa [hR] at this
  have hsame : (a.x ^^^ b.x) ||| (a.y ^^^ b.y) < 2 ^ 29 :=
    Nat.or_lt_two_pow (Nat.xor_lt_two_pow hax hbx) (Nat.xor_lt_two_pow hay hby)
  have hsame' : (b.x ^^^ a.x) ||| (b.y ^^^ a.y) < 2 ^ 29 := by
    rw [Nat.xor_comm b.x, Nat.xor_comm b.y]
    exact hsame
  have hne : a ≠ b := by
    intro h
    rw [h, compare_self] at hab
    exact absurd hab (lt_irrefl 0)
  have hNa := nca_ancestor a b hea heb hsame
  have hNb : p4est_nearest_common_ancestor a b = b ∨
      p4est_quadrant_is_ancestor (p4est_nearest_common_ancestor a b) b := by
    rw [nca_symm a b hea heb hsame]
    exact nca_ancestor b a heb hea hsame'
  have hanca : p4est_quadrant_is_ancestor (p4est_nearest_common_ancestor a b) a := by
    rcases hNa with h | h
    · exfalso
      rcases hNb with h2 | h2
      · rw [h] at h2
        exact hne h2
      · rw [h] at h2
        exact hnab h2
    · exact h
  have hancb : p4est_quadrant_is_ancestor (p4est_nearest_common_ancestor a b) b := by
    rcases hNb with h | h
    · exfalso
      rcases hNa with h2 | h2
      · rw [h] at h2
        exact hne h2.symm
      · rw [h] at h2
        have h3 := ancestor_compare_lt b a heb hea hrb hra h2
        have h4 := (compare_swap_pos b a heb hea hrb hra).2 hab
        omega
    · exact h
  have hNl29 : (p4est_nearest_common_ancestor a b).level < P4EST_MAXLEVEL := by
    have h1 := hanca.1
    have h2 := hva.1
    omega
  obtain ⟨hcv_all, hct, hce, hclen⟩ :=
    children_spec (p4est_nearest_common_ancestor a b) hNv hNl29
  have hWch : ∀ c ∈ p4est_quadrant_children (p4est_nearest_common_ancestor a b),
      p4est_quadrant_is_valid c ∧ ¬ p4est_quadrant_is_ancestor a c ∧
      ¬ p4est_quadrant_is_ancestor b c := by
    intro c hc
    obtain ⟨hc1, hc2⟩ := hcv_all c hc
    refine ⟨hc1, ?_, ?_⟩
    · intro h
      have h1 := h.1
      have h2 := hanca.1
      omega
    · intro h
      have h1 := h.1
      have h2 := hancb.1
      omega
  have hFch : ((p4est_quadrant_children (p4est_nearest_common_ancestor a b)).map
      (fun u => crBudget (max a.level b.level - u.level))).sum ≤
      crBudget (max a.level b.level + 2) := by
    rw [sum_map_budget_const _ ((p4est_nearest_common_ancestor a b).level + 1) _
      (fun c hc => (hcv_all c hc).2), hclen]
    have h1 : crBudget (max a.level b.level -
        ((p4est_nearest_common_ancestor a b).level + 1)) ≤
        crBudget (max a.level b.level + 1) := crBudget_mono _ _ (by omega)
    have h2 : crBudget (max a.level b.level + 2) =
        1 + 4 * crBudget (max a.level b.level + 1) := rfl
    omega
  obtain ⟨h1, h2, h3⟩ := crLoop_spec a b hva hvb hab hnab
    (crBudget (max a.level b.level + 2))
    (p4est_quadrant_children (p4est_nearest_common_ancestor a b))
    (quadKey (p4est_nearest_common_ancestor a b)) hWch hct hFch
  obtain ⟨_, hta1, hta2⟩ := anc_tile (p4est_nearest_common_ancestor a b) a hNv hva hanca
  obtain ⟨_, htb1, htb2⟩ := anc_tile (p4est_nearest_common_ancestor a b) b hNv hvb hancb
  have hgap := gap_exists a b hva hvb hab hnab
  have hcap := coverLen_pos a.level
  have hcbp := coverLen_pos b.level
  rw [hce] at h2 h3
  have hmax : max (quadKey (p4est_nearest_common_ancestor a b))
      (quadKey a + coverLen a.level) = quadKey a + coverLen a.level := by omega
  have hmin : min (quadKey (p4est_nearest_common_ancestor a b) +
      coverLen (p4est_nearest_common_ancestor a b).level) (quadKey b) = quadKey b := by
    omega
  rw [hmax, hmin] at h2 h3
  by_cases hAB : quadKey a + coverLen a.level < quadKey b
  · obtain ⟨h4, h5⟩ := h2 hAB
    exact ⟨h1, h4, h5⟩
  · have hempty := h3 (by omega)
    refine ⟨h1, ?_, ?_⟩
    · rw [hempty]
      trivial
    · rw [hempty, tilingEnd_nil]
      omega
